import Mathlib

/-!
Verification development for the frp updater script (update.py).

The script keeps a local extraction of the frp release archive in sync with
the latest GitHub release.  We give a shallow embedding: the filesystem is a
finite association list from paths (lists of name components) to nodes
(regular files with string contents, or directories), and each os / shutil /
tarfile operation used by the script is translated into a function on that
model, following POSIX semantics for the cases the script can reach:

  os.makedirs(p, exist_ok=True)   -> makedirsFS
  open(p, "w") / f.write          -> writeFileFS
  os.rename(src, dst)             -> renameFS   (errors when dst is an
                                     existing non-empty directory, or on a
                                     file/directory kind mismatch)
  os.rmdir(p)                     -> rmdirFS    (errors when p is non-empty)
  shutil.rmtree(p)                -> rmtreeFS
  os.listdir(p)                   -> childNamesFS (snapshot list; the order
                                     is the entry order of the model, which
                                     stands in for the unspecified OS order)
  os.path.exists / os.path.isdir  -> existsFS / isdirFS

tarfile extraction: the script calls tar.extractall with a filter that
returns every member unchanged, which is the fully trusted behaviour: each
member is written at the joined path with no escape check, and the OS
resolves ".." components.  We model a tar archive as a list of entries
(directories and files) plus an optional corruption point: a gzip stream
that turns out corrupt makes extraction raise after the prefix of members
extracted so far, which the model expresses with corruptAfter = some k.

External collaborators (the GitHub metadata query and the byte download)
are inputs of the model: the release manifest and the archive served at the
asset URL are parameters, and a boolean says whether the download request
succeeds.  Version parsing and comparison (packaging.version) is modelled
for the version shapes in play: an optional leading v, then dot-separated
numeric components, compared componentwise with zero padding.

An operation returns a result that is either ok or an error, and in both
cases carries the filesystem at that moment, since the script has no
exception handlers and an error leaves all mutations made so far in place.
-/

namespace Frp

/-- A path, as a list of name components relative to the working directory. -/
abbrev FPath := List String

/-- A filesystem node: a regular file with contents, or a directory. -/
inductive FNode where
  | file (content : String)
  | dir
deriving DecidableEq, Repr

/-- The filesystem: an association list from paths to nodes.  Operations keep
keys unique by erasing a path before inserting it. -/
abbrev FSys := List (FPath × FNode)

def lookupFS (fs : FSys) (p : FPath) : Option FNode :=
  match fs with
  | [] => none
  | e :: rest => if e.1 = p then some e.2 else lookupFS rest p

def eraseFS (fs : FSys) (p : FPath) : FSys :=
  fs.filter (fun e => decide (e.1 ≠ p))

def insertFS (fs : FSys) (p : FPath) (n : FNode) : FSys :=
  (p, n) :: eraseFS fs p

/-- leadsTo p q: p is a leading portion (an ancestor-or-self path) of q. -/
def leadsTo : FPath → FPath → Bool
  | [], _ => true
  | _ :: _, [] => false
  | a :: as, b :: bs => if a = b then leadsTo as bs else false

/-- stripLead p q: remove the leading portion p from q, when p leads to q. -/
def stripLead : FPath → FPath → Option FPath
  | [], q => some q
  | _ :: _, [] => none
  | a :: as, b :: bs => if a = b then stripLead as bs else none

/-- The single extra component of q over p, when q = p followed by one name. -/
def childName (p q : FPath) : Option String :=
  match stripLead p q with
  | some [n] => some n
  | _ => none

/-- os.listdir p on the model: the immediate child names of p, in the entry
order of the filesystem list. -/
def childNamesFS (fs : FSys) (p : FPath) : List String :=
  fs.filterMap (fun e => childName p e.1)

/-- Does the filesystem hold any entry strictly below p? -/
def hasStrictDesc (fs : FSys) (p : FPath) : Bool :=
  fs.any (fun e => leadsTo p e.1 && decide (e.1 ≠ p))

/-- Result of a step of the script: ok, or a raised exception.  Both carry
the filesystem at that moment (there are no handlers in the script, so an
exception leaves every mutation made so far in place). -/
inductive Res where
  | ok (fs : FSys)
  | err (msg : String) (fs : FSys)
deriving DecidableEq, Repr

def Res.bind (r : Res) (f : FSys → Res) : Res :=
  match r with
  | .ok fs => f fs
  | .err m fs => .err m fs

/-- The filesystem carried by a result, on both the ok and the error side. -/
def Res.fsys : Res → FSys
  | .ok fs => fs
  | .err _ fs => fs

def Res.isErr : Res → Bool
  | .ok _ => false
  | .err _ _ => true

def LOCAL_VERSION_FILE : String := "local_version.txt"
def DOWNLOAD_DIR : String := "temp"
def EXTRACT_DIR : String := "frp"
def DOWNLOAD_SUB : String := "temp"
def TEMP_SWAP_DIR : String := EXTRACT_DIR ++ "-temp"

def eNOENT : String := "FileNotFoundError"
def eEXISTS : String := "FileExistsError"
def eNOTDIR : String := "NotADirectoryError"
def eISDIR : String := "IsADirectoryError"
def eNOTEMPTY : String := "OSError ENOTEMPTY"
def eREAD : String := "tarfile ReadError"
def eHTTP : String := "requests HTTPError"

/-- Path normalisation as the OS performs it on a joined path: empty and
dot components vanish, a dot-dot component removes the preceding one. -/
def normSegs (acc : FPath) : FPath → FPath
  | [] => acc
  | c :: rest =>
    if c = "" ∨ c = "." then normSegs acc rest
    else if c = ".." then normSegs acc.dropLast rest
    else normSegs (acc ++ [c]) rest

def normalizeP (p : FPath) : FPath := normSegs [] p

/-- os.makedirs with exist_ok=True: create each missing level from the top;
an existing directory at a level is fine, an existing file is an error that
keeps the levels already created. -/
def makedirsLevels (fs : FSys) (done : FPath) (todo : FPath) : Res :=
  match todo with
  | [] => .ok fs
  | c :: rest =>
    match lookupFS fs (done ++ [c]) with
    | some .dir => makedirsLevels fs (done ++ [c]) rest
    | some (.file _) => .err eEXISTS fs
    | none => makedirsLevels (insertFS fs (done ++ [c]) .dir) (done ++ [c]) rest

def makedirsFS (fs : FSys) (p : FPath) : Res := makedirsLevels fs [] p

/-- Is the parent of p present as a directory (the working directory itself,
for a single-component path)? -/
def parentOkFS (fs : FSys) (p : FPath) : Bool :=
  if p.dropLast = [] then true
  else
    match lookupFS fs p.dropLast with
    | some .dir => true
    | _ => false

/-- open(p, "w") followed by a full write: replace whatever file is at p. -/
def writeFileFS (fs : FSys) (p : FPath) (c : String) : Res :=
  if parentOkFS fs p then
    match lookupFS fs p with
    | some .dir => .err eISDIR fs
    | _ => .ok (insertFS fs p (.file c))
  else .err eNOENT fs

def rebaseP (src dst q : FPath) : FPath :=
  match stripLead src q with
  | some rest => dst ++ rest
  | none => q

def moveTreeFS (fs : FSys) (src dst : FPath) : FSys :=
  (eraseFS fs dst).map (fun e => (rebaseP src dst e.1, e.2))

/-- os.rename: moves the whole subtree at src to dst.  Errors: missing src
or missing dst parent; dst an existing node of the other kind; dst an
existing non-empty directory. -/
def renameFS (fs : FSys) (src dst : FPath) : Res :=
  match lookupFS fs src with
  | none => .err eNOENT fs
  | some sn =>
    if parentOkFS fs dst then
      match lookupFS fs dst with
      | none => .ok (moveTreeFS fs src dst)
      | some (.file _) =>
        match sn with
        | .file _ => .ok (moveTreeFS fs src dst)
        | .dir => .err eNOTDIR fs
      | some .dir =>
        match sn with
        | .file _ => .err eISDIR fs
        | .dir =>
          if hasStrictDesc fs dst then .err eNOTEMPTY fs
          else .ok (moveTreeFS fs src dst)
    else .err eNOENT fs

/-- os.rmdir: remove an empty directory. -/
def rmdirFS (fs : FSys) (p : FPath) : Res :=
  match lookupFS fs p with
  | none => .err eNOENT fs
  | some (.file _) => .err eNOTDIR fs
  | some .dir =>
    if hasStrictDesc fs p then .err eNOTEMPTY fs
    else .ok (eraseFS fs p)

/-- shutil.rmtree: remove a directory with its whole subtree. -/
def rmtreeFS (fs : FSys) (p : FPath) : Res :=
  match lookupFS fs p with
  | some .dir => .ok (fs.filter (fun e => !(leadsTo p e.1)))
  | some (.file _) => .err eNOTDIR fs
  | none => .err eNOENT fs

def existsFS (fs : FSys) (p : FPath) : Bool := (lookupFS fs p).isSome

def isdirFS (fs : FSys) (p : FPath) : Bool := lookupFS fs p = some .dir

/-- A tar member: a directory entry, or a regular file entry with contents.
The path is the member name split on slashes; a malicious name can hold
dot-dot components. -/
inductive TarEntry where
  | dirE (path : FPath)
  | fileE (path : FPath) (content : String)
deriving DecidableEq, Repr

def TarEntry.path : TarEntry → FPath
  | .dirE p => p
  | .fileE p _ => p

/-- A downloaded archive: its members in order, and an optional corruption
point.  corruptAfter = some k models a gzip stream that turns out corrupt
once k members have been extracted: tarfile raises ReadError there, with
the first k members already on disk. -/
structure Archive where
  entries : List TarEntry
  corruptAfter : Option Nat
deriving DecidableEq, Repr

/-- Extraction of one member at its joined, OS-resolved path.  The script
passes tar.extractall a filter returning every member unchanged (the fully
trusted behaviour), so there is no path-escape check here: this is faithful
to the code, not an omission.  tarfile creates missing parent directories
of a member before writing it. -/
def extractEntry (base : FPath) (e : TarEntry) (fs : FSys) : Res :=
  match e with
  | .dirE p => makedirsFS fs (normalizeP (base ++ p))
  | .fileE p c =>
    let tgt := normalizeP (base ++ p)
    Res.bind (makedirsFS fs tgt.dropLast) (fun fs1 => writeFileFS fs1 tgt c)

/-- tar.extractall: extract the members in order, raising at the corruption
point when there is one. -/
def extractList (base : FPath) : List TarEntry → Option Nat → FSys → Res
  | _, some 0, fs => .err eREAD fs
  | [], _, fs => .ok fs
  | e :: rest, cut, fs =>
    Res.bind (extractEntry base e fs)
      (fun fs1 => extractList base rest (cut.map (fun n => n - 1)) fs1)

/-- The inner loop of extract_tar_gz: move every item of one extracted
top-level directory into the target directory, one os.rename per item. -/
def innerMove (memberPath target : FPath) : List String → FSys → Res
  | [], fs => .ok fs
  | item :: rest, fs =>
    Res.bind (renameFS fs (memberPath ++ [item]) (target ++ [item]))
      (fun fs1 => innerMove memberPath target rest fs1)

/-- The outer loop of extract_tar_gz: for each member of the staging
directory (a snapshot list), when it is a directory, move its items into
the target and remove the then empty member directory. -/
def outerMove (stagingDir target : FPath) : List String → FSys → Res
  | [], fs => .ok fs
  | m :: rest, fs =>
    if isdirFS fs (stagingDir ++ [m]) then
      Res.bind (innerMove (stagingDir ++ [m]) target (childNamesFS fs (stagingDir ++ [m])) fs)
        (fun fs1 => Res.bind (rmdirFS fs1 (stagingDir ++ [m]))
          (fun fs2 => outerMove stagingDir target rest fs2))
    else outerMove stagingDir target rest fs

/-- extract_tar_gz(file_path, extract_to) of update.py: extract the whole
archive into the staging subdirectory extract_to/temp, move the contents of
each top-level extracted directory up into extract_to, then remove the
staging subdirectory.  The archive value stands for the bytes at file_path. -/
def extract_tar_gz (ar : Archive) (extract_to : FPath) (fs : FSys) : Res :=
  let staging := extract_to ++ [DOWNLOAD_SUB]
  Res.bind (makedirsFS fs staging) (fun fs1 =>
  Res.bind (extractList staging ar.entries ar.corruptAfter fs1) (fun fs2 =>
  Res.bind (outerMove staging extract_to (childNamesFS fs2 staging) fs2) (fun fs3 =>
  rmdirFS fs3 staging)))

/-- An asset of the release manifest, with the fields the script reads. -/
structure GAsset where
  name : String
  browser_download_url : String
deriving DecidableEq, Repr

/-- The release manifest, with the fields the script reads. -/
structure ReleaseInfo where
  tag_name : String
  assets : List GAsset
deriving DecidableEq, Repr

def isDigitC (c : Char) : Bool := decide ('0' ≤ c) && decide (c ≤ '9')

/-- Drop a leading run of digits. -/
def dropDigitsC : List Char → List Char
  | [] => []
  | x :: xs => if isDigitC x then dropDigitsC xs else x :: xs

/-- Consume one or more digits at the head. -/
def eatDigits1 : List Char → Option (List Char)
  | [] => none
  | x :: xs => if isDigitC x then some (dropDigitsC xs) else none

/-- Consume a literal character sequence at the head. -/
def eatLit : List Char → List Char → Option (List Char)
  | [], s => some s
  | _ :: _, [] => none
  | c :: cs, x :: xs => if x = c then eatLit cs xs else none

def litFRP : List Char := String.toList ("frp_")
def litDOT : List Char := String.toList (".")
def litTAIL : List Char := String.toList ("_linux_amd64.tar.gz")

/-- re.match of ARCHIVE_NAME_PATTERN, the raw pattern
frp_(digits.digits.digits)_linux_amd64.tar.gz anchored at the start of the
name with the rest of the name unconstrained.  Because a digit run is
always followed here by a non-digit literal, the greedy digit runs of the
regex coincide with this deterministic maximal munch.  (Python matches any
Unicode decimal digit; ASCII digits cover the asset names in scope.) -/
def matchCore (s : List Char) : Option (List Char) :=
  (eatLit litFRP s).bind (fun a =>
  (eatDigits1 a).bind (fun b =>
  (eatLit litDOT b).bind (fun c =>
  (eatDigits1 c).bind (fun d =>
  (eatLit litDOT d).bind (fun e =>
  (eatDigits1 e).bind (fun f =>
  eatLit litTAIL f))))))

def matchesArchiveName (s : String) : Bool := (matchCore s.toList).isSome

/-- find_asset_url of update.py: the download URL of the first asset whose
name matches the pattern, none when no asset matches. -/
def find_asset_url : List GAsset → Option String
  | [] => none
  | a :: rest =>
    if matchesArchiveName a.name then some a.browser_download_url
    else find_asset_url rest

def digitVal (c : Char) : Nat := c.toNat - Char.toNat ('0')

/-- Numeric value of a component (digits only, which is the shape of the
release tags in scope for packaging.version). -/
def digitsToNat (acc : Nat) : List Char → Nat
  | [] => acc
  | c :: cs =>
    if isDigitC c then digitsToNat (acc * 10 + digitVal c) cs
    else digitsToNat acc cs

def splitDots (cur : List Char) : List Char → List (List Char)
  | [] => [cur.reverse]
  | c :: cs =>
    if c = '.' then cur.reverse :: splitDots [] cs else splitDots (c :: cur) cs

/-- Modelled version parsing for packaging.version.parse, on the tag shapes
in play: an optional leading v or V, then dot-separated numeric components. -/
def parseVersion (s : String) : List Nat :=
  let cs := s.toList
  let body :=
    match cs with
    | c :: rest => if c = 'v' ∨ c = 'V' then rest else cs
    | [] => []
  (splitDots [] body).map (digitsToNat 0)

/-- Does the list hold a positive component?  (Against the zero padding of
version comparison, a tail of zeros is equality.) -/
def verPos : List Nat → Bool
  | [] => false
  | b :: bs => if 0 < b then true else verPos bs

/-- Strict componentwise order on parsed versions, with zero padding of the
shorter one, as packaging.version orders release tuples. -/
def verLt : List Nat → List Nat → Bool
  | [], bs => verPos bs
  | _ :: _, [] => false
  | a :: as, b :: bs =>
    if a < b then true else if b < a then false else verLt as bs

/-- The guard of update.py lines 102-106: the run returns early exactly when
a local version is stored and it parses strictly greater than the remote
tag; otherwise the update proceeds. -/
def update_proceeds (localv : Option String) (latest : String) : Bool :=
  match localv with
  | none => true
  | some lv => !(verLt (parseVersion latest) (parseVersion lv))

def isWS (c : Char) : Bool :=
  decide (c = ' ') || decide (c = Char.ofNat 10) ||
  decide (c = Char.ofNat 9) || decide (c = Char.ofNat 13)

/-- str.strip() on the version file contents. -/
def trimChars (s : String) : String :=
  String.mk (((s.toList.dropWhile isWS).reverse.dropWhile isWS).reverse)

/-- read_local_version of update.py: none when the file does not exist,
the stripped contents when it is a file; a directory at that path would
make open raise. -/
def read_local_version (fs : FSys) : Except String (Option String) :=
  match lookupFS fs [LOCAL_VERSION_FILE] with
  | none => .ok none
  | some (.file c) => .ok (some (trimChars c))
  | some .dir => .error eISDIR

/-- write_local_version of update.py: a plain full-file overwrite. -/
def write_local_version (fs : FSys) (v : String) : Res :=
  writeFileFS fs [LOCAL_VERSION_FILE] v

/-- os.path.basename of a URL string. -/
def lastSeg (cur : List Char) : List Char → List Char
  | [] => cur.reverse
  | c :: cs => if c = '/' then lastSeg [] cs else lastSeg (c :: cur) cs

def baseName (s : String) : String := String.mk (lastSeg [] s.toList)

/-- Inputs of one run: the release manifest the GitHub query returns, the
archive bytes served at the asset URL, and whether the download request
succeeds (the two network calls are the external collaborators). -/
structure MainInput where
  release : ReleaseInfo
  archive : Archive
  downloadOk : Bool
deriving Repr

/-- download_file of update.py: raise_for_status happens before the local
file is opened, so a failed request creates nothing; a successful one
writes the asset bytes (represented by a marker, the archive value itself
being carried alongside in MainInput). -/
def downloadFile (inp : MainInput) (fs : FSys) (p : FPath) : Res :=
  if inp.downloadOk then writeFileFS fs p ("ARCHIVE-BYTES") else .err eHTTP fs

/-- Lines 111-126 of update.py after the makedirs of the download
directory: download to temp/basename(url), extract straight into the
installation directory, extract again into the swap directory, remove the
installation directory when present, rename the swap directory onto it. -/
def installTail (inp : MainInput) (url : String) (fs1 : FSys) : Res :=
  Res.bind (downloadFile inp fs1 [DOWNLOAD_DIR, baseName url]) (fun fs2 =>
  Res.bind (extract_tar_gz inp.archive [EXTRACT_DIR] fs2) (fun fs3 =>
  Res.bind (makedirsFS fs3 [TEMP_SWAP_DIR]) (fun fs4 =>
  Res.bind (extract_tar_gz inp.archive [TEMP_SWAP_DIR] fs4) (fun fs5 =>
  Res.bind (if existsFS fs5 [EXTRACT_DIR] then rmtreeFS fs5 [EXTRACT_DIR] else .ok fs5)
    (fun fs6 => renameFS fs6 [TEMP_SWAP_DIR] [EXTRACT_DIR])))))

/-- Lines 108-126 of update.py, from the makedirs of the download directory
through the rename of the swap directory onto the installation directory. -/
def installSeq (inp : MainInput) (asset_url : String) (fs : FSys) : Res :=
  Res.bind (makedirsFS fs [DOWNLOAD_DIR])
    (fun fs1 => installTail inp asset_url fs1)

/-- main() of update.py.  The release metadata arrives as an input; a
missing matching asset returns early; the version guard returns early;
otherwise: download, extract straight into the installation directory,
extract again into the swap directory, remove the installation directory,
rename the swap directory onto it, record the version, remove the download
directory. -/
def mainModel (inp : MainInput) (fs : FSys) : Res :=
  let latest := inp.release.tag_name
  match find_asset_url inp.release.assets with
  | none => .ok fs
  | some asset_url =>
    match read_local_version fs with
    | .error m => .err m fs
    | .ok localv =>
      if update_proceeds localv latest then
        Res.bind (installSeq inp asset_url fs) (fun fs7 =>
        Res.bind (write_local_version fs7 latest) (fun fs8 =>
        rmtreeFS fs8 [DOWNLOAD_DIR]))
      else .ok fs

/-- A whole invocation of the script: the module-level
os.makedirs(EXTRACT_DIR, exist_ok=True) of line 26 runs at import, before
main. -/
def runScript (inp : MainInput) (fs : FSys) : Res :=
  Res.bind (makedirsFS fs [EXTRACT_DIR]) (fun fs1 => mainModel inp fs1)

/-! Well-formedness predicates used by the universal theorems. -/

/-- A path component that the OS treats as a plain name. -/
def goodComp (c : String) : Prop := c ≠ "" ∧ c ≠ "." ∧ c ≠ ".."

instance (c : String) : Decidable (goodComp c) := by
  unfold goodComp
  infer_instance

def goodPath (p : FPath) : Prop := ∀ c ∈ p, goodComp c

instance (p : FPath) : Decidable (goodPath p) := by
  unfold goodPath
  infer_instance

/-- The filesystem holds each path at most once (all our operations keep
this). -/
def WFfs (fs : FSys) : Prop := (fs.map Prod.fst).Nodup

instance (fs : FSys) : Decidable (WFfs fs) := by
  unfold WFfs
  infer_instance

/-- p is a strict ancestor path of q. -/
def properLead (p q : FPath) : Bool := leadsTo p q && decide (p ≠ q)

def TarEntry.isFile : TarEntry → Bool
  | .fileE _ _ => true
  | .dirE _ => false

/-- Contents of the (unique, under nodup paths) file member at path r. -/
def fileAt : List TarEntry → FPath → Option String
  | [], _ => none
  | .fileE p c :: rest, r => if p = r then some c else fileAt rest r
  | .dirE _ :: rest, r => fileAt rest r

/-- Is r a directory member, or a strict ancestor of some member path? -/
def coveredDirB (l : List TarEntry) (r : FPath) : Bool :=
  l.any (fun e =>
    (match e with
     | .dirE p => decide (p = r)
     | .fileE _ _ => false) || properLead r e.path)

/-- The node the staging area holds at staging ++ r once the members l have
been extracted into a fresh staging directory. -/
def stageLookup (l : List TarEntry) (r : FPath) : Option FNode :=
  match fileAt l r with
  | some c => some (.file c)
  | none => if coveredDirB l r then some FNode.dir else none

/-- No file member path is a strict ancestor of another member path (a tar
archive from a real tree has this; its failure would make extraction try to
treat a file as a directory). -/
def noFileAncestor (l : List TarEntry) : Prop :=
  ∀ e ∈ l, ∀ f ∈ l, e.isFile = true → properLead e.path f.path = false

instance (l : List TarEntry) : Decidable (noFileAncestor l) := by
  unfold noFileAncestor
  infer_instance

/-- q lies neither inside the subtree rooted at base nor on the
ancestor-or-self chain of base. -/
def offSide (base q : FPath) : Prop :=
  leadsTo base q = false ∧ leadsTo q base = false

/-- The step never changes the node stored at any path satisfying P,
whether it returns ok or an error. -/
def StepFrame (P : FPath → Prop) (step : FSys → Res) : Prop :=
  ∀ fs q, P q → lookupFS ((step fs).fsys) q = lookupFS fs q

/-! Concrete scenarios used by the claim theorems, counterexamples and
witnesses. -/

/-- The shape of the spec's canonical archive: one wrapper directory pkg
holding a file a and a file b/c. -/
def archCanon : Archive :=
  ⟨[ .dirE (["pkg"]),
     .fileE (["pkg", "a"]) ("A"),
     .dirE (["pkg", "b"]),
     .fileE (["pkg", "b", "c"]) ("C") ], none⟩

/-- A malicious archive whose single member climbs out of the staging area
and out of the extraction directory. -/
def archEvil : Archive :=
  ⟨[ .fileE ([".."] ++ [".."] ++ ["evil"]) ("pwn") ], none⟩

/-- The family of single-member traversal archives: one file member whose
name climbs two levels up before its final component. -/
def travArchive (n c : String) : Archive :=
  ⟨[ .fileE ([".."] ++ [".."] ++ [n]) c ], none⟩

/-- A wrapped archive whose payload has a top-level item named temp, the
name of the staging subdirectory. -/
def archTempClash : Archive :=
  ⟨[ .dirE (["pkg"]), .dirE (["pkg", "temp"]), .fileE (["pkg", "temp", "x"]) ("X") ], none⟩

/-- A wrapped archive whose payload is flat (files only), the shape of the
real frp release archives. -/
def archFlat : Archive :=
  ⟨[ .dirE (["pkg"]), .fileE (["pkg", "frpc"]) ("FC"), .fileE (["pkg", "frps"]) ("FS") ], none⟩

/-- A wrapped archive whose gzip stream turns out corrupt after one member. -/
def archCorrupt : Archive :=
  ⟨[ .dirE (["pkg"]), .fileE (["pkg", "a"]) ("A") ], some 1⟩

/-- A malicious archive that overwrites the version file by traversal and
then hits a corrupt stream. -/
def archClobber : Archive :=
  ⟨[ .fileE ([".."] ++ [".."] ++ ["local_version.txt"]) ("junk"),
     .dirE (["pkg"]) ], some 1⟩

/-- A release whose asset list matches the naming pattern. -/
def relMatch : ReleaseInfo :=
  ⟨"v2.0.0", [⟨"frp_2.0.0_linux_amd64.tar.gz", "https://host/frp_2.0.0_linux_amd64.tar.gz"⟩]⟩

/-- A release none of whose assets matches the naming pattern. -/
def relNoMatch : ReleaseInfo :=
  ⟨"v3.0.0", [⟨"frp_3.0.0_darwin_arm64.tar.gz", "https://host/frp_3.0.0_darwin_arm64.tar.gz"⟩]⟩

def inpFlat : MainInput := ⟨relMatch, archFlat, true⟩
def inpCanon : MainInput := ⟨relMatch, archCanon, true⟩
def inpCorrupt : MainInput := ⟨relMatch, archCorrupt, true⟩
def inpClobber : MainInput := ⟨relMatch, archClobber, true⟩
def inpNoMatch : MainInput := ⟨relNoMatch, archFlat, true⟩

/-- The machine state right after module import on a first install: the
installation directory exists and is empty. -/
def fsEmptyInstall : FSys := [((["frp"] : FPath), FNode.dir)]

/-- A fresh extraction target directory, as extract_tar_gz sees it when
called on the swap directory. -/
def fsFreshTarget : FSys := [((["frp-temp"] : FPath), FNode.dir)]

/-- A prior installation: one installed file and a recorded version. -/
def fsPrior : FSys :=
  [ ((["frp"] : FPath), FNode.dir),
    ((["frp", "old"] : FPath), FNode.file ("OLD")),
    (([("local_version.txt" : String)] : FPath), FNode.file ("v1.0.0")) ]

/-- A prior installation whose recorded version equals the remote tag. -/
def fsEqualVer : FSys :=
  [ ((["frp"] : FPath), FNode.dir),
    ((["frp", "stale"] : FPath), FNode.file ("STALE")),
    (([("local_version.txt" : String)] : FPath), FNode.file ("v2.0.0")) ]

/-- The state a successful first run of inpFlat ends in (checked below). -/
def fsAfterFlat : FSys :=
  [ (([("local_version.txt" : String)] : FPath), FNode.file ("v2.0.0")),
    ((["frp", "frps"] : FPath), FNode.file ("FS")),
    ((["frp", "frpc"] : FPath), FNode.file ("FC")),
    ((["frp"] : FPath), FNode.dir) ]

/-- The state a successful first run of inpCanon ends in (checked below). -/
def fsAfterCanon : FSys :=
  [ (([("local_version.txt" : String)] : FPath), FNode.file ("v2.0.0")),
    ((["frp", "b", "c"] : FPath), FNode.file ("C")),
    ((["frp", "b"] : FPath), FNode.dir),
    ((["frp", "a"] : FPath), FNode.file ("A")),
    ((["frp"] : FPath), FNode.dir) ]

/-! Basic lemmas about the filesystem model. -/

theorem lookupFS_eraseFS (fs : FSys) (p q : FPath) :
    lookupFS (eraseFS fs p) q = if q = p then none else lookupFS fs q := by
  induction fs with
  | nil => by_cases hqp : q = p <;> simp [eraseFS, lookupFS, hqp]
  | cons e rest ih =>
    by_cases hep : e.1 = p
    · have hdrop : eraseFS (e :: rest) p = eraseFS rest p := by
        simp [eraseFS, List.filter_cons, hep]
      rw [hdrop, ih]
      by_cases hqp : q = p
      · simp [hqp]
      · have heq : ¬ e.1 = q := fun h => hqp (h.symm.trans hep)
        simp [lookupFS, heq, hqp]
    · have hkeep : eraseFS (e :: rest) p = e :: eraseFS rest p := by
        simp [eraseFS, List.filter_cons, hep]
      rw [hkeep]
      by_cases heq : e.1 = q
      · have hqp : ¬ q = p := fun h => hep (heq.trans h)
        simp [lookupFS, heq, hqp]
      · simp [lookupFS, heq, ih]

theorem lookupFS_insertFS (fs : FSys) (p q : FPath) (n : FNode) :
    lookupFS (insertFS fs p n) q = if q = p then some n else lookupFS fs q := by
  by_cases hqp : q = p
  · simp [insertFS, lookupFS, hqp]
  · have hpq : ¬ p = q := fun h => hqp h.symm
    simp [insertFS, lookupFS, hpq, hqp, lookupFS_eraseFS]

theorem leadsTo_refl (p : FPath) : leadsTo p p = true := by
  induction p with
  | nil => rfl
  | cons a as ih => simp [leadsTo, ih]

theorem leadsTo_append (p r : FPath) : leadsTo p (p ++ r) = true := by
  induction p with
  | nil => rfl
  | cons a as ih => simp [leadsTo, ih]

theorem leadsTo_iff (p q : FPath) : leadsTo p q = true ↔ ∃ r, q = p ++ r := by
  constructor
  · intro h
    induction p generalizing q with
    | nil => exact ⟨q, rfl⟩
    | cons a as ih =>
      cases q with
      | nil => exact absurd h (by simp [leadsTo])
      | cons b bs =>
        by_cases hab : a = b
        · subst hab
          have hrec : leadsTo as bs = true := by
            simpa [leadsTo] using h
          obtain ⟨r, hr⟩ := ih bs hrec
          exact ⟨r, by simp [hr]⟩
        · exact absurd h (by simp [leadsTo, hab])
  · rintro ⟨r, rfl⟩
    exact leadsTo_append p r

theorem stripLead_eq_some (p q r : FPath) : stripLead p q = some r ↔ q = p ++ r := by
  induction p generalizing q with
  | nil => simp [stripLead]
  | cons a as ih =>
    cases q with
    | nil => simp [stripLead]
    | cons b bs =>
      simp only [stripLead]
      by_cases hab : a = b
      · simp [hab, ih]
      · simp [hab]
        intro h
        exact absurd h.symm hab

theorem leadsTo_trans (p q s : FPath) (h1 : leadsTo p q = true)
    (h2 : leadsTo q s = true) : leadsTo p s = true := by
  obtain ⟨r1, rfl⟩ := (leadsTo_iff p q).mp h1
  obtain ⟨r2, rfl⟩ := (leadsTo_iff _ s).mp h2
  rw [List.append_assoc]
  exact leadsTo_append p (r1 ++ r2)

theorem leadsTo_split (q a b : FPath) (h : leadsTo q (a ++ b) = true) :
    leadsTo q a = true ∨ leadsTo a q = true := by
  induction q generalizing a with
  | nil => exact Or.inl rfl
  | cons c cs ih =>
    cases a with
    | nil => exact Or.inr rfl
    | cons x xs =>
      simp only [List.cons_append, leadsTo] at h ⊢
      by_cases hcx : c = x
      · subst hcx
        simpa [leadsTo_refl] using ih xs (by simpa using h)
      · simp [hcx] at h

theorem normSegs_good (acc : FPath) (p : FPath) (h : goodPath p) :
    normSegs acc p = acc ++ p := by
  induction p generalizing acc with
  | nil => simp [normSegs]
  | cons c cs ih =>
    obtain ⟨h1, h2, h3⟩ := h c (by simp)
    have hrest : goodPath cs := fun x hx => h x (by simp [hx])
    simp [normSegs, h1, h2, h3, ih _ hrest]

theorem normalizeP_good (p : FPath) (h : goodPath p) : normalizeP p = p := by
  simpa [normalizeP] using normSegs_good [] p h

theorem stripLead_eq_none (p q : FPath) :
    stripLead p q = none ↔ leadsTo p q = false := by
  constructor
  · intro h
    by_contra hlt
    have hlt' : leadsTo p q = true := by
      cases hq : leadsTo p q with
      | true => rfl
      | false => exact absurd hq hlt
    obtain ⟨r, rfl⟩ := (leadsTo_iff p q).mp hlt'
    rw [(stripLead_eq_some p (p ++ r) r).mpr rfl] at h
    exact Option.noConfusion h
  · intro h
    cases hs : stripLead p q with
    | none => rfl
    | some r =>
      have := (stripLead_eq_some p q r).mp hs
      rw [(leadsTo_iff p q).mpr ⟨r, this⟩] at h
      exact Bool.noConfusion h

theorem leadsTo_dropLast (p : FPath) : leadsTo p.dropLast p = true := by
  cases hp : p.reverse with
  | nil =>
    have : p = [] := by simpa using congrArg List.reverse hp
    simp [this, leadsTo]
  | cons a as =>
    have hp2 : p = as.reverse ++ [a] := by
      have := congrArg List.reverse hp
      simpa using this
    rw [hp2, List.dropLast_append_cons]
    simpa using leadsTo_append as.reverse [a]

theorem lookupFS_eq_none_iff (fs : FSys) (q : FPath) :
    lookupFS fs q = none ↔ ∀ n, (q, n) ∉ fs := by
  induction fs with
  | nil => simp [lookupFS]
  | cons e rest ih =>
    by_cases heq : e.1 = q
    · simp only [lookupFS, heq, if_pos rfl]
      constructor
      · intro h; exact Option.noConfusion h
      · intro h
        exact absurd (by simp : (e.1, e.2) ∈ e :: rest)
          (by rw [heq]; exact h e.2)
    · simp only [lookupFS, if_neg heq]
      rw [ih]
      constructor
      · intro h n hn
        rcases List.mem_cons.mp hn with h1 | h1
        · exact heq (by rw [← h1])
        · exact h n h1
      · intro h n hn
        exact h n (List.mem_cons_of_mem e hn)

theorem lookupFS_isSome_iff (fs : FSys) (q : FPath) :
    (lookupFS fs q).isSome = true ↔ ∃ n, (q, n) ∈ fs := by
  constructor
  · intro h
    by_contra hne
    push_neg at hne
    rw [(lookupFS_eq_none_iff fs q).mpr hne] at h
    exact Bool.noConfusion h
  · rintro ⟨n, hn⟩
    cases hl : lookupFS fs q with
    | none => exact absurd hn ((lookupFS_eq_none_iff fs q).mp hl n)
    | some nd => rfl

theorem hasStrictDesc_eq_false_iff (fs : FSys) (p : FPath) :
    hasStrictDesc fs p = false ↔
      ∀ q n, (q, n) ∈ fs → leadsTo p q = true → q = p := by
  rw [← Bool.not_eq_true, hasStrictDesc, List.any_eq_true]
  constructor
  · intro h q n hmem hlt
    by_contra hne
    exact h ⟨(q, n), hmem, by simp [hlt, hne]⟩
  · rintro h ⟨⟨q, n⟩, hmem, hcond⟩
    simp only [Bool.and_eq_true, decide_eq_true_eq] at hcond
    exact hcond.2 (h q n hmem hcond.1)

theorem WFfs_eraseFS (fs : FSys) (p : FPath) (h : WFfs fs) : WFfs (eraseFS fs p) :=
  List.Nodup.sublist (List.Sublist.map Prod.fst (List.filter_sublist fs)) h

theorem not_mem_keys_eraseFS (fs : FSys) (p : FPath) :
    p ∉ (eraseFS fs p).map Prod.fst := by
  intro hmem
  obtain ⟨e, he, hfst⟩ := List.mem_map.mp hmem
  have := List.of_mem_filter he
  simp [hfst] at this

theorem WFfs_insertFS (fs : FSys) (p : FPath) (n : FNode) (h : WFfs fs) :
    WFfs (insertFS fs p n) := by
  unfold WFfs insertFS
  rw [List.map_cons]
  exact List.nodup_cons.mpr ⟨not_mem_keys_eraseFS fs p, WFfs_eraseFS fs p h⟩

theorem childName_eq_some (p q : FPath) (n : String) :
    childName p q = some n ↔ q = p ++ [n] := by
  cases hs : stripLead p q with
  | none =>
    simp only [childName, hs]
    constructor
    · intro h; exact Option.noConfusion h
    · intro h
      rw [(stripLead_eq_some p q [n]).mpr h] at hs
      exact Option.noConfusion hs
  | some r =>
    have hq := (stripLead_eq_some p q r).mp hs
    cases r with
    | nil =>
      simp only [childName, hs]
      constructor
      · intro h; exact Option.noConfusion h
      · intro h
        have h2 : p ++ ([] : FPath) = p ++ [n] := by rw [← hq, h]
        exact List.noConfusion (List.append_cancel_left h2)
    | cons a t =>
      cases t with
      | nil =>
        simp only [childName, hs]
        constructor
        · intro h
          have ha : a = n := by simpa using h
          rw [hq, ha]
        · intro h
          have h2 : p ++ [a] = p ++ [n] := by rw [← hq, h]
          have h3 := List.append_cancel_left h2
          simpa using h3
      | cons b t2 =>
        simp only [childName, hs]
        constructor
        · intro h; exact Option.noConfusion h
        · intro h
          have h2 : p ++ (a :: b :: t2) = p ++ [n] := by rw [← hq, h]
          have h3 := List.append_cancel_left h2
          simp at h3

theorem mem_childNamesFS (fs : FSys) (p : FPath) (n : String) :
    n ∈ childNamesFS fs p ↔ ∃ nd, (p ++ [n], nd) ∈ fs := by
  unfold childNamesFS
  rw [List.mem_filterMap]
  constructor
  · rintro ⟨e, hmem, hcn⟩
    exact ⟨e.2, by rwa [← (childName_eq_some p e.1 n).mp hcn]⟩
  · rintro ⟨nd, hmem⟩
    exact ⟨(p ++ [n], nd), hmem, (childName_eq_some p (p ++ [n]) n).mpr rfl⟩

theorem childNamesFS_nodup (fs : FSys) (p : FPath) (h : WFfs fs) :
    (childNamesFS fs p).Nodup := by
  have heq : childNamesFS fs p = (fs.map Prod.fst).filterMap (childName p) := by
    unfold childNamesFS
    rw [List.filterMap_map]
    rfl
  rw [heq]
  refine List.Nodup.filterMap ?_ h
  intro a b n ha hb
  rw [Option.mem_def, childName_eq_some] at ha hb
  rw [ha, hb]

theorem nodup_singleton_of_mem_iff {α : Type} (l : List α) (w : α)
    (hnd : l.Nodup) (hmem : ∀ x, x ∈ l ↔ x = w) : l = [w] := by
  cases l with
  | nil => exact absurd ((hmem w).mpr rfl) (by simp)
  | cons a t =>
    have ha : a = w := (hmem a).mp (by simp)
    cases t with
    | nil => rw [ha]
    | cons b t2 =>
      have hb : b = w := (hmem b).mp (by simp)
      exact absurd (by rw [ha, ← hb]; simp : a ∈ b :: t2)
        (List.nodup_cons.mp hnd).1

/-! Frame lemmas: each operation changes nothing outside its own region. -/

theorem leadsTo_take (p : FPath) (j : Nat) : leadsTo (p.take j) p = true :=
  (leadsTo_iff _ _).mpr ⟨p.drop j, (List.take_append_drop j p).symm⟩

theorem not_leadsTo_of_neq_false {p q : FPath} (h : leadsTo p q = false) : q ≠ p := by
  intro hh
  rw [hh, leadsTo_refl] at h
  exact Bool.noConfusion h

theorem StepFrame.bindStep {P : FPath → Prop} {f g : FSys → Res}
    (hf : StepFrame P f) (hg : StepFrame P g) :
    StepFrame P (fun fs => Res.bind (f fs) g) := by
  intro fs q hq
  cases h : f fs with
  | ok fs1 =>
    have h1 := hf fs q hq
    rw [h] at h1
    show lookupFS ((Res.bind (f fs) g).fsys) q = lookupFS fs q
    rw [h]
    show lookupFS ((g fs1).fsys) q = lookupFS fs q
    rw [hg fs1 q hq]
    exact h1
  | err m fs1 =>
    have h1 := hf fs q hq
    rw [h] at h1
    show lookupFS ((Res.bind (f fs) g).fsys) q = lookupFS fs q
    rw [h]
    exact h1

theorem makedirsLevels_frame (todo : FPath) (fs : FSys) (done q : FPath)
    (h : ∀ k : Nat, q ≠ done ++ todo.take (k + 1)) :
    lookupFS (makedirsLevels fs done todo).fsys q = lookupFS fs q := by
  induction todo generalizing fs done with
  | nil => rfl
  | cons c rest ih =>
    have h0 : q ≠ done ++ [c] := by simpa using h 0
    have hrec : ∀ k : Nat, q ≠ (done ++ [c]) ++ rest.take (k + 1) := by
      intro k
      have hk := h (k + 1)
      simpa [List.append_assoc] using hk
    simp only [makedirsLevels]
    cases hl : lookupFS fs (done ++ [c]) with
    | none =>
      rw [ih (insertFS fs (done ++ [c]) FNode.dir) (done ++ [c]) hrec]
      rw [lookupFS_insertFS]
      simp [h0]
    | some nd =>
      cases nd with
      | dir => exact ih fs (done ++ [c]) hrec
      | file s => rfl

theorem makedirsFS_frame (fs : FSys) (p q : FPath) (h : leadsTo q p = false) :
    lookupFS (makedirsFS fs p).fsys q = lookupFS fs q := by
  apply makedirsLevels_frame
  intro k hk
  rw [List.nil_append] at hk
  rw [hk, leadsTo_take] at h
  exact Bool.noConfusion h

theorem writeFileFS_frame (fs : FSys) (p : FPath) (c : String) (q : FPath)
    (h : q ≠ p) : lookupFS (writeFileFS fs p c).fsys q = lookupFS fs q := by
  unfold writeFileFS
  by_cases hp : parentOkFS fs p
  · simp only [hp, if_true]
    cases hl : lookupFS fs p with
    | some nd =>
      cases nd with
      | dir => rfl
      | file s => simp [Res.fsys, lookupFS_insertFS, h]
    | none => simp [Res.fsys, lookupFS_insertFS, h]
  · simp [hp, Res.fsys]

theorem moveTreeFS_frame (fs : FSys) (src dst q : FPath)
    (hs : leadsTo src q = false) (hd : leadsTo dst q = false) :
    lookupFS (moveTreeFS fs src dst) q = lookupFS fs q := by
  have hdq : q ≠ dst := not_leadsTo_of_neq_false hd
  induction fs with
  | nil => rfl
  | cons e rest ih =>
    by_cases hedst : e.1 = dst
    · have hdrop : moveTreeFS (e :: rest) src dst = moveTreeFS rest src dst := by
        simp [moveTreeFS, eraseFS, List.filter_cons, hedst]
      have heq : ¬ e.1 = q := fun hh => hdq (hh.symm.trans hedst)
      rw [hdrop, ih]
      show lookupFS rest q = if e.1 = q then some e.2 else lookupFS rest q
      rw [if_neg heq]
    · have hkeep : moveTreeFS (e :: rest) src dst
          = (rebaseP src dst e.1, e.2) :: moveTreeFS rest src dst := by
        simp [moveTreeFS, eraseFS, List.filter_cons, hedst]
      rw [hkeep]
      show (if rebaseP src dst e.1 = q then some e.2
            else lookupFS (moveTreeFS rest src dst) q) = lookupFS (e :: rest) q
      by_cases heq : e.1 = q
      · have hslq : stripLead src q = none := by
          rw [stripLead_eq_none]
          exact hs
        have hreb : rebaseP src dst e.1 = q := by
          rw [heq]
          simp [rebaseP, hslq]
        rw [if_pos hreb]
        show some e.2 = if e.1 = q then some e.2 else lookupFS rest q
        rw [if_pos heq]
      · have hreb : ¬ rebaseP src dst e.1 = q := by
          cases hsl : stripLead src e.1 with
          | none => simpa [rebaseP, hsl] using heq
          | some r =>
            intro hcon
            simp only [rebaseP, hsl] at hcon
            rw [← hcon, leadsTo_append] at hd
            exact Bool.noConfusion hd
        rw [if_neg hreb, ih]
        show lookupFS rest q = if e.1 = q then some e.2 else lookupFS rest q
        rw [if_neg heq]

theorem renameFS_frame (fs : FSys) (src dst q : FPath)
    (hs : leadsTo src q = false) (hd : leadsTo dst q = false) :
    lookupFS (renameFS fs src dst).fsys q = lookupFS fs q := by
  unfold renameFS
  cases hsrc : lookupFS fs src with
  | none => rfl
  | some sn =>
    by_cases hpo : parentOkFS fs dst
    · simp only [hpo, if_true]
      cases hdst : lookupFS fs dst with
      | none => exact moveTreeFS_frame fs src dst q hs hd
      | some dn =>
        cases dn with
        | file s =>
          cases sn with
          | file s2 => exact moveTreeFS_frame fs src dst q hs hd
          | dir => rfl
        | dir =>
          cases sn with
          | file s2 => rfl
          | dir =>
            by_cases hne : hasStrictDesc fs dst = true
            · simp [hne, Res.fsys]
            · simp only [Bool.not_eq_true] at hne
              simp only [hne, Bool.false_eq_true, if_false]
              exact moveTreeFS_frame fs src dst q hs hd
    · simp [hpo, Res.fsys]

theorem rmdirFS_frame (fs : FSys) (p q : FPath) (h : q ≠ p) :
    lookupFS (rmdirFS fs p).fsys q = lookupFS fs q := by
  unfold rmdirFS
  cases hl : lookupFS fs p with
  | none => rfl
  | some nd =>
    cases nd with
    | file s => rfl
    | dir =>
      by_cases hsd : hasStrictDesc fs p = true
      · simp [hsd, Res.fsys]
      · simp only [Bool.not_eq_true] at hsd
        simp [hsd, Res.fsys, lookupFS_eraseFS, h]

theorem lookupFS_filter_not_lead (fs : FSys) (p q : FPath)
    (h : leadsTo p q = false) :
    lookupFS (fs.filter (fun e => !(leadsTo p e.1))) q = lookupFS fs q := by
  induction fs with
  | nil => rfl
  | cons e rest ih =>
    cases hpe : leadsTo p e.1 with
    | true =>
      have heq : ¬ e.1 = q := fun hh => by
        rw [hh] at hpe
        rw [hpe] at h
        exact Bool.noConfusion h
      have hfil : List.filter (fun e2 => !(leadsTo p e2.1)) (e :: rest)
          = List.filter (fun e2 => !(leadsTo p e2.1)) rest := by
        simp [List.filter_cons, hpe]
      rw [hfil, ih]
      show lookupFS rest q = if e.1 = q then some e.2 else lookupFS rest q
      rw [if_neg heq]
    | false =>
      have hfil : List.filter (fun e2 => !(leadsTo p e2.1)) (e :: rest)
          = e :: List.filter (fun e2 => !(leadsTo p e2.1)) rest := by
        simp [List.filter_cons, hpe]
      rw [hfil]
      show (if e.1 = q then some e.2
            else lookupFS (List.filter (fun e2 => !(leadsTo p e2.1)) rest) q)
          = lookupFS (e :: rest) q
      by_cases heq : e.1 = q
      · rw [if_pos heq]
        show some e.2 = if e.1 = q then some e.2 else lookupFS rest q
        rw [if_pos heq]
      · rw [if_neg heq, ih]
        show lookupFS rest q = if e.1 = q then some e.2 else lookupFS rest q
        rw [if_neg heq]

theorem rmtreeFS_frame (fs : FSys) (p q : FPath) (h : leadsTo p q = false) :
    lookupFS (rmtreeFS fs p).fsys q = lookupFS fs q := by
  unfold rmtreeFS
  cases hl : lookupFS fs p with
  | none => rfl
  | some nd =>
    cases nd with
    | file s => rfl
    | dir => simpa [Res.fsys] using lookupFS_filter_not_lead fs p q h

theorem lookup_bind_fsys (r : Res) (g : FSys → Res) (q : FPath)
    (hg : ∀ fs1, lookupFS ((g fs1).fsys) q = lookupFS fs1 q) :
    lookupFS ((Res.bind r g).fsys) q = lookupFS r.fsys q := by
  cases r with
  | ok fs1 => exact hg fs1
  | err m fs1 => rfl

theorem offSide_of_sub (base q : FPath) (s : String) (h : offSide base q) :
    offSide (base ++ [s]) q := by
  constructor
  · cases hlt : leadsTo (base ++ [s]) q with
    | false => rfl
    | true =>
      have h2 := leadsTo_trans base (base ++ [s]) q (leadsTo_append base [s]) hlt
      rw [h.1] at h2
      exact Bool.noConfusion h2
  · cases hlt : leadsTo q (base ++ [s]) with
    | false => rfl
    | true =>
      rcases leadsTo_split q base [s] hlt with h1 | h1
      · rw [h.2] at h1
        exact Bool.noConfusion h1
      · rw [h.1] at h1
        exact Bool.noConfusion h1

theorem not_leadsTo_target_of_offSide (base p q : FPath) (h : offSide base q) :
    leadsTo q (base ++ p) = false := by
  cases hlt : leadsTo q (base ++ p) with
  | false => rfl
  | true =>
    rcases leadsTo_split q base p hlt with h1 | h1
    · rw [h.2] at h1
      exact Bool.noConfusion h1
    · rw [h.1] at h1
      exact Bool.noConfusion h1

theorem extractEntry_frame (base : FPath) (e : TarEntry) (hb : goodPath base)
    (hge : goodPath e.path) : StepFrame (offSide base) (fun fs => extractEntry base e fs) := by
  intro fs q hq
  cases e with
  | dirE p =>
    have hgp : goodPath (base ++ p) := by
      intro c hc
      rcases List.mem_append.mp hc with h1 | h1
      · exact hb c h1
      · exact hge c h1
    show lookupFS ((makedirsFS fs (normalizeP (base ++ p))).fsys) q = lookupFS fs q
    rw [normalizeP_good _ hgp]
    exact makedirsFS_frame fs (base ++ p) q (not_leadsTo_target_of_offSide base p q hq)
  | fileE p c =>
    have hgp : goodPath (base ++ p) := by
      intro x hx
      rcases List.mem_append.mp hx with h1 | h1
      · exact hb x h1
      · exact hge x h1
    have h1 : leadsTo q (base ++ p) = false := not_leadsTo_target_of_offSide base p q hq
    have h2 : leadsTo q ((base ++ p).dropLast) = false := by
      cases hlt : leadsTo q ((base ++ p).dropLast) with
      | false => rfl
      | true =>
        rw [leadsTo_trans q ((base ++ p).dropLast) (base ++ p) hlt
          (leadsTo_dropLast (base ++ p))] at h1
        exact Bool.noConfusion h1
    have h3 : q ≠ base ++ p := (not_leadsTo_of_neq_false h1).symm
    show lookupFS ((Res.bind (makedirsFS fs (normalizeP (base ++ p)).dropLast)
        (fun fs1 => writeFileFS fs1 (normalizeP (base ++ p)) c)).fsys) q = lookupFS fs q
    rw [normalizeP_good _ hgp]
    rw [lookup_bind_fsys _ _ q (fun fs1 => writeFileFS_frame fs1 (base ++ p) c q h3)]
    exact makedirsFS_frame fs ((base ++ p).dropLast) q h2

theorem extractList_frame (base : FPath) (l : List TarEntry) (hb : goodPath base) :
    ∀ (cut : Option Nat), (∀ e ∈ l, goodPath e.path) →
      StepFrame (offSide base) (fun fs => extractList base l cut fs) := by
  induction l with
  | nil =>
    intro cut hgood fs q hq
    cases cut with
    | none => rfl
    | some k =>
      cases k with
      | zero => rfl
      | succ k2 => rfl
  | cons e rest ih =>
    intro cut hgood fs q hq
    have he : goodPath e.path := hgood e (by simp)
    have hrest : ∀ f ∈ rest, goodPath f.path := fun f hf => hgood f (by simp [hf])
    cases cut with
    | none =>
      show lookupFS ((Res.bind (extractEntry base e fs)
          (fun fs1 => extractList base rest (Option.map (fun n => n - 1) none) fs1)).fsys) q
          = lookupFS fs q
      rw [lookup_bind_fsys _ _ q
        (fun fs1 => ih (Option.map (fun n => n - 1) none) hrest fs1 q hq)]
      exact extractEntry_frame base e hb he fs q hq
    | some k =>
      cases k with
      | zero => rfl
      | succ k2 =>
        show lookupFS ((Res.bind (extractEntry base e fs)
            (fun fs1 => extractList base rest (Option.map (fun n => n - 1) (some (k2 + 1))) fs1)).fsys) q
            = lookupFS fs q
        rw [lookup_bind_fsys _ _ q
          (fun fs1 => ih (Option.map (fun n => n - 1) (some (k2 + 1))) hrest fs1 q hq)]
        exact extractEntry_frame base e hb he fs q hq

theorem innerMove_frame (mp target : FPath) (items : List String) (q : FPath)
    (hmp : leadsTo mp q = false) (htg : leadsTo target q = false) :
    ∀ fs, lookupFS ((innerMove mp target items fs).fsys) q = lookupFS fs q := by
  induction items with
  | nil => intro fs; rfl
  | cons item rest ih =>
    intro fs
    have hsrc : leadsTo (mp ++ [item]) q = false := by
      cases hlt : leadsTo (mp ++ [item]) q with
      | false => rfl
      | true =>
        rw [leadsTo_trans mp (mp ++ [item]) q (leadsTo_append mp [item]) hlt] at hmp
        exact Bool.noConfusion hmp
    have hdst : leadsTo (target ++ [item]) q = false := by
      cases hlt : leadsTo (target ++ [item]) q with
      | false => rfl
      | true =>
        rw [leadsTo_trans target (target ++ [item]) q (leadsTo_append target [item]) hlt] at htg
        exact Bool.noConfusion htg
    show lookupFS ((Res.bind (renameFS fs (mp ++ [item]) (target ++ [item]))
        (fun fs1 => innerMove mp target rest fs1)).fsys) q = lookupFS fs q
    rw [lookup_bind_fsys _ _ q ih]
    exact renameFS_frame fs (mp ++ [item]) (target ++ [item]) q hsrc hdst

theorem outerMove_frame (staging target : FPath) (members : List String) (q : FPath)
    (hst : leadsTo staging q = false) (htg : leadsTo target q = false) :
    ∀ fs, lookupFS ((outerMove staging target members fs).fsys) q = lookupFS fs q := by
  induction members with
  | nil => intro fs; rfl
  | cons m rest ih =>
    intro fs
    have hmp : leadsTo (staging ++ [m]) q = false := by
      cases hlt : leadsTo (staging ++ [m]) q with
      | false => rfl
      | true =>
        rw [leadsTo_trans staging (staging ++ [m]) q (leadsTo_append staging [m]) hlt] at hst
        exact Bool.noConfusion hst
    have hqm : q ≠ staging ++ [m] := not_leadsTo_of_neq_false hmp
    show lookupFS ((if isdirFS fs (staging ++ [m]) then
        Res.bind (innerMove (staging ++ [m]) target (childNamesFS fs (staging ++ [m])) fs)
          (fun fs1 => Res.bind (rmdirFS fs1 (staging ++ [m]))
            (fun fs2 => outerMove staging target rest fs2))
      else outerMove staging target rest fs).fsys) q = lookupFS fs q
    by_cases hdir : isdirFS fs (staging ++ [m]) = true
    · rw [if_pos hdir]
      have hstep : ∀ fs1, lookupFS ((Res.bind (rmdirFS fs1 (staging ++ [m]))
          (fun fs2 => outerMove staging target rest fs2)).fsys) q = lookupFS fs1 q := by
        intro fs1
        rw [lookup_bind_fsys _ _ q ih]
        exact rmdirFS_frame fs1 (staging ++ [m]) q hqm
      rw [lookup_bind_fsys _ _ q hstep]
      exact innerMove_frame (staging ++ [m]) target _ q hmp htg fs
    · rw [if_neg hdir]
      exact ih fs

theorem extract_tar_gz_frame (ar : Archive) (base : FPath) (q : FPath)
    (hb : goodPath base) (hgood : ∀ e ∈ ar.entries, goodPath e.path)
    (hq : offSide base q) :
    ∀ fs, lookupFS ((extract_tar_gz ar base fs).fsys) q = lookupFS fs q := by
  intro fs
  have hbs : goodPath (base ++ [DOWNLOAD_SUB]) := by
    intro c hc
    rcases List.mem_append.mp hc with h1 | h1
    · exact hb c h1
    · have hc2 : c = DOWNLOAD_SUB := by simpa using h1
      rw [hc2]
      exact ⟨by decide, by decide, by decide⟩
  have hqs : offSide (base ++ [DOWNLOAD_SUB]) q := offSide_of_sub base q DOWNLOAD_SUB hq
  have h3 : ∀ fs3, lookupFS ((rmdirFS fs3 (base ++ [DOWNLOAD_SUB])).fsys) q = lookupFS fs3 q :=
    fun fs3 => rmdirFS_frame fs3 (base ++ [DOWNLOAD_SUB]) q
      (not_leadsTo_of_neq_false hqs.1)
  have h2 : ∀ fs2, lookupFS ((Res.bind
      (outerMove (base ++ [DOWNLOAD_SUB]) base (childNamesFS fs2 (base ++ [DOWNLOAD_SUB])) fs2)
      (fun fs3 => rmdirFS fs3 (base ++ [DOWNLOAD_SUB]))).fsys) q = lookupFS fs2 q := by
    intro fs2
    rw [lookup_bind_fsys _ _ q h3]
    exact outerMove_frame (base ++ [DOWNLOAD_SUB]) base _ q hqs.1 hq.1 fs2
  have h1 : ∀ fs1, lookupFS ((Res.bind
      (extractList (base ++ [DOWNLOAD_SUB]) ar.entries ar.corruptAfter fs1)
      (fun fs2 => Res.bind
        (outerMove (base ++ [DOWNLOAD_SUB]) base (childNamesFS fs2 (base ++ [DOWNLOAD_SUB])) fs2)
        (fun fs3 => rmdirFS fs3 (base ++ [DOWNLOAD_SUB])))).fsys) q = lookupFS fs1 q := by
    intro fs1
    rw [lookup_bind_fsys _ _ q h2]
    exact extractList_frame (base ++ [DOWNLOAD_SUB]) ar.entries hbs ar.corruptAfter hgood fs1 q hqs
  show lookupFS ((Res.bind (makedirsFS fs (base ++ [DOWNLOAD_SUB])) (fun fs1 =>
      Res.bind (extractList (base ++ [DOWNLOAD_SUB]) ar.entries ar.corruptAfter fs1) (fun fs2 =>
      Res.bind (outerMove (base ++ [DOWNLOAD_SUB]) base (childNamesFS fs2 (base ++ [DOWNLOAD_SUB])) fs2)
        (fun fs3 => rmdirFS fs3 (base ++ [DOWNLOAD_SUB]))))).fsys) q = lookupFS fs q
  rw [lookup_bind_fsys _ _ q h1]
  exact makedirsFS_frame fs (base ++ [DOWNLOAD_SUB]) q hqs.2

/-! Postconditions of makedirs, and frame lemmas for the whole install
sequence of main. -/

theorem makedirsLevels_post (todo : FPath) :
    ∀ (fs : FSys) (done : FPath) (fs2 : FSys),
      (todo = [] → lookupFS fs done = some FNode.dir) →
      makedirsLevels fs done todo = .ok fs2 →
      lookupFS fs2 (done ++ todo) = some FNode.dir := by
  induction todo with
  | nil =>
    intro fs done fs2 hbase h
    have h1 := hbase rfl
    have h2 : fs = fs2 := by
      simpa [makedirsLevels] using h
    rw [← h2]
    simpa using h1
  | cons c rest ih =>
    intro fs done fs2 hbase h
    rw [show done ++ c :: rest = (done ++ [c]) ++ rest by simp]
    simp only [makedirsLevels] at h
    cases hl : lookupFS fs (done ++ [c]) with
    | none =>
      rw [hl] at h
      exact ih _ _ _ (fun _ => by rw [lookupFS_insertFS]; simp) h
    | some nd =>
      cases nd with
      | dir =>
        rw [hl] at h
        exact ih _ _ _ (fun _ => hl) h
      | file s =>
        rw [hl] at h
        exact absurd h (by simp)

theorem makedirsFS_post (fs : FSys) (p : FPath) (fs2 : FSys) (hp : p ≠ [])
    (h : makedirsFS fs p = .ok fs2) : lookupFS fs2 p = some FNode.dir := by
  have hh := makedirsLevels_post p fs [] fs2 (fun hnil => absurd hnil hp) h
  simpa using hh

theorem goodComp_of_ne (s : String) (h1 : s ≠ "") (h2 : s ≠ ".") (h3 : s ≠ "..") :
    goodComp s := ⟨h1, h2, h3⟩

theorem goodPath_singleton (s : String) (h : goodComp s) : goodPath [s] := by
  intro c hc
  have hcs : c = s := by simpa using hc
  rw [hcs]
  exact h

theorem goodPath_extract_dir : goodPath [EXTRACT_DIR] :=
  goodPath_singleton _ ⟨by decide, by decide, by decide⟩

theorem goodPath_swap_dir : goodPath [TEMP_SWAP_DIR] :=
  goodPath_singleton _ ⟨by decide, by decide, by decide⟩

theorem installTail_frame (inp : MainInput) (url : String) (q : FPath)
    (hgood : ∀ e ∈ inp.archive.entries, goodPath e.path)
    (h1 : q ≠ [DOWNLOAD_DIR, baseName url])
    (h2 : offSide [EXTRACT_DIR] q)
    (h3 : offSide [TEMP_SWAP_DIR] q) :
    ∀ fs1, lookupFS ((installTail inp url fs1).fsys) q = lookupFS fs1 q := by
  intro fs1
  have hren : ∀ fs6, lookupFS ((renameFS fs6 [TEMP_SWAP_DIR] [EXTRACT_DIR]).fsys) q
      = lookupFS fs6 q :=
    fun fs6 => renameFS_frame fs6 [TEMP_SWAP_DIR] [EXTRACT_DIR] q h3.1 h2.1
  have hrm : ∀ fs5, lookupFS ((Res.bind
      (if existsFS fs5 [EXTRACT_DIR] then rmtreeFS fs5 [EXTRACT_DIR] else .ok fs5)
      (fun fs6 => renameFS fs6 [TEMP_SWAP_DIR] [EXTRACT_DIR])).fsys) q = lookupFS fs5 q := by
    intro fs5
    rw [lookup_bind_fsys _ _ q hren]
    by_cases hex : existsFS fs5 [EXTRACT_DIR] = true
    · rw [if_pos hex]
      exact rmtreeFS_frame fs5 [EXTRACT_DIR] q h2.1
    · rw [if_neg hex]
      rfl
  have hx2 : ∀ fs4, lookupFS ((Res.bind (extract_tar_gz inp.archive [TEMP_SWAP_DIR] fs4)
      (fun fs5 => Res.bind (if existsFS fs5 [EXTRACT_DIR] then rmtreeFS fs5 [EXTRACT_DIR] else .ok fs5)
        (fun fs6 => renameFS fs6 [TEMP_SWAP_DIR] [EXTRACT_DIR]))).fsys) q = lookupFS fs4 q := by
    intro fs4
    rw [lookup_bind_fsys _ _ q hrm]
    exact extract_tar_gz_frame inp.archive [TEMP_SWAP_DIR] q goodPath_swap_dir hgood h3 fs4
  have hmk : ∀ fs3, lookupFS ((Res.bind (makedirsFS fs3 [TEMP_SWAP_DIR])
      (fun fs4 => Res.bind (extract_tar_gz inp.archive [TEMP_SWAP_DIR] fs4)
      (fun fs5 => Res.bind (if existsFS fs5 [EXTRACT_DIR] then rmtreeFS fs5 [EXTRACT_DIR] else .ok fs5)
        (fun fs6 => renameFS fs6 [TEMP_SWAP_DIR] [EXTRACT_DIR])))).fsys) q = lookupFS fs3 q := by
    intro fs3
    rw [lookup_bind_fsys _ _ q hx2]
    exact makedirsFS_frame fs3 [TEMP_SWAP_DIR] q h3.2
  have hx1 : ∀ fs2, lookupFS ((Res.bind (extract_tar_gz inp.archive [EXTRACT_DIR] fs2)
      (fun fs3 => Res.bind (makedirsFS fs3 [TEMP_SWAP_DIR])
      (fun fs4 => Res.bind (extract_tar_gz inp.archive [TEMP_SWAP_DIR] fs4)
      (fun fs5 => Res.bind (if existsFS fs5 [EXTRACT_DIR] then rmtreeFS fs5 [EXTRACT_DIR] else .ok fs5)
        (fun fs6 => renameFS fs6 [TEMP_SWAP_DIR] [EXTRACT_DIR]))))).fsys) q = lookupFS fs2 q := by
    intro fs2
    rw [lookup_bind_fsys _ _ q hmk]
    exact extract_tar_gz_frame inp.archive [EXTRACT_DIR] q goodPath_extract_dir hgood h2 fs2
  show lookupFS ((Res.bind (downloadFile inp fs1 [DOWNLOAD_DIR, baseName url])
      (fun fs2 => Res.bind (extract_tar_gz inp.archive [EXTRACT_DIR] fs2)
      (fun fs3 => Res.bind (makedirsFS fs3 [TEMP_SWAP_DIR])
      (fun fs4 => Res.bind (extract_tar_gz inp.archive [TEMP_SWAP_DIR] fs4)
      (fun fs5 => Res.bind (if existsFS fs5 [EXTRACT_DIR] then rmtreeFS fs5 [EXTRACT_DIR] else .ok fs5)
        (fun fs6 => renameFS fs6 [TEMP_SWAP_DIR] [EXTRACT_DIR])))))).fsys) q = lookupFS fs1 q
  rw [lookup_bind_fsys _ _ q hx1]
  unfold downloadFile
  by_cases hdl : inp.downloadOk = true
  · rw [if_pos hdl]
    exact writeFileFS_frame fs1 [DOWNLOAD_DIR, baseName url] ("ARCHIVE-BYTES") q h1
  · rw [if_neg hdl]
    rfl

theorem installSeq_frame (inp : MainInput) (url : String) (q : FPath)
    (hgood : ∀ e ∈ inp.archive.entries, goodPath e.path)
    (h0 : leadsTo q [DOWNLOAD_DIR] = false)
    (h1 : q ≠ [DOWNLOAD_DIR, baseName url])
    (h2 : offSide [EXTRACT_DIR] q)
    (h3 : offSide [TEMP_SWAP_DIR] q) :
    ∀ fs, lookupFS ((installSeq inp url fs).fsys) q = lookupFS fs q := by
  intro fs
  show lookupFS ((Res.bind (makedirsFS fs [DOWNLOAD_DIR])
      (fun fs1 => installTail inp url fs1)).fsys) q = lookupFS fs q
  rw [lookup_bind_fsys _ _ q (installTail_frame inp url q hgood h1 h2 h3)]
  exact makedirsFS_frame fs [DOWNLOAD_DIR] q h0

theorem installSeq_ok_download_dir (inp : MainInput) (url : String) (fs fs7 : FSys)
    (hgood : ∀ e ∈ inp.archive.entries, goodPath e.path)
    (h : installSeq inp url fs = .ok fs7) :
    lookupFS fs7 [DOWNLOAD_DIR] = some FNode.dir := by
  unfold installSeq at h
  cases hm : makedirsFS fs [DOWNLOAD_DIR] with
  | err m fs1 =>
    rw [hm] at h
    exact absurd h (by simp [Res.bind])
  | ok fs1 =>
    rw [hm] at h
    have hpost : lookupFS fs1 [DOWNLOAD_DIR] = some FNode.dir :=
      makedirsFS_post fs [DOWNLOAD_DIR] fs1 (by simp) hm
    have hframe := installTail_frame inp url [DOWNLOAD_DIR] hgood
      (by simp [DOWNLOAD_DIR]) ⟨by decide, by decide⟩ ⟨by decide, by decide⟩ fs1
    simp only [Res.bind] at h
    rw [h] at hframe
    rw [← hframe] at hpost
    exact hpost

theorem mainModel_version_lifecycle (inp : MainInput) (fs : FSys)
    (hgood : ∀ e ∈ inp.archive.entries, goodPath e.path) :
    (∀ m fs2, mainModel inp fs = .err m fs2 →
        lookupFS fs2 [LOCAL_VERSION_FILE] = lookupFS fs [LOCAL_VERSION_FILE]) ∧
    (∀ fs2, mainModel inp fs = .ok fs2 →
        fs2 = fs ∨ lookupFS fs2 [LOCAL_VERSION_FILE]
          = some (FNode.file inp.release.tag_name)) := by
  cases hfind : find_asset_url inp.release.assets with
  | none =>
    have hmain : mainModel inp fs = .ok fs := by
      unfold mainModel
      rw [hfind]
    rw [hmain]
    constructor
    · intro m fs2 h
      exact absurd h (by simp)
    · intro fs2 h
      have h2 : fs = fs2 := by simpa using h
      exact Or.inl h2.symm
  | some url =>
    cases hread : read_local_version fs with
    | error m0 =>
      have hmain : mainModel inp fs = .err m0 fs := by
        unfold mainModel
        rw [hfind, hread]
      rw [hmain]
      constructor
      · intro m fs2 h
        injection h with h1 h2
        rw [h2]
      · intro fs2 h
        exact absurd h (by simp)
    | ok localv =>
      have hmain : mainModel inp fs
          = if update_proceeds localv inp.release.tag_name = true then
              Res.bind (installSeq inp url fs) (fun fs7 =>
                Res.bind (write_local_version fs7 inp.release.tag_name)
                  (fun fs8 => rmtreeFS fs8 [DOWNLOAD_DIR]))
            else Res.ok fs := by
        unfold mainModel
        rw [hfind, hread]
      by_cases hup : update_proceeds localv inp.release.tag_name = true
      · rw [hmain, if_pos hup]
        have hlvfframe := installSeq_frame inp url [LOCAL_VERSION_FILE] hgood
          (by decide) (by simp) ⟨by decide, by decide⟩ ⟨by decide, by decide⟩ fs
        cases hseq : installSeq inp url fs with
        | err m fs7 =>
          rw [hseq] at hlvfframe
          simp only [Res.fsys] at hlvfframe
          constructor
          · intro m2 fs2 h
            simp only [Res.bind] at h
            injection h with h1 h2
            rw [← h2]
            exact hlvfframe
          · intro fs2 h
            simp only [Res.bind] at h
            exact absurd h (by simp)
        | ok fs7 =>
          rw [hseq] at hlvfframe
          simp only [Res.fsys] at hlvfframe
          have hdd7 : lookupFS fs7 [DOWNLOAD_DIR] = some FNode.dir :=
            installSeq_ok_download_dir inp url fs fs7 hgood hseq
          have hnotdir : lookupFS fs [LOCAL_VERSION_FILE] ≠ some FNode.dir := by
            intro hcon
            unfold read_local_version at hread
            rw [hcon] at hread
            exact absurd hread (by simp)
          have hwrite : write_local_version fs7 inp.release.tag_name
              = .ok (insertFS fs7 [LOCAL_VERSION_FILE]
                  (FNode.file inp.release.tag_name)) := by
            unfold write_local_version writeFileFS
            have hpOk : parentOkFS fs7 [LOCAL_VERSION_FILE] = true := by
              unfold parentOkFS
              simp
            rw [hpOk]
            simp only [if_true]
            cases hl7 : lookupFS fs7 [LOCAL_VERSION_FILE] with
            | none => rfl
            | some nd =>
              cases nd with
              | file s => rfl
              | dir =>
                rw [hlvfframe] at hl7
                exact absurd hl7 hnotdir
          have hdd8 : lookupFS (insertFS fs7 [LOCAL_VERSION_FILE]
              (FNode.file inp.release.tag_name)) [DOWNLOAD_DIR] = some FNode.dir := by
            rw [lookupFS_insertFS, if_neg (by decide)]
            exact hdd7
          have hrmt : rmtreeFS (insertFS fs7 [LOCAL_VERSION_FILE]
              (FNode.file inp.release.tag_name)) [DOWNLOAD_DIR]
              = .ok ((insertFS fs7 [LOCAL_VERSION_FILE]
                  (FNode.file inp.release.tag_name)).filter
                    (fun e => !(leadsTo [DOWNLOAD_DIR] e.1))) := by
            unfold rmtreeFS
            rw [hdd8]
          constructor
          · intro m2 fs2 h
            simp only [Res.bind, hwrite, hrmt] at h
            exact absurd h (by simp)
          · intro fs2 h
            simp only [Res.bind, hwrite, hrmt] at h
            have h2 : (insertFS fs7 [LOCAL_VERSION_FILE]
                (FNode.file inp.release.tag_name)).filter
                  (fun e => !(leadsTo [DOWNLOAD_DIR] e.1)) = fs2 := by
              simpa using h
            refine Or.inr ?_
            rw [← h2]
            rw [lookupFS_filter_not_lead _ _ _ (by decide)]
            rw [lookupFS_insertFS, if_pos rfl]
      · rw [hmain, if_neg hup]
        constructor
        · intro m fs2 h
          exact absurd h (by simp)
        · intro fs2 h
          have h2 : fs = fs2 := by simpa using h
          exact Or.inl h2.symm

/-! Characterization of extraction into a fresh staging directory, and of
the move phase, used by the unwrap (C5) and stray-file (C10) claims. -/

theorem ne_append_cons (a : FPath) (x : String) (l : FPath) : a ≠ a ++ x :: l := by
  intro h
  have := congrArg List.length h
  simp at this

theorem take_nonempty {α : Type} (l : List α) (k : Nat) (h : k < l.length) :
    l.take (k + 1) ≠ [] := by
  intro hcon
  have h2 : (l.take (k + 1)).length = 0 := by
    rw [hcon]
    rfl
  rw [List.length_take] at h2
  omega

theorem leadsTo_eq_take (r p : FPath) (h : leadsTo r p = true) :
    r = p.take r.length ∧ r.length ≤ p.length := by
  obtain ⟨s, rfl⟩ := (leadsTo_iff r p).mp h
  constructor
  · rw [List.take_left]
  · simp

theorem dropLast_append_ne_nil (a b : FPath) (h : b ≠ []) :
    (a ++ b).dropLast = a ++ b.dropLast := by
  induction a with
  | nil => rfl
  | cons x xs ih =>
    cases hx : xs ++ b with
    | nil =>
      rcases List.append_eq_nil.mp hx with ⟨h1, h2⟩
      exact absurd h2 h
    | cons y ys =>
      show (x :: xs ++ b).dropLast = x :: (xs ++ b.dropLast)
      rw [List.cons_append, hx, List.dropLast_cons₂, ← hx, ih]

/-- Full specification of makedirs: when no level on the missing chain is an
existing file, it succeeds, every level of the chain is a directory
afterwards, and nothing else changes. -/
theorem makedirsLevels_spec (todo : FPath) :
    ∀ (fs : FSys) (done : FPath),
      WFfs fs →
      (∀ k, k < todo.length → ∀ s, lookupFS fs (done ++ todo.take (k + 1)) ≠ some (FNode.file s)) →
      ∃ fs2, makedirsLevels fs done todo = .ok fs2 ∧ WFfs fs2 ∧
        (∀ k, k < todo.length → lookupFS fs2 (done ++ todo.take (k + 1)) = some FNode.dir) ∧
        (∀ q, (∀ k, k < todo.length → q ≠ done ++ todo.take (k + 1)) →
          lookupFS fs2 q = lookupFS fs q) := by
  induction todo with
  | nil =>
    intro fs done hW hnf
    exact ⟨fs, rfl, hW, fun k hk => absurd hk (by simp), fun q _ => rfl⟩
  | cons c rest ih =>
    intro fs done hW hnf
    have hshift : ∀ fs3, (∀ k, k < rest.length →
        ∀ s, lookupFS fs3 ((done ++ [c]) ++ rest.take (k + 1)) ≠ some (FNode.file s)) →
        (∀ k, k < rest.length →
        ∀ s, lookupFS fs3 ((done ++ [c]) ++ rest.take (k + 1)) ≠ some (FNode.file s)) :=
      fun _ h => h
    have htake : ∀ k : Nat, done ++ (c :: rest).take (k + 2) = (done ++ [c]) ++ rest.take (k + 1) := by
      intro k
      simp [List.take_cons]
    have htake0 : done ++ (c :: rest).take 1 = done ++ [c] := by simp
    simp only [makedirsLevels]
    cases hl : lookupFS fs (done ++ [c]) with
    | some nd =>
      cases nd with
      | file s =>
        exact absurd hl (by
          have := hnf 0 (by simp) s
          rw [htake0] at this
          exact this)
      | dir =>
        obtain ⟨fs2, hrun, hW2, hc1, hc2⟩ := ih fs (done ++ [c]) hW (by
          intro k hk s
          have := hnf (k + 1) (by simpa using hk) s
          rw [htake k] at this
          exact this)
        refine ⟨fs2, hrun, hW2, ?_, ?_⟩
        · intro k hk
          cases k with
          | zero =>
            rw [htake0]
            have hne : ∀ k2, k2 < rest.length →
                done ++ [c] ≠ (done ++ [c]) ++ rest.take (k2 + 1) := by
              intro k2 hk2 hcon
              cases hq : rest.take (k2 + 1) with
              | nil => exact absurd hq (take_nonempty rest k2 hk2)
              | cons y ys =>
                rw [hq] at hcon
                exact ne_append_cons (done ++ [c]) y ys hcon
            rw [hc2 (done ++ [c]) hne]
            exact hl
          | succ k2 =>
            rw [htake k2]
            exact hc1 k2 (by simpa using hk)
        · intro q hq
          refine hc2 q ?_
          intro k hk
          have := hq (k + 1) (by simpa using hk)
          rw [htake k] at this
          exact this
    | none =>
      have hW1 : WFfs (insertFS fs (done ++ [c]) FNode.dir) := WFfs_insertFS fs _ _ hW
      obtain ⟨fs2, hrun, hW2, hc1, hc2⟩ := ih (insertFS fs (done ++ [c]) FNode.dir)
        (done ++ [c]) hW1 (by
          intro k hk s
          rw [lookupFS_insertFS]
          have hne : ¬ (done ++ [c]) ++ rest.take (k + 1) = done ++ [c] := by
            intro hcon
            cases hq : rest.take (k + 1) with
            | nil => exact absurd hq (take_nonempty rest k hk)
            | cons y ys =>
              rw [hq] at hcon
              exact ne_append_cons (done ++ [c]) y ys hcon.symm
          rw [if_neg hne]
          have := hnf (k + 1) (by simpa using hk) s
          rw [htake k] at this
          exact this)
      refine ⟨fs2, hrun, hW2, ?_, ?_⟩
      · intro k hk
        cases k with
        | zero =>
          rw [htake0]
          rw [hc2 (done ++ [c]) ?_]
          · rw [lookupFS_insertFS, if_pos rfl]
          · intro k2 hk2 hcon
            cases hq : rest.take (k2 + 1) with
            | nil => exact absurd hq (take_nonempty rest k2 hk2)
            | cons y ys =>
              rw [hq] at hcon
              exact ne_append_cons (done ++ [c]) y ys hcon
        | succ k2 =>
          rw [htake k2]
          exact hc1 k2 (by simpa using hk)
      · intro q hq
        have h0 : q ≠ done ++ [c] := by
          have := hq 0 (by simp)
          rw [htake0] at this
          exact this
        rw [hc2 q ?_, lookupFS_insertFS, if_neg h0]
        intro k hk
        have := hq (k + 1) (by simpa using hk)
        rw [htake k] at this
        exact this

theorem properLead_iff (a b : FPath) :
    properLead a b = true ↔ leadsTo a b = true ∧ a ≠ b := by
  simp [properLead]

theorem leadsTo_take_take (p : FPath) (i j : Nat) (h : i ≤ j) :
    leadsTo (p.take i) (p.take j) = true := by
  have h2 := leadsTo_take (p.take j) i
  rw [List.take_take] at h2
  rwa [Nat.min_eq_left h] at h2

theorem leadsTo_dropLast_of_proper (r p : FPath) (h : leadsTo r p = true)
    (hne : r ≠ p) : leadsTo r p.dropLast = true := by
  obtain ⟨hr, hlen⟩ := leadsTo_eq_take r p h
  have hlt : r.length < p.length := by
    rcases Nat.lt_or_ge r.length p.length with h2 | h2
    · exact h2
    · refine absurd ?_ hne
      rw [hr, List.take_of_length_le h2]
  rw [List.dropLast_eq_take, hr]
  exact leadsTo_take_take p r.length (p.length - 1) (by omega)

theorem fileAt_mem (l : List TarEntry) (r : FPath) (c : String)
    (h : fileAt l r = some c) : TarEntry.fileE r c ∈ l := by
  induction l with
  | nil => exact absurd h (by simp [fileAt])
  | cons a t ih =>
    cases a with
    | dirE p => exact List.mem_cons_of_mem _ (ih (by simpa [fileAt] using h))
    | fileE p c2 =>
      by_cases hp : p = r
      · have h2 : c2 = c := by
          rw [fileAt, if_pos hp] at h
          exact Option.some_inj.mp h
        rw [← hp, ← h2]
        exact List.mem_cons_self _ _
      · rw [fileAt, if_neg hp] at h
        exact List.mem_cons_of_mem _ (ih h)

theorem fileAt_of_mem (l : List TarEntry) (p : FPath) (c : String)
    (hmem : TarEntry.fileE p c ∈ l) (hnd : (l.map TarEntry.path).Nodup) :
    fileAt l p = some c := by
  induction l with
  | nil => cases hmem
  | cons a t ih =>
    have hnd2 : a.path ∉ t.map TarEntry.path ∧ (t.map TarEntry.path).Nodup := by
      rw [List.map_cons] at hnd
      exact List.nodup_cons.mp hnd
    rcases List.mem_cons.mp hmem with h | h
    · rw [← h]
      show (if p = p then some c else fileAt t p) = some c
      rw [if_pos rfl]
    · have hpa : a.path ≠ p := by
        intro hcon
        have hmemp : p ∈ t.map TarEntry.path := by
          rw [← show (TarEntry.fileE p c).path = p from rfl]
          exact List.mem_map_of_mem _ h
        rw [hcon] at hnd2
        exact hnd2.1 hmemp
      cases a with
      | dirE p2 =>
        show fileAt t p = some c
        exact ih h hnd2.2
      | fileE p2 c2 =>
        show (if p2 = p then some c2 else fileAt t p) = some c
        rw [if_neg (show ¬ p2 = p from hpa)]
        exact ih h hnd2.2

theorem fileAt_snoc_dir (l : List TarEntry) (p r : FPath) :
    fileAt (l ++ [.dirE p]) r = fileAt l r := by
  induction l with
  | nil => rfl
  | cons a t ih =>
    cases a with
    | dirE p2 => simpa [fileAt] using ih
    | fileE p2 c2 =>
      by_cases hp : p2 = r
      · simp [fileAt, hp]
      · simpa [fileAt, hp] using ih

theorem fileAt_snoc_file (l : List TarEntry) (p : FPath) (c : String) (r : FPath) :
    fileAt (l ++ [.fileE p c]) r
      = match fileAt l r with
        | some c2 => some c2
        | none => if p = r then some c else none := by
  induction l with
  | nil => rfl
  | cons a t ih =>
    cases a with
    | dirE p2 => simpa [fileAt] using ih
    | fileE p2 c2 =>
      by_cases hp : p2 = r
      · simp [fileAt, hp]
      · simpa [fileAt, hp] using ih

theorem coveredDirB_append (l1 l2 : List TarEntry) (r : FPath) :
    coveredDirB (l1 ++ l2) r = (coveredDirB l1 r || coveredDirB l2 r) :=
  List.any_append

theorem coveredDirB_singleton_dir (p r : FPath) :
    coveredDirB [TarEntry.dirE p] r = (decide (p = r) || properLead r p) := by
  show ((decide (p = r) || properLead r p) || false) = _
  rw [Bool.or_false]

theorem coveredDirB_singleton_file (p : FPath) (c : String) (r : FPath) :
    coveredDirB [TarEntry.fileE p c] r = properLead r p := by
  show ((false || properLead r p) || false) = _
  rw [Bool.or_false, Bool.false_or]

theorem coveredDirB_true_iff (l : List TarEntry) (r : FPath) :
    coveredDirB l r = true
      ↔ ∃ e ∈ l, e = TarEntry.dirE r ∨ properLead r e.path = true := by
  rw [coveredDirB, List.any_eq_true]
  constructor
  · rintro ⟨e, hmem, hcond⟩
    rcases Bool.or_eq_true_iff.mp hcond with h | h
    · cases e with
      | fileE p c => exact absurd h (by simp)
      | dirE p =>
        refine ⟨TarEntry.dirE p, hmem, Or.inl ?_⟩
        rw [show p = r from by simpa using h]
    · exact ⟨e, hmem, Or.inr h⟩
  · rintro ⟨e, hmem, h | h⟩
    · refine ⟨e, hmem, ?_⟩
      rw [h]
      simp
    · refine ⟨e, hmem, ?_⟩
      rw [h]
      simp

theorem stageLookup_nil (r : FPath) : stageLookup [] r = none := rfl

theorem stageLookup_snoc_dir (l : List TarEntry) (p r : FPath) :
    stageLookup (l ++ [.dirE p]) r
      = match fileAt l r with
        | some c => some (FNode.file c)
        | none =>
          if (coveredDirB l r || (decide (p = r) || properLead r p)) = true
          then some FNode.dir else none := by
  unfold stageLookup
  rw [fileAt_snoc_dir, coveredDirB_append, coveredDirB_singleton_dir]

theorem stageLookup_snoc_file (l : List TarEntry) (p : FPath) (c : String) (r : FPath) :
    stageLookup (l ++ [.fileE p c]) r
      = match fileAt l r with
        | some c2 => some (FNode.file c2)
        | none =>
          if p = r then some (FNode.file c)
          else if (coveredDirB l r || properLead r p) = true
          then some FNode.dir else none := by
  unfold stageLookup
  rw [fileAt_snoc_file, coveredDirB_append, coveredDirB_singleton_file]
  cases hfa : fileAt l r with
  | some c2 => rfl
  | none =>
    by_cases hp : p = r
    · subst hp
      simp
    · simp [hp]

theorem stageLookup_eq_file (l : List TarEntry) (r : FPath) (c : String)
    (h : fileAt l r = some c) : stageLookup l r = some (FNode.file c) := by
  unfold stageLookup
  rw [h]

theorem stageLookup_eq_of_none (l : List TarEntry) (r : FPath)
    (h : fileAt l r = none) :
    stageLookup l r = (if coveredDirB l r = true then some FNode.dir else none) := by
  unfold stageLookup
  rw [h]

theorem stageLookup_file_inv (l : List TarEntry) (r : FPath) (s : String)
    (h : stageLookup l r = some (FNode.file s)) : fileAt l r = some s := by
  unfold stageLookup at h
  cases hfa : fileAt l r with
  | some c =>
    rw [hfa] at h
    have : c = s := by
      have h2 : FNode.file c = FNode.file s := Option.some_inj.mp h
      cases h2
      rfl
    rw [this]
  | none =>
    rw [hfa] at h
    by_cases hc : coveredDirB l r = true
    · rw [if_pos hc] at h
      exact absurd (Option.some_inj.mp h) (by simp)
    · rw [if_neg hc] at h
      exact absurd h (by simp)

theorem leadsTo_length_le (r t : FPath) (h : leadsTo r t = true) :
    r.length ≤ t.length := (leadsTo_eq_take r t h).2

theorem not_leadsTo_dropLast_self (p : FPath) (h : p ≠ []) :
    leadsTo p p.dropLast = false := by
  cases hlt : leadsTo p p.dropLast with
  | false => rfl
  | true =>
    have h2 := leadsTo_length_le _ _ hlt
    rw [List.length_dropLast] at h2
    have h3 : 0 < p.length := List.length_pos.mpr h
    omega

theorem goodPath_append (a b : FPath) (ha : goodPath a) (hb : goodPath b) :
    goodPath (a ++ b) := by
  intro c hc
  rcases List.mem_append.mp hc with h | h
  · exact ha c h
  · exact hb c h

theorem goodPath_dropLast (p : FPath) (h : goodPath p) : goodPath p.dropLast := by
  intro c hc
  rw [List.dropLast_eq_take] at hc
  exact h c (List.take_subset _ _ hc)

theorem take_append_left_of_le {α : Type} (l1 l2 : List α) (n : Nat)
    (h : n ≤ l1.length) : (l1 ++ l2).take n = l1.take n := by
  rw [List.take_append_eq_append_take]
  rw [show n - l1.length = 0 from by omega]
  simp

theorem take_append_right_of_ge {α : Type} (l1 l2 : List α) (n : Nat)
    (h : l1.length ≤ n) : (l1 ++ l2).take n = l1 ++ l2.take (n - l1.length) := by
  rw [List.take_append_eq_append_take]
  rw [List.take_of_length_le h]

theorem paths_disjoint {l1 l2 : List TarEntry}
    (h : ((l1 ++ l2).map TarEntry.path).Nodup)
    (e1 : TarEntry) (h1 : e1 ∈ l1) (e2 : TarEntry) (h2 : e2 ∈ l2) :
    e1.path ≠ e2.path := by
  rw [List.map_append] at h
  have hd := (List.nodup_append.mp h).2.2
  intro hcon
  exact hd (List.mem_map_of_mem _ h1) (hcon ▸ List.mem_map_of_mem _ h2)

theorem makedirsFS_spec (fs : FSys) (p : FPath) (hW : WFfs fs)
    (hnf : ∀ k, k < p.length → ∀ s, lookupFS fs (p.take (k + 1)) ≠ some (FNode.file s)) :
    ∃ fs2, makedirsFS fs p = .ok fs2 ∧ WFfs fs2 ∧
      (∀ k, k < p.length → lookupFS fs2 (p.take (k + 1)) = some FNode.dir) ∧
      (∀ q, (∀ k, k < p.length → q ≠ p.take (k + 1)) →
        lookupFS fs2 q = lookupFS fs q) := by
  obtain ⟨fs2, hrun, hW2, hc1, hc2⟩ := makedirsLevels_spec p fs [] hW (by simpa using hnf)
  exact ⟨fs2, hrun, hW2, by simpa using hc1, by simpa using hc2⟩

/-- os.makedirs of staging ++ tail over a filesystem whose staging subtree
holds exactly the already extracted members done: the run succeeds, the
chain below tail becomes directories, and everything else keeps its node. -/
theorem makedirs_chain (staging tail : FPath) (done : List TarEntry)
    (fs0 fs : FSys) (hstNe : staging ≠ []) (hW : WFfs fs)
    (h1 : ∀ q, leadsTo staging q = false → lookupFS fs q = lookupFS fs0 q)
    (h2 : ∀ q, q ≠ [] → leadsTo q staging = true → lookupFS fs q = some FNode.dir)
    (h3 : ∀ r, r ≠ [] → lookupFS fs (staging ++ r) = stageLookup done r)
    (hnf2 : ∀ i, 1 ≤ i → i ≤ tail.length → ∀ s,
      stageLookup done (tail.take i) ≠ some (FNode.file s)) :
    ∃ fs2, makedirsFS fs (staging ++ tail) = .ok fs2 ∧ WFfs fs2 ∧
      (∀ q, leadsTo staging q = false → lookupFS fs2 q = lookupFS fs0 q) ∧
      (∀ q, q ≠ [] → leadsTo q staging = true → lookupFS fs2 q = some FNode.dir) ∧
      (∀ r, r ≠ [] → leadsTo r tail = true →
        lookupFS fs2 (staging ++ r) = some FNode.dir) ∧
      (∀ r, r ≠ [] → leadsTo r tail = false →
        lookupFS fs2 (staging ++ r) = lookupFS fs (staging ++ r)) := by
  have hslen : 0 < staging.length := List.length_pos.mpr hstNe
  have hPlen : (staging ++ tail).length = staging.length + tail.length :=
    List.length_append _ _
  have hnf : ∀ k, k < (staging ++ tail).length → ∀ s,
      lookupFS fs ((staging ++ tail).take (k + 1)) ≠ some (FNode.file s) := by
    intro k hk s
    by_cases hks : k + 1 ≤ staging.length
    · rw [take_append_left_of_le staging tail (k + 1) hks]
      have hne : staging.take (k + 1) ≠ [] := take_nonempty staging k (by omega)
      rw [h2 _ hne (leadsTo_take staging (k + 1))]
      intro hcon
      exact FNode.noConfusion (Option.some_inj.mp hcon)
    · rw [take_append_right_of_ge staging tail (k + 1) (by omega)]
      have hi1 : 1 ≤ k + 1 - staging.length := by omega
      have hi2 : k + 1 - staging.length ≤ tail.length := by
        rw [hPlen] at hk
        omega
      have htne : tail.take (k + 1 - staging.length) ≠ [] := by
        have h4 := take_nonempty tail (k + 1 - staging.length - 1) (by omega)
        rwa [show k + 1 - staging.length - 1 + 1 = k + 1 - staging.length from by omega] at h4
      rw [h3 _ htne]
      exact hnf2 _ hi1 hi2 s
  obtain ⟨fs2, hrun, hW2, hc1, hc2⟩ := makedirsFS_spec fs (staging ++ tail) hW hnf
  have hcAnc : ∀ q, q ≠ [] → leadsTo q staging = true →
      lookupFS fs2 q = some FNode.dir := by
    intro q hqne hql
    obtain ⟨hq, hqlen⟩ := leadsTo_eq_take q staging hql
    have hq1 : 1 ≤ q.length := List.length_pos.mpr hqne
    have hk : q.length - 1 < (staging ++ tail).length := by
      rw [hPlen]
      omega
    have h5 := hc1 (q.length - 1) hk
    rw [show q.length - 1 + 1 = q.length from by omega] at h5
    rw [take_append_left_of_le staging tail q.length hqlen] at h5
    rwa [← hq] at h5
  have hcChain : ∀ r, r ≠ [] → leadsTo r tail = true →
      lookupFS fs2 (staging ++ r) = some FNode.dir := by
    intro r hrne hrl
    obtain ⟨hr, hrlen⟩ := leadsTo_eq_take r tail hrl
    have hr1 : 1 ≤ r.length := List.length_pos.mpr hrne
    have hk : staging.length + r.length - 1 < (staging ++ tail).length := by
      rw [hPlen]
      omega
    have h5 := hc1 (staging.length + r.length - 1) hk
    rw [show staging.length + r.length - 1 + 1 = staging.length + r.length from by omega] at h5
    rw [take_append_right_of_ge staging tail _ (by omega)] at h5
    rw [show staging.length + r.length - staging.length = r.length from by omega] at h5
    rwa [← hr] at h5
  refine ⟨fs2, hrun, hW2, ?_, hcAnc, hcChain, ?_⟩
  · intro q hsq
    by_cases hq0 : q = []
    · subst hq0
      rw [hc2 [] ?_]
      · exact h1 [] hsq
      · intro k hk hcon
        exact take_nonempty (staging ++ tail) k (by omega) hcon.symm
    · by_cases hqs : leadsTo q staging = true
      · rw [hcAnc q hq0 hqs, ← h1 q hsq, h2 q hq0 hqs]
      · have hqs2 : leadsTo q staging = false := by
          cases h : leadsTo q staging with
          | false => rfl
          | true => exact absurd h hqs
        rw [hc2 q ?_]
        · exact h1 q hsq
        · intro k hk hcon
          by_cases hks : k + 1 ≤ staging.length
          · rw [take_append_left_of_le staging tail (k + 1) hks] at hcon
            rw [hcon, leadsTo_take] at hqs2
            exact Bool.noConfusion hqs2
          · rw [take_append_right_of_ge staging tail (k + 1) (by omega)] at hcon
            rw [hcon, leadsTo_append] at hsq
            exact Bool.noConfusion hsq
  · intro r hrne hrl
    refine hc2 (staging ++ r) ?_
    intro k hk hcon
    by_cases hks : k + 1 ≤ staging.length
    · rw [take_append_left_of_le staging tail (k + 1) hks] at hcon
      have h6 := congrArg List.length hcon
      rw [List.length_append, List.length_take] at h6
      have h7 : min (k + 1) staging.length = k + 1 := Nat.min_eq_left hks
      have h8 : r.length = 0 := by omega
      exact hrne (List.length_eq_zero.mp h8)
    · rw [take_append_right_of_ge staging tail (k + 1) (by omega)] at hcon
      have hre : r = tail.take (k + 1 - staging.length) := List.append_cancel_left hcon
      rw [hre, leadsTo_take] at hrl
      exact Bool.noConfusion hrl

/-- A nonempty prefix of the next member's path never holds a file among
the members already extracted: member paths are pairwise distinct and no
file member path is an ancestor of another member path. -/
theorem stage_chain_no_file (done rest : List TarEntry) (e : TarEntry)
    (hnd : ((done ++ e :: rest).map TarEntry.path).Nodup)
    (hnfa : noFileAncestor (done ++ e :: rest)) :
    ∀ i, 1 ≤ i → i ≤ e.path.length → ∀ s,
      stageLookup done (e.path.take i) ≠ some (FNode.file s) := by
  intro i h1 h2 s hcon
  have hfa := stageLookup_file_inv _ _ _ hcon
  have hmem : TarEntry.fileE (e.path.take i) s ∈ done := fileAt_mem _ _ _ hfa
  have hmemF : TarEntry.fileE (e.path.take i) s ∈ done ++ e :: rest :=
    List.mem_append_left _ hmem
  have hmemE : e ∈ done ++ e :: rest :=
    List.mem_append_right _ (List.mem_cons_self _ _)
  by_cases heq : i = e.path.length
  · have hp : (TarEntry.fileE (e.path.take i) s).path = e.path := by
      show e.path.take i = e.path
      rw [heq, List.take_length]
    exact paths_disjoint hnd _ hmem e (List.mem_cons_self _ _) hp
  · have hpl : properLead (e.path.take i) e.path = true := by
      rw [properLead_iff]
      refine ⟨leadsTo_take _ _, ?_⟩
      intro hcon2
      have h3 := congrArg List.length hcon2
      rw [List.length_take] at h3
      omega
    have hfin : properLead (e.path.take i) e.path = false :=
      hnfa _ hmemF _ hmemE rfl
    rw [hpl] at hfin
    exact Bool.noConfusion hfin

/-- Extracting one member over a staging area holding exactly the members
done: the member is written at its place, the staging content becomes
done ++ [e], and nothing outside the staging subtree moves. -/
theorem extractEntry_fresh_step (staging : FPath) (hstG : goodPath staging)
    (hstNe : staging ≠ []) (done rest : List TarEntry) (e : TarEntry)
    (fs0 fs : FSys) (hW : WFfs fs)
    (h1 : ∀ q, leadsTo staging q = false → lookupFS fs q = lookupFS fs0 q)
    (h2 : ∀ q, q ≠ [] → leadsTo q staging = true → lookupFS fs q = some FNode.dir)
    (h3 : ∀ r, r ≠ [] → lookupFS fs (staging ++ r) = stageLookup done r)
    (hge : ∀ e2 ∈ done ++ e :: rest, e2.path ≠ [] ∧ goodPath e2.path)
    (hnd : ((done ++ e :: rest).map TarEntry.path).Nodup)
    (hnfa : noFileAncestor (done ++ e :: rest)) :
    ∃ fs1, extractEntry staging e fs = .ok fs1 ∧ WFfs fs1 ∧
      (∀ q, leadsTo staging q = false → lookupFS fs1 q = lookupFS fs0 q) ∧
      (∀ q, q ≠ [] → leadsTo q staging = true → lookupFS fs1 q = some FNode.dir) ∧
      (∀ r, r ≠ [] → lookupFS fs1 (staging ++ r) = stageLookup (done ++ [e]) r) := by
  have hmemE : e ∈ done ++ e :: rest :=
    List.mem_append_right _ (List.mem_cons_self _ _)
  obtain ⟨hpne, hpG⟩ := hge e hmemE
  have hnf2 := stage_chain_no_file done rest e hnd hnfa
  cases e with
  | dirE p =>
    simp only [TarEntry.path] at hpne hpG hnf2
    obtain ⟨fs2, hrun, hW2, hc3, hc4, hc5, hc6⟩ :=
      makedirs_chain staging p done fs0 fs hstNe hW h1 h2 h3 hnf2
    refine ⟨fs2, ?_, hW2, hc3, hc4, ?_⟩
    · show makedirsFS fs (normalizeP (staging ++ p)) = .ok fs2
      rw [normalizeP_good _ (goodPath_append staging p hstG hpG)]
      exact hrun
    · intro r hrne
      rw [stageLookup_snoc_dir]
      cases hfa : fileAt done r with
      | some c =>
        have hrl : leadsTo r p = false := by
          cases hlt : leadsTo r p with
          | false => rfl
          | true =>
            obtain ⟨hr, hrlen⟩ := leadsTo_eq_take r p hlt
            have h4 := hnf2 r.length (List.length_pos.mpr hrne) hrlen c
            rw [← hr] at h4
            exact absurd (stageLookup_eq_file done r c hfa) h4
        rw [hc6 r hrne hrl, h3 r hrne, stageLookup_eq_file done r c hfa]
      | none =>
        by_cases hrl : leadsTo r p = true
        · have hplT2 : (decide (p = r) || properLead r p) = true := by
            by_cases hpr : p = r
            · simp [hpr]
            · have hplT : properLead r p = true := by
                rw [properLead_iff]
                exact ⟨hrl, fun hc => hpr hc.symm⟩
              simp [hplT]
          rw [hc5 r hrne hrl]
          simp [hplT2]
        · have hrl2 : leadsTo r p = false := by
            cases hq : leadsTo r p with
            | false => rfl
            | true => exact absurd hq hrl
          rw [hc6 r hrne hrl2, h3 r hrne, stageLookup_eq_of_none done r hfa]
          have hpr2 : decide (p = r) = false := by
            rw [decide_eq_false_iff_not]
            intro hc
            rw [← hc, leadsTo_refl] at hrl2
            exact Bool.noConfusion hrl2
          have hplF : properLead r p = false := by
            cases hq : properLead r p with
            | false => rfl
            | true =>
              have h8 := (properLead_iff r p).mp hq
              rw [h8.1] at hrl2
              exact Bool.noConfusion hrl2
          simp [hpr2, hplF]
  | fileE p c =>
    simp only [TarEntry.path] at hpne hpG hnf2
    have hnf2d : ∀ i, 1 ≤ i → i ≤ p.dropLast.length → ∀ s,
        stageLookup done (p.dropLast.take i) ≠ some (FNode.file s) := by
      intro i hi1 hi2 s
      rw [List.length_dropLast] at hi2
      rw [List.dropLast_eq_take, List.take_take, Nat.min_eq_left hi2]
      exact hnf2 i hi1 (by omega) s
    obtain ⟨fs2, hrun, hW2, hc3, hc4, hc5, hc6⟩ :=
      makedirs_chain staging p.dropLast done fs0 fs hstNe hW h1 h2 h3 hnf2d
    have hfaP : fileAt done p = none := by
      cases hq : fileAt done p with
      | none => rfl
      | some c2 =>
        have hmem := fileAt_mem done p c2 hq
        exact absurd rfl (paths_disjoint hnd _ hmem (TarEntry.fileE p c) (List.mem_cons_self _ _))
    have hcovP : coveredDirB done p = false := by
      cases hq : coveredDirB done p with
      | false => rfl
      | true =>
        obtain ⟨e2, hmem2, hor⟩ := (coveredDirB_true_iff done p).mp hq
        rcases hor with he | hpl
        · subst he
          exact absurd rfl (paths_disjoint hnd _ hmem2 (TarEntry.fileE p c) (List.mem_cons_self _ _))
        · have h7 : properLead p e2.path = false :=
            hnfa _ hmemE _ (List.mem_append_left _ hmem2) rfl
          rw [hpl] at h7
          exact Bool.noConfusion h7
    have hstageP : stageLookup done p = none := by
      rw [stageLookup_eq_of_none done p hfaP, hcovP]
      rfl
    have htgt : lookupFS fs2 (staging ++ p) = none := by
      rw [hc6 p hpne (not_leadsTo_dropLast_self p hpne), h3 p hpne, hstageP]
    have hparent : lookupFS fs2 (staging ++ p.dropLast) = some FNode.dir := by
      by_cases hdl : p.dropLast = []
      · rw [hdl, List.append_nil]
        exact hc4 staging hstNe (leadsTo_refl staging)
      · exact hc5 p.dropLast hdl (leadsTo_refl _)
    have hnorm : normalizeP (staging ++ p) = staging ++ p :=
      normalizeP_good _ (goodPath_append staging p hstG hpG)
    have hdrop : (staging ++ p).dropLast = staging ++ p.dropLast :=
      dropLast_append_ne_nil staging p hpne
    have hpdne : staging ++ p.dropLast ≠ [] := by
      intro hcon
      exact hstNe (List.append_eq_nil.mp hcon).1
    have hpOk : parentOkFS fs2 (staging ++ p) = true := by
      unfold parentOkFS
      rw [hdrop, if_neg hpdne, hparent]
    have hwrite : writeFileFS fs2 (staging ++ p) c
        = .ok (insertFS fs2 (staging ++ p) (FNode.file c)) := by
      unfold writeFileFS
      rw [hpOk, htgt]
      rfl
    refine ⟨insertFS fs2 (staging ++ p) (FNode.file c), ?_,
      WFfs_insertFS _ _ _ hW2, ?_, ?_, ?_⟩
    · show Res.bind (makedirsFS fs (normalizeP (staging ++ p)).dropLast)
          (fun fs3 => writeFileFS fs3 (normalizeP (staging ++ p)) c)
          = .ok (insertFS fs2 (staging ++ p) (FNode.file c))
      rw [hnorm, hdrop, hrun]
      simp only [Res.bind]
      exact hwrite
    · intro q hsq
      have hne : q ≠ staging ++ p := by
        intro hcon
        rw [hcon, leadsTo_append] at hsq
        exact Bool.noConfusion hsq
      rw [lookupFS_insertFS, if_neg hne]
      exact hc3 q hsq
    · intro q hqne hql
      have hne : q ≠ staging ++ p := by
        intro hcon
        rw [hcon] at hql
        have hlen := leadsTo_length_le _ _ hql
        rw [List.length_append] at hlen
        have hplen : 0 < p.length := List.length_pos.mpr hpne
        omega
      rw [lookupFS_insertFS, if_neg hne]
      exact hc4 q hqne hql
    · intro r hrne
      rw [stageLookup_snoc_file, lookupFS_insertFS]
      by_cases hrp : r = p
      · subst hrp
        rw [if_pos rfl, hfaP]
        simp
      · have hne : staging ++ r ≠ staging ++ p := by
          intro hcon
          exact hrp (List.append_cancel_left hcon)
        rw [if_neg hne]
        cases hfa : fileAt done r with
        | some c2 =>
          have hrl : leadsTo r p.dropLast = false := by
            cases hlt : leadsTo r p.dropLast with
            | false => rfl
            | true =>
              obtain ⟨hr, hrlen⟩ := leadsTo_eq_take r p.dropLast hlt
              have h4 := hnf2d r.length (List.length_pos.mpr hrne) hrlen c2
              rw [← hr] at h4
              exact absurd (stageLookup_eq_file done r c2 hfa) h4
          rw [hc6 r hrne hrl, h3 r hrne, stageLookup_eq_file done r c2 hfa]
        | none =>
          have hpr2 : ¬ p = r := fun hc => hrp hc.symm
          by_cases hrl : leadsTo r p.dropLast = true
          · have hplT : properLead r p = true := by
              rw [properLead_iff]
              constructor
              · refine leadsTo_trans r p.dropLast p hrl ?_
                rw [List.dropLast_eq_take]
                exact leadsTo_take p (p.length - 1)
              · intro hcon
                subst hcon
                rw [not_leadsTo_dropLast_self r hpne] at hrl
                exact Bool.noConfusion hrl
            rw [hc5 r hrne hrl]
            simp [hpr2, hplT]
          · have hrl2 : leadsTo r p.dropLast = false := by
              cases hq : leadsTo r p.dropLast with
              | false => rfl
              | true => exact absurd hq hrl
            rw [hc6 r hrne hrl2, h3 r hrne, stageLookup_eq_of_none done r hfa]
            have hplF : properLead r p = false := by
              cases hq : properLead r p with
              | false => rfl
              | true =>
                have h8 := (properLead_iff r p).mp hq
                have h9 := leadsTo_dropLast_of_proper r p h8.1 h8.2
                rw [h9] at hrl2
                exact Bool.noConfusion hrl2
            simp [hpr2, hplF]

/-- Extracting a member list into a fresh staging directory succeeds, and
the staging subtree afterwards holds exactly the members; nothing outside
the staging subtree moves. -/
theorem extractList_fresh (staging : FPath) (hstG : goodPath staging)
    (hstNe : staging ≠ []) :
    ∀ (todo done : List TarEntry) (fs0 fs : FSys),
      WFfs fs →
      (∀ q, leadsTo staging q = false → lookupFS fs q = lookupFS fs0 q) →
      (∀ q, q ≠ [] → leadsTo q staging = true → lookupFS fs q = some FNode.dir) →
      (∀ r, r ≠ [] → lookupFS fs (staging ++ r) = stageLookup done r) →
      (∀ e2 ∈ done ++ todo, e2.path ≠ [] ∧ goodPath e2.path) →
      ((done ++ todo).map TarEntry.path).Nodup →
      noFileAncestor (done ++ todo) →
      ∃ fs2, extractList staging todo none fs = .ok fs2 ∧ WFfs fs2 ∧
        (∀ q, leadsTo staging q = false → lookupFS fs2 q = lookupFS fs0 q) ∧
        (∀ q, q ≠ [] → leadsTo q staging = true → lookupFS fs2 q = some FNode.dir) ∧
        (∀ r, r ≠ [] → lookupFS fs2 (staging ++ r) = stageLookup (done ++ todo) r)
  | [], done, fs0, fs, hW, h1, h2, h3, hge, hnd, hnfa => by
    refine ⟨fs, rfl, hW, h1, h2, ?_⟩
    simpa using h3
  | e :: rest, done, fs0, fs, hW, h1, h2, h3, hge, hnd, hnfa => by
    obtain ⟨fs1, hstep, hW1, k1, k2, k3⟩ :=
      extractEntry_fresh_step staging hstG hstNe done rest e fs0 fs hW h1 h2 h3 hge hnd hnfa
    obtain ⟨fs2, hrun, hW2, m1, m2, m3⟩ :=
      extractList_fresh staging hstG hstNe rest (done ++ [e]) fs0 fs1 hW1 k1 k2 k3
        (by simpa using hge) (by simpa using hnd) (by simpa using hnfa)
    refine ⟨fs2, ?_, hW2, m1, m2, ?_⟩
    · show Res.bind (extractEntry staging e fs)
        (fun fs3 => extractList staging rest (Option.map (fun n => n - 1) none) fs3) = .ok fs2
      rw [hstep]
      simp only [Res.bind]
      exact hrun
    · intro r hrne
      rw [m3 r hrne, List.append_assoc, List.singleton_append]

theorem eraseFS_of_absent (fs : FSys) (p : FPath) (h : lookupFS fs p = none) :
    eraseFS fs p = fs := by
  induction fs with
  | nil => rfl
  | cons e rest ih =>
    unfold lookupFS at h
    by_cases hep : e.1 = p
    · rw [if_pos hep] at h
      exact absurd h (by simp)
    · rw [if_neg hep] at h
      show List.filter _ (e :: rest) = e :: rest
      rw [List.filter_cons, if_pos (by simp [hep])]
      unfold eraseFS at ih
      rw [ih h]

theorem leadsTo_append_cancel (a b c : FPath) :
    leadsTo (a ++ b) (a ++ c) = leadsTo b c := by
  induction a with
  | nil => rfl
  | cons x xs ih => simp [leadsTo, ih]

theorem leadsTo_singleton (s : FPath) (x : String) (h : leadsTo s [x] = true) :
    s = [] ∨ s = [x] := by
  obtain ⟨hs, hlen⟩ := leadsTo_eq_take s [x] h
  rcases Nat.le_one_iff_eq_zero_or_eq_one.mp (by simpa using hlen) with h0 | h1
  · left
    exact List.length_eq_zero.mp h0
  · right
    rw [hs, h1]
    rfl

theorem mem_of_lookupFS_eq_some (fs : FSys) (q : FPath) (n : FNode)
    (h : lookupFS fs q = some n) : (q, n) ∈ fs := by
  induction fs with
  | nil => exact absurd h (by simp [lookupFS])
  | cons e rest ih =>
    unfold lookupFS at h
    by_cases heq : e.1 = q
    · rw [if_pos heq] at h
      have h2 : e.2 = n := Option.some_inj.mp h
      have h3 : e = (q, n) := by
        rw [← heq, ← h2]
      rw [← h3]
      exact List.mem_cons_self _ _
    · rw [if_neg heq] at h
      exact List.mem_cons_of_mem _ (ih h)

theorem hasStrictDesc_eq_false_of_lookup (fs : FSys) (p : FPath)
    (h : ∀ s, s ≠ [] → lookupFS fs (p ++ s) = none) :
    hasStrictDesc fs p = false := by
  rw [hasStrictDesc_eq_false_iff]
  intro q n hmem hlt
  by_contra hne
  obtain ⟨s, rfl⟩ := (leadsTo_iff p q).mp hlt
  have hs : s ≠ [] := by
    rintro rfl
    exact hne (List.append_nil p)
  exact (lookupFS_eq_none_iff fs (p ++ s)).mp (h s hs) n hmem

theorem hasStrictDesc_eq_true_of (fs : FSys) (p q : FPath) (n : FNode)
    (hmem : (q, n) ∈ fs) (hlt : leadsTo p q = true) (hne : q ≠ p) :
    hasStrictDesc fs p = true := by
  rw [hasStrictDesc, List.any_eq_true]
  exact ⟨(q, n), hmem, by simp [hlt, hne]⟩

theorem childNamesFS_mem_lookup (fs : FSys) (p : FPath) (n : String) :
    n ∈ childNamesFS fs p ↔ (lookupFS fs (p ++ [n])).isSome = true := by
  rw [mem_childNamesFS, lookupFS_isSome_iff]

theorem nodup_pair_of_mem_iff {α : Type} (l : List α) (a b : α) (hab : a ≠ b)
    (hnd : l.Nodup) (hmem : ∀ x, x ∈ l ↔ (x = a ∨ x = b)) :
    l = [a, b] ∨ l = [b, a] := by
  cases l with
  | nil => exact absurd ((hmem a).mpr (Or.inl rfl)) (by simp)
  | cons x t =>
    cases t with
    | nil =>
      rcases (hmem x).mp (by simp) with hx | hx
      · have hb := (hmem b).mpr (Or.inr rfl)
        rw [List.mem_singleton] at hb
        exact absurd (hb.trans hx).symm hab
      · have ha := (hmem a).mpr (Or.inl rfl)
        rw [List.mem_singleton] at ha
        exact absurd (ha.trans hx) hab
    | cons y t2 =>
      have hxy : x ≠ y := by
        intro hcon
        rw [List.nodup_cons] at hnd
        exact hnd.1 (by simp [hcon])
      have ht2 : t2 = [] := by
        cases t2 with
        | nil => rfl
        | cons z t3 =>
          exfalso
          have hzx : z ≠ x := by
            intro hcon
            rw [List.nodup_cons] at hnd
            exact hnd.1 (by simp [hcon.symm])
          have hzy : z ≠ y := by
            intro hcon
            rw [List.nodup_cons, List.nodup_cons] at hnd
            exact hnd.2.1 (by simp [hcon.symm])
          rcases (hmem z).mp (by simp) with hz | hz
          · rcases (hmem x).mp (by simp) with hx | hx
            · exact hzx (hz.trans hx.symm)
            · rcases (hmem y).mp (by simp) with hy | hy
              · exact hzy (hz.trans hy.symm)
              · exact hxy (hx.trans hy.symm)
          · rcases (hmem x).mp (by simp) with hx | hx
            · rcases (hmem y).mp (by simp) with hy | hy
              · exact hxy (hx.trans hy.symm)
              · exact hzy (hz.trans hy.symm)
            · exact hzx (hz.trans hx.symm)
      subst ht2
      rcases (hmem x).mp (by simp) with hx | hx
      · left
        rcases (hmem y).mp (by simp) with hy | hy
        · exact absurd (hx.trans hy.symm) hxy
        · rw [hx, hy]
      · right
        rcases (hmem y).mp (by simp) with hy | hy
        · rw [hx, hy]
        · exact absurd (hx.trans hy.symm) hxy

/-- Lookup after rebasing a whole subtree, when the destination subtree was
empty: the destination subtree shows the old source subtree, the source
subtree is gone, everything else keeps its node. -/
theorem lookupFS_mapMove (src dst : FPath) :
    ∀ (fs : FSys), (∀ t, lookupFS fs (dst ++ t) = none) →
    ∀ q, lookupFS (fs.map (fun e => (rebaseP src dst e.1, e.2))) q
      = match stripLead dst q with
        | some s => lookupFS fs (src ++ s)
        | none => if leadsTo src q = true then none else lookupFS fs q
  | [], hdst, q => by
    cases hsq : stripLead dst q <;> simp [lookupFS]
  | e :: rest, hdst, q => by
    have hdstR : ∀ t, lookupFS rest (dst ++ t) = none := by
      intro t
      have h4 := hdst t
      unfold lookupFS at h4
      by_cases hep : e.1 = dst ++ t
      · rw [if_pos hep] at h4
        exact absurd h4 (by simp)
      · rwa [if_neg hep] at h4
    have he1 : ∀ t, e.1 ≠ dst ++ t := by
      intro t hcon
      have h4 := hdst t
      unfold lookupFS at h4
      rw [if_pos hcon] at h4
      exact absurd h4 (by simp)
    rw [List.map_cons]
    show (if rebaseP src dst e.1 = q then some e.2 else
      lookupFS (List.map (fun e => (rebaseP src dst e.1, e.2)) rest) q) = _
    rw [lookupFS_mapMove src dst rest hdstR q]
    unfold rebaseP
    cases hse : stripLead src e.1 with
    | some s =>
      have he1s : e.1 = src ++ s := (stripLead_eq_some src e.1 s).mp hse
      cases hsq : stripLead dst q with
      | some t =>
        have hq : q = dst ++ t := (stripLead_eq_some dst q t).mp hsq
        show (if dst ++ s = q then some e.2 else lookupFS rest (src ++ t))
          = lookupFS (e :: rest) (src ++ t)
        show _ = if e.1 = src ++ t then some e.2 else lookupFS rest (src ++ t)
        by_cases hst : s = t
        · subst hst
          rw [if_pos hq.symm, if_pos he1s]
        · have h5 : ¬ dst ++ s = q := by
            intro hcon
            exact hst (List.append_cancel_left (hcon.trans hq))
          have h6 : ¬ e.1 = src ++ t := by
            intro hcon
            rw [he1s] at hcon
            exact hst (List.append_cancel_left hcon)
          rw [if_neg h5, if_neg h6]
      | none =>
        have hdq : leadsTo dst q = false := (stripLead_eq_none dst q).mp hsq
        have h5 : ¬ dst ++ s = q := by
          intro hcon
          rw [← hcon, leadsTo_append] at hdq
          exact Bool.noConfusion hdq
        show (if dst ++ s = q then some e.2 else
            if leadsTo src q = true then none else lookupFS rest q)
          = if leadsTo src q = true then none else lookupFS (e :: rest) q
        rw [if_neg h5]
        by_cases hlq : leadsTo src q = true
        · simp [hlq]
        · have hlq2 : leadsTo src q = false := by
            cases hb : leadsTo src q with
            | false => rfl
            | true => exact absurd hb hlq
          have h6 : e.1 ≠ q := by
            intro hcon
            rw [he1s] at hcon
            rw [← hcon, leadsTo_append] at hlq2
            exact Bool.noConfusion hlq2
          simp [hlq2, lookupFS, h6]
    | none =>
      have he1src : leadsTo src e.1 = false := (stripLead_eq_none src e.1).mp hse
      cases hsq : stripLead dst q with
      | some t =>
        have hq : q = dst ++ t := (stripLead_eq_some dst q t).mp hsq
        have h5 : e.1 ≠ q := by
          rw [hq]
          exact he1 t
        have h6 : ¬ e.1 = src ++ t := by
          intro hcon
          rw [hcon, leadsTo_append] at he1src
          exact Bool.noConfusion he1src
        show (if e.1 = q then some e.2 else lookupFS rest (src ++ t))
          = lookupFS (e :: rest) (src ++ t)
        show _ = if e.1 = src ++ t then some e.2 else lookupFS rest (src ++ t)
        rw [if_neg h5, if_neg h6]
      | none =>
        show (if e.1 = q then some e.2 else
            if leadsTo src q = true then none else lookupFS rest q)
          = if leadsTo src q = true then none else lookupFS (e :: rest) q
        by_cases hlq : leadsTo src q = true
        · have h5 : e.1 ≠ q := by
            intro hcon
            rw [hcon] at he1src
            rw [hlq] at he1src
            exact Bool.noConfusion he1src
          simp [h5, hlq]
        · have hlq2 : leadsTo src q = false := by
            cases hb : leadsTo src q with
            | false => rfl
            | true => exact absurd hb hlq
          simp [hlq2, lookupFS]

/-- moveTreeFS under an empty destination subtree, stated through lookups. -/
theorem lookupFS_moveTreeFS_fresh (fs : FSys) (src dst : FPath)
    (hdst : ∀ t, lookupFS fs (dst ++ t) = none) (q : FPath) :
    lookupFS (moveTreeFS fs src dst) q
      = match stripLead dst q with
        | some s => lookupFS fs (src ++ s)
        | none => if leadsTo src q = true then none else lookupFS fs q := by
  unfold moveTreeFS
  rw [eraseFS_of_absent fs dst (by have h4 := hdst []; rwa [List.append_nil] at h4)]
  exact lookupFS_mapMove src dst fs hdst q

theorem WFfs_moveTreeFS (fs : FSys) (src dst : FPath) (hW : WFfs fs)
    (hdst : ∀ t, lookupFS fs (dst ++ t) = none) :
    WFfs (moveTreeFS fs src dst) := by
  unfold moveTreeFS
  rw [eraseFS_of_absent fs dst (by have h4 := hdst []; rwa [List.append_nil] at h4)]
  unfold WFfs
  have hkeys : (fs.map (fun e => (rebaseP src dst e.1, e.2))).map Prod.fst
      = (fs.map Prod.fst).map (rebaseP src dst) := by
    rw [List.map_map, List.map_map]
    rfl
  rw [hkeys]
  refine List.Nodup.map_on ?_ hW
  have hxk : ∀ (k : FPath), k ∈ List.map Prod.fst fs → ∀ t, k ≠ dst ++ t := by
    intro k hk t hcon
    obtain ⟨e, he, hke⟩ := List.mem_map.mp hk
    have h5 : ∃ n, (k, n) ∈ fs := ⟨e.2, by rw [← hke, Prod.mk.eta]; exact he⟩
    have h6 := (lookupFS_isSome_iff fs k).mpr h5
    rw [hcon, hdst t] at h6
    simp at h6
  intro x hx y hy hxy
  unfold rebaseP at hxy
  cases hsx : stripLead src x with
  | some sx =>
    cases hsy : stripLead src y with
    | some sy =>
      simp only [hsx, hsy] at hxy
      rw [(stripLead_eq_some src x sx).mp hsx, (stripLead_eq_some src y sy).mp hsy,
        List.append_cancel_left hxy]
    | none =>
      simp only [hsx, hsy] at hxy
      exact absurd hxy.symm (hxk y hy sx)
  | none =>
    cases hsy : stripLead src y with
    | some sy =>
      simp only [hsx, hsy] at hxy
      exact absurd hxy (hxk x hx sy)
    | none =>
      simpa only [hsx, hsy] using hxy

/-- os.rename onto a free destination whose parent exists: plain subtree
move. -/
theorem renameFS_fresh (fs : FSys) (src dst : FPath)
    (hsrc : (lookupFS fs src).isSome = true)
    (hpar : parentOkFS fs dst = true)
    (hdst : lookupFS fs dst = none) :
    renameFS fs src dst = .ok (moveTreeFS fs src dst) := by
  unfold renameFS
  cases hs : lookupFS fs src with
  | none =>
    rw [hs] at hsrc
    exact absurd hsrc (by simp)
  | some sn =>
    rw [hpar, hdst]
    rfl

theorem leadsTo_false_of_longer (p q : FPath) (h : q.length < p.length) :
    leadsTo p q = false := by
  cases hb : leadsTo p q with
  | false => rfl
  | true =>
    exfalso
    have h5 := leadsTo_length_le _ _ hb
    omega

theorem leadsTo_cons_ne (a b : String) (s t : FPath) (h : a ≠ b) :
    leadsTo (a :: s) (b :: t) = false := by
  show (if a = b then leadsTo s t else false) = false
  rw [if_neg h]

theorem leadsTo_cons_self (a : String) (u : FPath) : leadsTo [a] (a :: u) = true := by
  show (if a = a then leadsTo [] u else false) = true
  rw [if_pos rfl]
  rfl

theorem leadsTo_false_of_extend (a b q : FPath) (h : leadsTo a q = false) :
    leadsTo (a ++ b) q = false := by
  cases hb : leadsTo (a ++ b) q with
  | false => rfl
  | true =>
    rw [leadsTo_trans a (a ++ b) q (leadsTo_append a b) hb] at h
    exact Bool.noConfusion h

/-- The inner loop of extract_tar_gz: renaming each item of the extracted
top-level directory w into the target, one rename per item, over a state
whose regions are fully described.  S is the (untouched) content of the
staging area outside the w subtree. -/
theorem innerMove_loop (fsOrig : FSys) (base staging : FPath) (w : String)
    (entries : List TarEntry) (S : String → List String → Option FNode)
    (hbNe : base ≠ []) (hst : staging = base ++ ["temp"]) :
    ∀ (todo procd : List String) (fsk : FSys),
      WFfs fsk →
      (procd ++ todo).Nodup →
      (∀ n ∈ procd ++ todo, n ≠ "temp" ∧ (stageLookup entries [w, n]).isSome = true) →
      (∀ q, leadsTo base q = false → leadsTo q base = false →
        lookupFS fsk q = lookupFS fsOrig q) →
      (∀ q, q ≠ [] → leadsTo q base = true → lookupFS fsk q = some FNode.dir) →
      lookupFS fsk staging = some FNode.dir →
      lookupFS fsk (staging ++ [w]) = some FNode.dir →
      (∀ m u, lookupFS fsk (staging ++ [w] ++ m :: u)
        = if m ∈ procd then none else stageLookup entries (w :: m :: u)) →
      (∀ n u, n ≠ w → lookupFS fsk (staging ++ n :: u) = S n u) →
      (∀ n u, n ≠ "temp" → lookupFS fsk (base ++ n :: u)
        = if n ∈ procd then stageLookup entries (w :: n :: u) else none) →
      ∃ fs2, innerMove (staging ++ [w]) base todo fsk = .ok fs2 ∧ WFfs fs2 ∧
        (∀ q, leadsTo base q = false → leadsTo q base = false →
          lookupFS fs2 q = lookupFS fsOrig q) ∧
        (∀ q, q ≠ [] → leadsTo q base = true → lookupFS fs2 q = some FNode.dir) ∧
        lookupFS fs2 staging = some FNode.dir ∧
        lookupFS fs2 (staging ++ [w]) = some FNode.dir ∧
        (∀ m u, lookupFS fs2 (staging ++ [w] ++ m :: u)
          = if m ∈ procd ++ todo then none else stageLookup entries (w :: m :: u)) ∧
        (∀ n u, n ≠ w → lookupFS fs2 (staging ++ n :: u) = S n u) ∧
        (∀ n u, n ≠ "temp" → lookupFS fs2 (base ++ n :: u)
          = if n ∈ procd ++ todo then stageLookup entries (w :: n :: u) else none)
  | [], procd, fsk, hWk, hnd, hmemH, hA, hB, hD0, hD1, hD2, hD3, hE1 => by
    refine ⟨fsk, rfl, hWk, hA, hB, hD0, hD1, ?_, hD3, ?_⟩
    · simpa using hD2
    · simpa using hE1
  | n :: rest, procd, fsk, hWk, hnd, hmemH, hA, hB, hD0, hD1, hD2, hD3, hE1 => by
    have hn : n ∈ procd ++ n :: rest :=
      List.mem_append_right _ (List.mem_cons_self _ _)
    obtain ⟨hnt, hnS⟩ := hmemH n hn
    have hnp : n ∉ procd := by
      intro hcon
      have hdisj := (List.nodup_append.mp hnd).2.2
      exact hdisj hcon (List.mem_cons_self _ _)
    have hstLen : staging.length = base.length + 1 := by
      rw [hst, List.length_append]
      rfl
    have hsrcLen : (staging ++ [w] ++ [n]).length = base.length + 3 := by
      rw [List.length_append, List.length_append, hstLen]
      rfl
    have hdstLen : (base ++ [n]).length = base.length + 1 := by
      rw [List.length_append]
      rfl
    -- the rename of this item
    have hsrc : (lookupFS fsk (staging ++ [w] ++ [n])).isSome = true := by
      have h4 := hD2 n []
      rw [if_neg hnp] at h4
      rw [h4]
      exact hnS
    have hdl : (base ++ [n]).dropLast = base := by
      rw [dropLast_append_ne_nil base [n] (by simp)]
      rw [show List.dropLast [n] = [] from rfl, List.append_nil]
    have hpar : parentOkFS fsk (base ++ [n]) = true := by
      unfold parentOkFS
      rw [hdl, if_neg hbNe, hB base hbNe (leadsTo_refl base)]
    have hdstT : ∀ t, lookupFS fsk (base ++ [n] ++ t) = none := by
      intro t
      rw [List.append_assoc, List.singleton_append, hE1 n t hnt, if_neg hnp]
    have hdstN : lookupFS fsk (base ++ [n]) = none := by
      have h4 := hdstT []
      rwa [List.append_nil] at h4
    have hren : renameFS fsk (staging ++ [w] ++ [n]) (base ++ [n])
        = .ok (moveTreeFS fsk (staging ++ [w] ++ [n]) (base ++ [n])) :=
      renameFS_fresh fsk _ _ hsrc hpar hdstN
    have hWk1 : WFfs (moveTreeFS fsk (staging ++ [w] ++ [n]) (base ++ [n])) :=
      WFfs_moveTreeFS fsk _ _ hWk hdstT
    have hmv := lookupFS_moveTreeFS_fresh fsk (staging ++ [w] ++ [n]) (base ++ [n]) hdstT
    -- the three reading modes of the moved state
    have hmvF : ∀ q, leadsTo (base ++ [n]) q = false →
        leadsTo (staging ++ [w] ++ [n]) q = false →
        lookupFS (moveTreeFS fsk (staging ++ [w] ++ [n]) (base ++ [n])) q
          = lookupFS fsk q := by
      intro q hd hs
      rw [hmv q, (stripLead_eq_none _ _).mpr hd]
      show (if leadsTo (staging ++ [w] ++ [n]) q = true then none else lookupFS fsk q)
        = lookupFS fsk q
      rw [hs]
      exact if_neg (by simp)
    have hmvIn : ∀ s,
        lookupFS (moveTreeFS fsk (staging ++ [w] ++ [n]) (base ++ [n])) (base ++ [n] ++ s)
          = lookupFS fsk (staging ++ [w] ++ [n] ++ s) := by
      intro s
      rw [hmv (base ++ [n] ++ s), (stripLead_eq_some _ _ s).mpr rfl]
    have hmvGone : ∀ q, leadsTo (staging ++ [w] ++ [n]) q = true →
        leadsTo (base ++ [n]) q = false →
        lookupFS (moveTreeFS fsk (staging ++ [w] ++ [n]) (base ++ [n])) q = none := by
      intro q hsq hdq
      rw [hmv q, (stripLead_eq_none _ _).mpr hdq]
      show (if leadsTo (staging ++ [w] ++ [n]) q = true then none else lookupFS fsk q)
        = none
      rw [hsq]
      exact if_pos rfl
    -- region clauses of the moved state
    have hA1 : ∀ q, leadsTo base q = false → leadsTo q base = false →
        lookupFS (moveTreeFS fsk (staging ++ [w] ++ [n]) (base ++ [n])) q
          = lookupFS fsOrig q := by
      intro q h1 h2
      have hd : leadsTo (base ++ [n]) q = false := leadsTo_false_of_extend base [n] q h1
      have hs : leadsTo (staging ++ [w] ++ [n]) q = false := by
        rw [hst]
        exact leadsTo_false_of_extend _ [n] q
          (leadsTo_false_of_extend _ [w] q (leadsTo_false_of_extend base ["temp"] q h1))
      rw [hmvF q hd hs]
      exact hA q h1 h2
    have hB1 : ∀ q, q ≠ [] → leadsTo q base = true →
        lookupFS (moveTreeFS fsk (staging ++ [w] ++ [n]) (base ++ [n])) q
          = some FNode.dir := by
      intro q hqne hql
      have h6 := leadsTo_length_le q base hql
      rw [hmvF q (leadsTo_false_of_longer _ _ (by rw [hdstLen]; omega))
        (leadsTo_false_of_longer _ _ (by rw [hsrcLen]; omega))]
      exact hB q hqne hql
    have hD0a : lookupFS (moveTreeFS fsk (staging ++ [w] ++ [n]) (base ++ [n])) staging
        = some FNode.dir := by
      have hd : leadsTo (base ++ [n]) staging = false := by
        rw [hst, leadsTo_append_cancel]
        exact leadsTo_cons_ne n "temp" [] [] hnt
      rw [hmvF staging hd (leadsTo_false_of_longer _ _ (by rw [hsrcLen, hstLen]; omega))]
      exact hD0
    have hD1a : lookupFS (moveTreeFS fsk (staging ++ [w] ++ [n]) (base ++ [n]))
        (staging ++ [w]) = some FNode.dir := by
      have hd : leadsTo (base ++ [n]) (staging ++ [w]) = false := by
        rw [hst, List.append_assoc, leadsTo_append_cancel, List.singleton_append]
        exact leadsTo_cons_ne n "temp" [] [w] hnt
      have hs : leadsTo (staging ++ [w] ++ [n]) (staging ++ [w]) = false := by
        refine leadsTo_false_of_longer _ _ ?_
        rw [hsrcLen, List.length_append, hstLen]
        have h9 : ([w] : List String).length = 1 := rfl
        omega
      rw [hmvF _ hd hs]
      exact hD1
    have hD2a : ∀ m u,
        lookupFS (moveTreeFS fsk (staging ++ [w] ++ [n]) (base ++ [n]))
          (staging ++ [w] ++ m :: u)
        = if m ∈ procd ++ [n] then none else stageLookup entries (w :: m :: u) := by
      intro m u
      have hd : leadsTo (base ++ [n]) (staging ++ [w] ++ m :: u) = false := by
        rw [hst, List.append_assoc, List.append_assoc, leadsTo_append_cancel,
          List.singleton_append]
        exact leadsTo_cons_ne n "temp" [] _ hnt
      by_cases hmn : m = n
      · subst hmn
        have hs : leadsTo (staging ++ [w] ++ [m]) (staging ++ [w] ++ m :: u) = true := by
          rw [leadsTo_append_cancel]
          exact leadsTo_cons_self m u
        rw [hmvGone _ hs hd, if_pos (by simp)]
      · have hs : leadsTo (staging ++ [w] ++ [n]) (staging ++ [w] ++ m :: u) = false := by
          rw [leadsTo_append_cancel]
          exact leadsTo_cons_ne n m [] u (fun h => hmn h.symm)
        rw [hmvF _ hd hs, hD2 m u]
        by_cases hmp : m ∈ procd
        · rw [if_pos hmp, if_pos (List.mem_append_left _ hmp)]
        · rw [if_neg hmp, if_neg ?_]
          intro hcon
          rcases List.mem_append.mp hcon with h7 | h7
          · exact hmp h7
          · rw [List.mem_singleton] at h7
            exact hmn h7
    have hD3a : ∀ n2 u, n2 ≠ w →
        lookupFS (moveTreeFS fsk (staging ++ [w] ++ [n]) (base ++ [n]))
          (staging ++ n2 :: u) = S n2 u := by
      intro n2 u hn2
      have hd : leadsTo (base ++ [n]) (staging ++ n2 :: u) = false := by
        rw [hst, List.append_assoc, leadsTo_append_cancel, List.singleton_append]
        exact leadsTo_cons_ne n "temp" [] _ hnt
      have hs : leadsTo (staging ++ [w] ++ [n]) (staging ++ n2 :: u) = false := by
        rw [List.append_assoc, leadsTo_append_cancel, List.singleton_append]
        exact leadsTo_cons_ne w n2 [n] u (fun h => hn2 h.symm)
      rw [hmvF _ hd hs]
      exact hD3 n2 u hn2
    have hE1a : ∀ n2 u, n2 ≠ "temp" →
        lookupFS (moveTreeFS fsk (staging ++ [w] ++ [n]) (base ++ [n]))
          (base ++ n2 :: u)
        = if n2 ∈ procd ++ [n] then stageLookup entries (w :: n2 :: u) else none := by
      intro n2 u hn2
      by_cases hn2n : n2 = n
      · subst hn2n
        have h7 := hmvIn u
        rw [show base ++ [n2] ++ u = base ++ n2 :: u from by rw [List.append_assoc]; rfl]
          at h7
        rw [show staging ++ [w] ++ [n2] ++ u = staging ++ [w] ++ n2 :: u from by
          rw [List.append_assoc (staging ++ [w])]; rfl] at h7
        rw [h7, hD2 n2 u, if_neg hnp, if_pos (by simp)]
      · have hd : leadsTo (base ++ [n]) (base ++ n2 :: u) = false := by
          rw [leadsTo_append_cancel]
          exact leadsTo_cons_ne n n2 [] u (fun h => hn2n h.symm)
        have hs : leadsTo (staging ++ [w] ++ [n]) (base ++ n2 :: u) = false := by
          rw [hst, List.append_assoc, List.append_assoc, leadsTo_append_cancel,
            List.singleton_append]
          exact leadsTo_cons_ne "temp" n2 _ u (fun h => hn2 h.symm)
        rw [hmvF _ hd hs, hE1 n2 u hn2]
        by_cases hmp : n2 ∈ procd
        · rw [if_pos hmp, if_pos (List.mem_append_left _ hmp)]
        · rw [if_neg hmp, if_neg ?_]
          intro hcon
          rcases List.mem_append.mp hcon with h7 | h7
          · exact hmp h7
          · rw [List.mem_singleton] at h7
            exact hn2n h7
    -- the recursive call on the moved state
    obtain ⟨fs2, hrun2, hW2, m1, m2, m3, m4, m5, m6, m7⟩ :=
      innerMove_loop fsOrig base staging w entries S hbNe hst rest (procd ++ [n])
        (moveTreeFS fsk (staging ++ [w] ++ [n]) (base ++ [n]))
        hWk1 (by simpa using hnd) (by simpa using hmemH) hA1 hB1 hD0a hD1a hD2a hD3a hE1a
    refine ⟨fs2, ?_, hW2, m1, m2, m3, m4, ?_, m6, ?_⟩
    · show Res.bind (renameFS fsk (staging ++ [w] ++ [n]) (base ++ [n]))
        (fun fs1 => innerMove (staging ++ [w]) base rest fs1) = .ok fs2
      rw [hren]
      simp only [Res.bind]
      exact hrun2
    · intro m u
      rw [m5 m u, List.append_assoc, List.singleton_append]
    · intro n2 u hn2
      rw [m7 n2 u hn2, List.append_assoc, List.singleton_append]

/-- A staging path that holds nothing holds nothing deeper either. -/
theorem stageLookup_none_deeper (l : List TarEntry) (r : FPath)
    (hr : stageLookup l r = none) (u : FPath) (hu : u ≠ []) :
    stageLookup l (r ++ u) = none := by
  have hfa : fileAt l r = none := by
    cases hq : fileAt l r with
    | none => rfl
    | some c =>
      rw [stageLookup_eq_file l r c hq] at hr
      exact absurd hr (by simp)
  have hcov : coveredDirB l r = false := by
    cases hq : coveredDirB l r with
    | false => rfl
    | true =>
      rw [stageLookup_eq_of_none l r hfa, hq] at hr
      simp at hr
  have hrne : r ++ u ≠ r := by
    intro hcon
    cases u with
    | nil => exact hu rfl
    | cons x t => exact (ne_append_cons r x t) hcon.symm
  have hfa2 : fileAt l (r ++ u) = none := by
    cases hq : fileAt l (r ++ u) with
    | none => rfl
    | some c =>
      exfalso
      have hmem := fileAt_mem l _ c hq
      have hcv : coveredDirB l r = true := by
        rw [coveredDirB, List.any_eq_true]
        refine ⟨TarEntry.fileE (r ++ u) c, hmem, ?_⟩
        have h5 : properLead r (r ++ u) = true := by
          rw [properLead_iff]
          exact ⟨leadsTo_append _ _, fun h => hrne h.symm⟩
        simp [TarEntry.path, h5]
      rw [hcv] at hcov
      exact Bool.noConfusion hcov
  have hcov2 : coveredDirB l (r ++ u) = false := by
    cases hq : coveredDirB l (r ++ u) with
    | false => rfl
    | true =>
      exfalso
      obtain ⟨e, he, hor⟩ := (coveredDirB_true_iff _ _).mp hq
      have hlead : properLead r e.path = true := by
        rcases hor with h5 | h5
        · rw [properLead_iff]
          constructor
          · rw [h5]
            exact leadsTo_append r u
          · rw [h5]
            exact fun h => hrne h.symm
        · obtain ⟨h6, h7⟩ := (properLead_iff _ _).mp h5
          rw [properLead_iff]
          constructor
          · exact leadsTo_trans r (r ++ u) e.path (leadsTo_append _ _) h6
          · intro hcon
            have h8 := leadsTo_length_le _ _ h6
            rw [← hcon, List.length_append] at h8
            have h9 : 0 < u.length := List.length_pos.mpr hu
            omega
      have hcv : coveredDirB l r = true := by
        rw [coveredDirB, List.any_eq_true]
        exact ⟨e, he, by simp [hlead]⟩
      rw [hcv] at hcov
      exact Bool.noConfusion hcov
  rw [stageLookup_eq_of_none l _ hfa2, hcov2]
  rfl

/-- Under the wrapper directory the head member contributes nothing. -/
theorem stageLookup_cons_dirE_deep (w : String) (l : List TarEntry)
    (m : String) (u : FPath) :
    stageLookup (TarEntry.dirE [w] :: l) (w :: m :: u)
      = stageLookup l (w :: m :: u) := by
  unfold stageLookup
  have hfa : fileAt (TarEntry.dirE [w] :: l) (w :: m :: u)
      = fileAt l (w :: m :: u) := rfl
  rw [hfa]
  have hcov : coveredDirB (TarEntry.dirE [w] :: l) (w :: m :: u)
      = coveredDirB l (w :: m :: u) := by
    have h0 : TarEntry.dirE [w] :: l = [TarEntry.dirE [w]] ++ l := rfl
    rw [h0, coveredDirB_append, coveredDirB_singleton_dir]
    have h1 : decide (([w] : FPath) = w :: m :: u) = false := by
      rw [decide_eq_false_iff_not]
      intro hcon
      have h4 := congrArg List.length hcon
      simp at h4
    have h2 : properLead (w :: m :: u) [w] = false := by
      unfold properLead
      have h3 : leadsTo (w :: m :: u) [w] = false := by
        show (if w = w then leadsTo (m :: u) [] else false) = false
        rw [if_pos rfl]
        rfl
      rw [h3]
      rfl
    rw [h1, h2]
    simp
  rw [hcov]

/-- The wrapper directory itself shows as a directory. -/
theorem stageLookup_wrap_top (w : String) (l : List TarEntry)
    (hsh : ∀ e ∈ l, ∃ n2 t, e.path = w :: n2 :: t) :
    stageLookup (TarEntry.dirE [w] :: l) [w] = some FNode.dir := by
  unfold stageLookup
  have hfa : fileAt (TarEntry.dirE [w] :: l) [w] = none := by
    show fileAt l [w] = none
    cases hq : fileAt l [w] with
    | none => rfl
    | some c =>
      obtain ⟨n2, t, hp⟩ := hsh _ (fileAt_mem l [w] c hq)
      exfalso
      have h4 := congrArg List.length hp
      simp [TarEntry.path] at h4
  rw [hfa]
  have hcov : coveredDirB (TarEntry.dirE [w] :: l) [w] = true := by
    rw [coveredDirB, List.any_cons]
    simp
  rw [hcov]
  rfl

/-- Outside the wrapper directory the staging area holds nothing. -/
theorem stageLookup_wrap_off (w m : String) (u : FPath) (l : List TarEntry)
    (hsh : ∀ e ∈ l, ∃ n2 t, e.path = w :: n2 :: t) (hmw : m ≠ w) :
    stageLookup (TarEntry.dirE [w] :: l) (m :: u) = none := by
  unfold stageLookup
  have hfa : fileAt (TarEntry.dirE [w] :: l) (m :: u) = none := by
    show fileAt l (m :: u) = none
    cases hq : fileAt l (m :: u) with
    | none => rfl
    | some c =>
      obtain ⟨n2, t, hp⟩ := hsh _ (fileAt_mem l (m :: u) c hq)
      exfalso
      have h4 : (TarEntry.fileE (m :: u) c).path = w :: n2 :: t := hp
      rw [show (TarEntry.fileE (m :: u) c).path = m :: u from rfl] at h4
      injection h4 with h5 _
      exact hmw h5
  rw [hfa]
  have hcov : coveredDirB (TarEntry.dirE [w] :: l) (m :: u) = false := by
    cases hq : coveredDirB (TarEntry.dirE [w] :: l) (m :: u) with
    | false => rfl
    | true =>
      exfalso
      obtain ⟨e, he, hor⟩ := (coveredDirB_true_iff _ _).mp hq
      rcases List.mem_cons.mp he with rfl | he2
      · rcases hor with h5 | h5
        · injection h5 with h6
          injection h6 with h7 _
          exact hmw h7.symm
        · obtain ⟨h6, _⟩ := (properLead_iff _ _).mp h5
          obtain ⟨r2, hr2⟩ := (leadsTo_iff _ _).mp h6
          have hr3 : ([w] : FPath) = m :: (u ++ r2) := hr2
          injection hr3 with h7 _
          exact hmw h7.symm
      · obtain ⟨n2, t, hp⟩ := hsh e he2
        rcases hor with h5 | h5
        · rw [h5] at hp
          have h4 : m :: u = w :: n2 :: t := hp
          injection h4 with h6 _
          exact hmw h6
        · obtain ⟨h6, _⟩ := (properLead_iff _ _).mp h5
          rw [hp] at h6
          obtain ⟨r2, hr2⟩ := (leadsTo_iff _ _).mp h6
          have hr3 : w :: n2 :: t = m :: (u ++ r2) := by
            rw [hr2]
            rfl
          injection hr3 with h7 _
          exact hmw h7.symm
  rw [hcov]
  rfl

/-- A second-level name no member uses holds nothing. -/
theorem stageLookup_pay_off (w m : String) (u : FPath) (l : List TarEntry)
    (hsh : ∀ e ∈ l, ∃ n2 t, e.path = w :: n2 :: t ∧ n2 ≠ m) :
    stageLookup l (w :: m :: u) = none := by
  unfold stageLookup
  have hfa : fileAt l (w :: m :: u) = none := by
    cases hq : fileAt l (w :: m :: u) with
    | none => rfl
    | some c =>
      obtain ⟨n2, t, hp, hn2⟩ := hsh _ (fileAt_mem l _ c hq)
      exfalso
      have h4 : w :: m :: u = w :: n2 :: t := hp
      injection h4 with _ h5
      injection h5 with h6 _
      exact hn2 h6.symm
  rw [hfa]
  have hcov : coveredDirB l (w :: m :: u) = false := by
    cases hq : coveredDirB l (w :: m :: u) with
    | false => rfl
    | true =>
      exfalso
      obtain ⟨e, he, hor⟩ := (coveredDirB_true_iff _ _).mp hq
      obtain ⟨n2, t, hp, hn2⟩ := hsh e he
      rcases hor with h5 | h5
      · rw [h5] at hp
        have h4 : w :: m :: u = w :: n2 :: t := hp
        injection h4 with _ h6
        injection h6 with h7 _
        exact hn2 h7.symm
      · obtain ⟨h6, _⟩ := (properLead_iff _ _).mp h5
        rw [hp] at h6
        obtain ⟨r2, hr2⟩ := (leadsTo_iff _ _).mp h6
        have hr3 : w :: n2 :: t = w :: m :: (u ++ r2) := by
          rw [hr2]
          rfl
        injection hr3 with _ h7
        injection h7 with h8 _
        exact hn2 h8
  rw [hcov]
  rfl

/-- A present second-level staging path comes from a member under that
second-level name. -/
theorem stageLookup_isSome_top (w n : String) (l : List TarEntry)
    (h : (stageLookup (TarEntry.dirE [w] :: l) [w, n]).isSome = true) :
    ∃ e ∈ l, ∃ t, e.path = w :: n :: t := by
  unfold stageLookup at h
  cases hfa : fileAt (TarEntry.dirE [w] :: l) [w, n] with
  | some c =>
    have hfa2 : fileAt l [w, n] = some c := hfa
    exact ⟨TarEntry.fileE [w, n] c, fileAt_mem l _ c hfa2, [], rfl⟩
  | none =>
    rw [hfa] at h
    by_cases hcov : coveredDirB (TarEntry.dirE [w] :: l) [w, n] = true
    · obtain ⟨e, he, hor⟩ := (coveredDirB_true_iff _ _).mp hcov
      rcases List.mem_cons.mp he with rfl | he2
      · exfalso
        rcases hor with h5 | h5
        · injection h5 with h6
          have h4 := congrArg List.length h6
          simp at h4
        · obtain ⟨h6, _⟩ := (properLead_iff _ _).mp h5
          have h8 := leadsTo_length_le _ _ h6
          simp [TarEntry.path] at h8
      · rcases hor with h5 | h5
        · refine ⟨e, he2, [], ?_⟩
          rw [h5]
          rfl
        · obtain ⟨h6, _⟩ := (properLead_iff _ _).mp h5
          obtain ⟨r2, hr2⟩ := (leadsTo_iff _ _).mp h6
          exact ⟨e, he2, r2, by rw [hr2]; rfl⟩
    · rw [if_neg hcov] at h
      simp at h

/-- Full specification of extract_tar_gz on a correctly wrapped archive:
one top-level directory w holding the payload, every payload member under a
second-level name other than "temp".  Extraction succeeds and the payload
lands unwrapped in the extraction directory. -/
theorem extract_tar_gz_wrapped (base : FPath) (w : String)
    (payload : List TarEntry) (fs : FSys)
    (hbG : goodPath base) (hbNe : base ≠ [])
    (hW : WFfs fs)
    (hbanc : ∀ q, q ≠ [] → leadsTo q base = true → lookupFS fs q = some FNode.dir)
    (hbempty : ∀ q, properLead base q = true → lookupFS fs q = none)
    (hwG : goodComp w)
    (hsh : ∀ e ∈ payload, ∃ n t, e.path = w :: n :: t ∧ n ≠ "temp" ∧ goodPath e.path)
    (hnd : ((TarEntry.dirE [w] :: payload).map TarEntry.path).Nodup)
    (hnfa : noFileAncestor (TarEntry.dirE [w] :: payload)) :
    ∃ fs5, extract_tar_gz ⟨TarEntry.dirE [w] :: payload, none⟩ base fs = .ok fs5 ∧
      (∀ r, r ≠ [] → lookupFS fs5 (base ++ r) = stageLookup payload (w :: r)) ∧
      (∀ q, leadsTo base q = false → leadsTo q base = false →
        lookupFS fs5 q = lookupFS fs q) ∧
      (∀ q, q ≠ [] → leadsTo q base = true → lookupFS fs5 q = some FNode.dir) := by
  have hshW : ∀ e ∈ payload, ∃ n t, e.path = w :: n :: t := by
    intro e he
    obtain ⟨n, t, hp, _, _⟩ := hsh e he
    exact ⟨n, t, hp⟩
  have hshT : ∀ e ∈ payload, ∃ n t, e.path = w :: n :: t ∧ n ≠ "temp" := by
    intro e he
    obtain ⟨n, t, hp, hn, _⟩ := hsh e he
    exact ⟨n, t, hp, hn⟩
  have htempG : goodComp "temp" := ⟨by decide, by decide, by decide⟩
  have hstG : goodPath (base ++ ["temp"]) :=
    goodPath_append _ _ hbG (goodPath_singleton _ htempG)
  have hstNe : base ++ ["temp"] ≠ [] := by
    intro h
    exact hbNe (List.append_eq_nil.mp h).1
  obtain ⟨fs1, hmk, hW1, c3, c4, c5, c6⟩ :=
    makedirs_chain base ["temp"] [] fs fs hbNe hW (fun q _ => rfl) hbanc
      (fun r hr => by
        rw [stageLookup_nil]
        refine hbempty (base ++ r) ?_
        rw [properLead_iff]
        refine ⟨leadsTo_append _ _, ?_⟩
        cases r with
        | nil => exact absurd rfl hr
        | cons x t => exact ne_append_cons base x t)
      (fun i h1 h2 s => by rw [stageLookup_nil]; simp)
  have hE2 : ∀ q, q ≠ [] → leadsTo q (base ++ ["temp"]) = true →
      lookupFS fs1 q = some FNode.dir := by
    intro q hqne hql
    rcases leadsTo_split q base ["temp"] hql with h7 | h7
    · exact c4 q hqne h7
    · obtain ⟨s, rfl⟩ := (leadsTo_iff base q).mp h7
      rw [leadsTo_append_cancel] at hql
      rcases leadsTo_singleton s "temp" hql with rfl | rfl
      · refine c4 (base ++ []) hqne ?_
        rw [List.append_nil]
        exact leadsTo_refl base
      · exact c5 ["temp"] (by simp) (leadsTo_refl _)
  have hE3 : ∀ r, r ≠ [] →
      lookupFS fs1 ((base ++ ["temp"]) ++ r) = stageLookup [] r := by
    intro r hr
    rw [stageLookup_nil, List.append_assoc, List.singleton_append]
    have hlf : leadsTo ("temp" :: r) ["temp"] = false := by
      cases r with
      | nil => exact absurd rfl hr
      | cons x t =>
        show (if "temp" = "temp" then leadsTo (x :: t) [] else false) = false
        rw [if_pos rfl]
        rfl
    rw [c6 ("temp" :: r) (by simp) hlf]
    refine hbempty (base ++ "temp" :: r) ?_
    rw [properLead_iff]
    exact ⟨leadsTo_append _ _, ne_append_cons base "temp" r⟩
  have hge : ∀ e2 ∈ TarEntry.dirE [w] :: payload,
      e2.path ≠ [] ∧ goodPath e2.path := by
    intro e2 he2
    rcases List.mem_cons.mp he2 with rfl | he3
    · exact ⟨by simp [TarEntry.path], goodPath_singleton w hwG⟩
    · obtain ⟨n, t, hp, _, hg⟩ := hsh e2 he3
      refine ⟨?_, hg⟩
      rw [hp]
      simp
  obtain ⟨fs2, hext, hW2, E1, E2, E3⟩ :=
    extractList_fresh (base ++ ["temp"]) hstG hstNe (TarEntry.dirE [w] :: payload) []
      fs1 fs1 hW1 (fun q _ => rfl) hE2 hE3 (by simpa using hge) (by simpa using hnd)
      (by simpa using hnfa)
  simp only [List.nil_append] at E3
  have gA : ∀ q, leadsTo base q = false → leadsTo q base = false →
      lookupFS fs2 q = lookupFS fs q := by
    intro q h1 h2
    rw [E1 q (leadsTo_false_of_extend base ["temp"] q h1)]
    exact c3 q h1
  have gB : ∀ q, q ≠ [] → leadsTo q base = true →
      lookupFS fs2 q = some FNode.dir := by
    intro q hqne hql
    exact E2 q hqne (leadsTo_trans q base (base ++ ["temp"]) hql (leadsTo_append _ _))
  have gD0 : lookupFS fs2 (base ++ ["temp"]) = some FNode.dir :=
    E2 _ hstNe (leadsTo_refl _)
  have gD1 : lookupFS fs2 ((base ++ ["temp"]) ++ [w]) = some FNode.dir := by
    rw [E3 [w] (by simp)]
    exact stageLookup_wrap_top w payload hshW
  have gD2 : ∀ m u, lookupFS fs2 ((base ++ ["temp"]) ++ [w] ++ m :: u)
      = if m ∈ ([] : List String) then none
        else stageLookup (TarEntry.dirE [w] :: payload) (w :: m :: u) := by
    intro m u
    rw [if_neg (List.not_mem_nil m)]
    rw [List.append_assoc (base ++ ["temp"]), E3 ([w] ++ m :: u) (by simp),
      List.singleton_append]
  have gD3 : ∀ n u, n ≠ w → lookupFS fs2 ((base ++ ["temp"]) ++ n :: u)
      = stageLookup (TarEntry.dirE [w] :: payload) (n :: u) := by
    intro n u _
    exact E3 (n :: u) (by simp)
  have gE1 : ∀ n u, n ≠ "temp" → lookupFS fs2 (base ++ n :: u)
      = if n ∈ ([] : List String)
        then stageLookup (TarEntry.dirE [w] :: payload) (w :: n :: u) else none := by
    intro n u hn
    rw [if_neg (List.not_mem_nil n)]
    have hsq : leadsTo (base ++ ["temp"]) (base ++ n :: u) = false := by
      rw [leadsTo_append_cancel]
      exact leadsTo_cons_ne "temp" n [] u (fun h => hn h.symm)
    rw [E1 _ hsq]
    have hlf : leadsTo (n :: u) ["temp"] = false :=
      leadsTo_cons_ne n "temp" u [] hn
    rw [c6 (n :: u) (by simp) hlf]
    refine hbempty (base ++ n :: u) ?_
    rw [properLead_iff]
    exact ⟨leadsTo_append _ _, ne_append_cons base n u⟩
  have hLmem : ∀ n, n ∈ childNamesFS fs2 (base ++ ["temp"]) ↔ n = w := by
    intro n
    rw [childNamesFS_mem_lookup, E3 [n] (by simp)]
    constructor
    · intro h
      by_contra hnw
      rw [stageLookup_wrap_off w n [] payload hshW hnw] at h
      simp at h
    · intro h
      rw [h, stageLookup_wrap_top w payload hshW]
      rfl
  have hLouter : childNamesFS fs2 (base ++ ["temp"]) = [w] :=
    nodup_singleton_of_mem_iff _ w (childNamesFS_nodup fs2 _ hW2) hLmem
  have hMchar : ∀ n, n ∈ childNamesFS fs2 ((base ++ ["temp"]) ++ [w])
      ↔ (stageLookup (TarEntry.dirE [w] :: payload) [w, n]).isSome = true := by
    intro n
    rw [childNamesFS_mem_lookup, List.append_assoc, E3 ([w] ++ [n]) (by simp)]
    exact Iff.rfl
  have hMprops : ∀ n ∈ childNamesFS fs2 ((base ++ ["temp"]) ++ [w]),
      n ≠ "temp" ∧ (stageLookup (TarEntry.dirE [w] :: payload) [w, n]).isSome = true := by
    intro n hn
    have h8 := (hMchar n).mp hn
    refine ⟨?_, h8⟩
    obtain ⟨e, he, t, hp⟩ := stageLookup_isSome_top w n payload h8
    obtain ⟨n2, t2, hp2, hn2⟩ := hshT e he
    rw [hp] at hp2
    injection hp2 with _ hp3
    injection hp3 with hn3 _
    rw [hn3]
    exact hn2
  obtain ⟨fs3, hinner, hW3, m1, m2, m3, m4, m5, m6, m7⟩ :=
    innerMove_loop fs base (base ++ ["temp"]) w (TarEntry.dirE [w] :: payload)
      (fun n u => stageLookup (TarEntry.dirE [w] :: payload) (n :: u)) hbNe rfl
      (childNamesFS fs2 ((base ++ ["temp"]) ++ [w])) [] fs2 hW2
      (by simpa using childNamesFS_nodup fs2 _ hW2) (by simpa using hMprops)
      gA gB gD0 gD1 gD2 gD3 gE1
  simp only [List.nil_append] at m5 m7
  have hMall : ∀ m u, m ∉ childNamesFS fs2 ((base ++ ["temp"]) ++ [w]) →
      stageLookup (TarEntry.dirE [w] :: payload) (w :: m :: u) = none := by
    intro m u hm
    have h0 : stageLookup (TarEntry.dirE [w] :: payload) [w, m] = none := by
      cases hq : stageLookup (TarEntry.dirE [w] :: payload) [w, m] with
      | none => rfl
      | some nd => exact absurd ((hMchar m).mpr (by rw [hq]; rfl)) hm
    cases u with
    | nil => exact h0
    | cons a t => exact stageLookup_none_deeper _ [w, m] h0 (a :: t) (by simp)
  have hsubNone : ∀ s, s ≠ [] →
      lookupFS fs3 (((base ++ ["temp"]) ++ [w]) ++ s) = none := by
    intro s hs
    cases s with
    | nil => exact absurd rfl hs
    | cons m u =>
      rw [m5 m u]
      by_cases hm : m ∈ childNamesFS fs2 ((base ++ ["temp"]) ++ [w])
      · rw [if_pos hm]
      · rw [if_neg hm]
        exact hMall m u hm
  have hrm1 : rmdirFS fs3 ((base ++ ["temp"]) ++ [w])
      = .ok (eraseFS fs3 ((base ++ ["temp"]) ++ [w])) := by
    unfold rmdirFS
    rw [m4, hasStrictDesc_eq_false_of_lookup fs3 _ hsubNone]
    rfl
  have hisdir : isdirFS fs2 ((base ++ ["temp"]) ++ [w]) = true := by
    unfold isdirFS
    rw [gD1]
    rfl
  have houter : outerMove (base ++ ["temp"]) base [w] fs2
      = .ok (eraseFS fs3 ((base ++ ["temp"]) ++ [w])) := by
    show (if isdirFS fs2 ((base ++ ["temp"]) ++ [w]) = true then
        Res.bind (innerMove ((base ++ ["temp"]) ++ [w]) base
            (childNamesFS fs2 ((base ++ ["temp"]) ++ [w])) fs2)
          (fun f1 => Res.bind (rmdirFS f1 ((base ++ ["temp"]) ++ [w]))
            (fun f2 => outerMove (base ++ ["temp"]) base [] f2))
      else outerMove (base ++ ["temp"]) base [] fs2)
      = .ok (eraseFS fs3 ((base ++ ["temp"]) ++ [w]))
    rw [hisdir, if_pos rfl, hinner]
    simp only [Res.bind]
    rw [hrm1]
    simp only [Res.bind]
    rfl
  have hD0f : lookupFS (eraseFS fs3 ((base ++ ["temp"]) ++ [w])) (base ++ ["temp"])
      = some FNode.dir := by
    rw [lookupFS_eraseFS, if_neg (ne_append_cons _ w [])]
    exact m3
  have hsub2 : ∀ s, s ≠ [] →
      lookupFS (eraseFS fs3 ((base ++ ["temp"]) ++ [w])) ((base ++ ["temp"]) ++ s)
        = none := by
    intro s hs
    rw [lookupFS_eraseFS]
    by_cases hsw : (base ++ ["temp"]) ++ s = (base ++ ["temp"]) ++ [w]
    · rw [if_pos hsw]
    · rw [if_neg hsw]
      have hsnw : s ≠ [w] := fun h => hsw (by rw [h])
      cases s with
      | nil => exact absurd rfl hs
      | cons m u =>
        by_cases hmw : m = w
        · rw [hmw] at hsnw ⊢
          cases u with
          | nil => exact absurd rfl hsnw
          | cons m2 u2 =>
            rw [show (base ++ ["temp"]) ++ w :: m2 :: u2
                = ((base ++ ["temp"]) ++ [w]) ++ m2 :: u2 from by simp]
            rw [m5 m2 u2]
            by_cases hm2 : m2 ∈ childNamesFS fs2 ((base ++ ["temp"]) ++ [w])
            · rw [if_pos hm2]
            · rw [if_neg hm2]
              exact hMall m2 u2 hm2
        · rw [m6 m u hmw]
          exact stageLookup_wrap_off w m u payload hshW hmw
  have hrm2 : rmdirFS (eraseFS fs3 ((base ++ ["temp"]) ++ [w])) (base ++ ["temp"])
      = .ok (eraseFS (eraseFS fs3 ((base ++ ["temp"]) ++ [w])) (base ++ ["temp"])) := by
    unfold rmdirFS
    rw [hD0f, hasStrictDesc_eq_false_of_lookup _ _ hsub2]
    rfl
  refine ⟨eraseFS (eraseFS fs3 ((base ++ ["temp"]) ++ [w])) (base ++ ["temp"]),
    ?_, ?_, ?_, ?_⟩
  · show Res.bind (makedirsFS fs (base ++ ["temp"]))
      (fun f1 => Res.bind
        (extractList (base ++ ["temp"]) (TarEntry.dirE [w] :: payload) none f1)
        (fun f2 => Res.bind
          (outerMove (base ++ ["temp"]) base (childNamesFS f2 (base ++ ["temp"])) f2)
          (fun f3 => rmdirFS f3 (base ++ ["temp"]))))
      = .ok (eraseFS (eraseFS fs3 ((base ++ ["temp"]) ++ [w])) (base ++ ["temp"]))
    rw [hmk]
    simp only [Res.bind]
    rw [hext]
    simp only [Res.bind]
    rw [hLouter, houter]
    simp only [Res.bind]
    exact hrm2
  · intro r hr
    rw [lookupFS_eraseFS]
    by_cases hrt : base ++ r = base ++ ["temp"]
    · rw [if_pos hrt]
      have hr2 : r = ["temp"] := List.append_cancel_left hrt
      subst hr2
      exact (stageLookup_pay_off w "temp" [] payload hshT).symm
    · rw [if_neg hrt, lookupFS_eraseFS]
      by_cases hrw : base ++ r = (base ++ ["temp"]) ++ [w]
      · rw [if_pos hrw]
        rw [List.append_assoc] at hrw
        have hr2 : r = ["temp", w] := List.append_cancel_left hrw
        subst hr2
        exact (stageLookup_pay_off w "temp" [w] payload hshT).symm
      · rw [if_neg hrw]
        cases r with
        | nil => exact absurd rfl hr
        | cons n u =>
          by_cases hnt : n = "temp"
          · subst hnt
            cases u with
            | nil => exact absurd rfl hrt
            | cons v u2 =>
              by_cases hvw : v = w
              · rw [hvw] at hrw ⊢
                cases u2 with
                | nil => exact absurd (by simp) hrw
                | cons m2 u3 =>
                  rw [show base ++ "temp" :: w :: m2 :: u3
                      = ((base ++ ["temp"]) ++ [w]) ++ m2 :: u3 from by simp]
                  rw [m5 m2 u3,
                    stageLookup_pay_off w "temp" (w :: m2 :: u3) payload hshT]
                  by_cases hm2 : m2 ∈ childNamesFS fs2 ((base ++ ["temp"]) ++ [w])
                  · rw [if_pos hm2]
                  · rw [if_neg hm2]
                    exact hMall m2 u3 hm2
              · rw [show base ++ "temp" :: v :: u2
                    = (base ++ ["temp"]) ++ v :: u2 from by simp]
                rw [m6 v u2 hvw, stageLookup_wrap_off w v u2 payload hshW hvw,
                  stageLookup_pay_off w "temp" (v :: u2) payload hshT]
          · rw [m7 n u hnt]
            by_cases hnm : n ∈ childNamesFS fs2 ((base ++ ["temp"]) ++ [w])
            · rw [if_pos hnm]
              exact stageLookup_cons_dirE_deep w payload n u
            · rw [if_neg hnm, ← stageLookup_cons_dirE_deep w payload n u]
              exact (hMall n u hnm).symm
  · intro q h1 h2
    have hne1 : q ≠ base ++ ["temp"] := by
      intro hcon
      rw [hcon, leadsTo_append] at h1
      exact Bool.noConfusion h1
    have hne2 : q ≠ (base ++ ["temp"]) ++ [w] := by
      intro hcon
      rw [hcon,
        leadsTo_trans base (base ++ ["temp"]) ((base ++ ["temp"]) ++ [w])
          (leadsTo_append _ _) (leadsTo_append _ _)] at h1
      exact Bool.noConfusion h1
    rw [lookupFS_eraseFS, if_neg hne1, lookupFS_eraseFS, if_neg hne2]
    exact m1 q h1 h2
  · intro q hqne hql
    have h6 := leadsTo_length_le q base hql
    have hne1 : q ≠ base ++ ["temp"] := by
      intro hcon
      have h7 := congrArg List.length hcon
      rw [List.length_append] at h7
      simp at h7
      omega
    have hne2 : q ≠ (base ++ ["temp"]) ++ [w] := by
      intro hcon
      have h7 := congrArg List.length hcon
      rw [List.length_append, List.length_append] at h7
      simp at h7
      omega
    rw [lookupFS_eraseFS, if_neg hne1, lookupFS_eraseFS, if_neg hne2]
    exact m2 q hqne hql

/-- Common first phase of extract_tar_gz over an empty extraction
directory: the staging directory is created and the members extracted into
it; the world outside the extraction directory and the extraction
directory's other children are untouched. -/
theorem extract_setup (base : FPath) (entries : List TarEntry) (fs : FSys)
    (hbG : goodPath base) (hbNe : base ≠ [])
    (hW : WFfs fs)
    (hbanc : ∀ q, q ≠ [] → leadsTo q base = true → lookupFS fs q = some FNode.dir)
    (hbempty : ∀ q, properLead base q = true → lookupFS fs q = none)
    (hge : ∀ e2 ∈ entries, e2.path ≠ [] ∧ goodPath e2.path)
    (hnd : (entries.map TarEntry.path).Nodup)
    (hnfa : noFileAncestor entries) :
    ∃ fs1 fs2, makedirsFS fs (base ++ ["temp"]) = .ok fs1 ∧
      extractList (base ++ ["temp"]) entries none fs1 = .ok fs2 ∧
      WFfs fs2 ∧
      (∀ q, leadsTo base q = false → leadsTo q base = false →
        lookupFS fs2 q = lookupFS fs q) ∧
      (∀ q, q ≠ [] → leadsTo q base = true → lookupFS fs2 q = some FNode.dir) ∧
      lookupFS fs2 (base ++ ["temp"]) = some FNode.dir ∧
      (∀ r, r ≠ [] →
        lookupFS fs2 ((base ++ ["temp"]) ++ r) = stageLookup entries r) ∧
      (∀ n u, n ≠ "temp" → lookupFS fs2 (base ++ n :: u) = none) := by
  have htempG : goodComp "temp" := ⟨by decide, by decide, by decide⟩
  have hstG : goodPath (base ++ ["temp"]) :=
    goodPath_append _ _ hbG (goodPath_singleton _ htempG)
  have hstNe : base ++ ["temp"] ≠ [] := by
    intro h
    exact hbNe (List.append_eq_nil.mp h).1
  obtain ⟨fs1, hmk, hW1, c3, c4, c5, c6⟩ :=
    makedirs_chain base ["temp"] [] fs fs hbNe hW (fun q _ => rfl) hbanc
      (fun r hr => by
        rw [stageLookup_nil]
        refine hbempty (base ++ r) ?_
        rw [properLead_iff]
        refine ⟨leadsTo_append _ _, ?_⟩
        cases r with
        | nil => exact absurd rfl hr
        | cons x t => exact ne_append_cons base x t)
      (fun i h1 h2 s => by rw [stageLookup_nil]; simp)
  have hE2 : ∀ q, q ≠ [] → leadsTo q (base ++ ["temp"]) = true →
      lookupFS fs1 q = some FNode.dir := by
    intro q hqne hql
    rcases leadsTo_split q base ["temp"] hql with h7 | h7
    · exact c4 q hqne h7
    · obtain ⟨s, rfl⟩ := (leadsTo_iff base q).mp h7
      rw [leadsTo_append_cancel] at hql
      rcases leadsTo_singleton s "temp" hql with rfl | rfl
      · refine c4 (base ++ []) hqne ?_
        rw [List.append_nil]
        exact leadsTo_refl base
      · exact c5 ["temp"] (by simp) (leadsTo_refl _)
  have hE3 : ∀ r, r ≠ [] →
      lookupFS fs1 ((base ++ ["temp"]) ++ r) = stageLookup [] r := by
    intro r hr
    rw [stageLookup_nil, List.append_assoc, List.singleton_append]
    have hlf : leadsTo ("temp" :: r) ["temp"] = false := by
      cases r with
      | nil => exact absurd rfl hr
      | cons x t =>
        show (if "temp" = "temp" then leadsTo (x :: t) [] else false) = false
        rw [if_pos rfl]
        rfl
    rw [c6 ("temp" :: r) (by simp) hlf]
    refine hbempty (base ++ "temp" :: r) ?_
    rw [properLead_iff]
    exact ⟨leadsTo_append _ _, ne_append_cons base "temp" r⟩
  obtain ⟨fs2, hext, hW2, E1, E2, E3⟩ :=
    extractList_fresh (base ++ ["temp"]) hstG hstNe entries []
      fs1 fs1 hW1 (fun q _ => rfl) hE2 hE3 (by simpa using hge) (by simpa using hnd)
      (by simpa using hnfa)
  simp only [List.nil_append] at E3
  refine ⟨fs1, fs2, hmk, hext, hW2, ?_, ?_, ?_, E3, ?_⟩
  · intro q h1 h2
    rw [E1 q (leadsTo_false_of_extend base ["temp"] q h1)]
    exact c3 q h1
  · intro q hqne hql
    exact E2 q hqne (leadsTo_trans q base (base ++ ["temp"]) hql (leadsTo_append _ _))
  · exact E2 _ hstNe (leadsTo_refl _)
  · intro n u hn
    have hsq : leadsTo (base ++ ["temp"]) (base ++ n :: u) = false := by
      rw [leadsTo_append_cancel]
      exact leadsTo_cons_ne "temp" n [] u (fun h => hn h.symm)
    rw [E1 _ hsq]
    have hlf : leadsTo (n :: u) ["temp"] = false :=
      leadsTo_cons_ne n "temp" u [] hn
    rw [c6 (n :: u) (by simp) hlf]
    refine hbempty (base ++ n :: u) ?_
    rw [properLead_iff]
    exact ⟨leadsTo_append _ _, ne_append_cons base n u⟩

/-- A trailing stray top-level file member is invisible on paths that are
neither the stray path nor above it. -/
theorem stage10_drop_snoc (w f cIn : String) (payload : List TarEntry) (r : FPath)
    (hne : ([f] : FPath) ≠ r) (hnl : leadsTo r [f] = false) :
    stageLookup (TarEntry.dirE [w] :: (payload ++ [TarEntry.fileE [f] cIn])) r
      = stageLookup (TarEntry.dirE [w] :: payload) r := by
  unfold stageLookup
  have hfa : fileAt (TarEntry.dirE [w] :: (payload ++ [TarEntry.fileE [f] cIn])) r
      = fileAt (TarEntry.dirE [w] :: payload) r := by
    show fileAt (payload ++ [TarEntry.fileE [f] cIn]) r = fileAt payload r
    rw [fileAt_snoc_file]
    cases hq : fileAt payload r with
    | some c2 => rfl
    | none => rw [if_neg hne]
  rw [hfa]
  have h5 : properLead r [f] = false := by
    unfold properLead
    rw [hnl]
    rfl
  have hcov : coveredDirB (TarEntry.dirE [w] :: (payload ++ [TarEntry.fileE [f] cIn])) r
      = coveredDirB (TarEntry.dirE [w] :: payload) r := by
    unfold coveredDirB
    rw [List.any_cons, List.any_cons, List.any_append, List.any_cons, List.any_nil]
    simp [TarEntry.path, h5]
  rw [hcov]

/-- The stray top-level file member shows as a file at its staging path. -/
theorem stage10_top_f (w f c : String) (payload : List TarEntry)
    (hsh : ∀ e ∈ payload, ∃ n t, e.path = w :: n :: t) :
    stageLookup (TarEntry.dirE [w] :: (payload ++ [TarEntry.fileE [f] c])) [f]
      = some (FNode.file c) := by
  unfold stageLookup
  have hfa : fileAt (TarEntry.dirE [w] :: (payload ++ [TarEntry.fileE [f] c])) [f]
      = some c := by
    show fileAt (payload ++ [TarEntry.fileE [f] c]) [f] = some c
    rw [fileAt_snoc_file]
    cases hq : fileAt payload [f] with
    | some c2 =>
      exfalso
      obtain ⟨n, t, hp⟩ := hsh _ (fileAt_mem payload [f] c2 hq)
      have h4 : ([f] : FPath) = w :: n :: t := hp
      have h5 := congrArg List.length h4
      simp at h5
    | none => rw [if_pos rfl]
  rw [hfa]

/-- Below the stray top-level file the staging area holds nothing. -/
theorem stage10_f_deep (w f c : String) (u : FPath) (hu : u ≠ [])
    (payload : List TarEntry)
    (hsh : ∀ e ∈ payload, ∃ n t, e.path = w :: n :: t) (hfw : f ≠ w) :
    stageLookup (TarEntry.dirE [w] :: (payload ++ [TarEntry.fileE [f] c])) (f :: u)
      = none := by
  unfold stageLookup
  have hfa : fileAt (TarEntry.dirE [w] :: (payload ++ [TarEntry.fileE [f] c])) (f :: u)
      = none := by
    show fileAt (payload ++ [TarEntry.fileE [f] c]) (f :: u) = none
    rw [fileAt_snoc_file]
    cases hq : fileAt payload (f :: u) with
    | some c2 =>
      exfalso
      obtain ⟨n, t, hp⟩ := hsh _ (fileAt_mem payload _ c2 hq)
      have h4 : f :: u = w :: n :: t := hp
      injection h4 with h5 _
      exact hfw h5
    | none =>
      rw [if_neg ?_]
      intro hcon
      cases u with
      | nil => exact hu rfl
      | cons x t =>
        have h5 := congrArg List.length hcon
        simp at h5
  rw [hfa]
  have hcov : coveredDirB (TarEntry.dirE [w] :: (payload ++ [TarEntry.fileE [f] c]))
      (f :: u) = false := by
    cases hq : coveredDirB (TarEntry.dirE [w] :: (payload ++ [TarEntry.fileE [f] c]))
        (f :: u) with
    | false => rfl
    | true =>
      exfalso
      obtain ⟨e, he, hor⟩ := (coveredDirB_true_iff _ _).mp hq
      rcases List.mem_cons.mp he with rfl | he2
      · rcases hor with h5 | h5
        · injection h5 with h6
          injection h6 with h7 _
          exact hfw h7.symm
        · obtain ⟨h6, _⟩ := (properLead_iff _ _).mp h5
          obtain ⟨r2, hr2⟩ := (leadsTo_iff _ _).mp h6
          have hr3 : ([w] : FPath) = f :: (u ++ r2) := hr2
          injection hr3 with h7 _
          exact hfw h7.symm
      · rcases List.mem_append.mp he2 with he3 | he3
        · obtain ⟨n, t, hp⟩ := hsh e he3
          rcases hor with h5 | h5
          · rw [h5] at hp
            have h4 : f :: u = w :: n :: t := hp
            injection h4 with h6 _
            exact hfw h6
          · obtain ⟨h6, _⟩ := (properLead_iff _ _).mp h5
            rw [hp] at h6
            obtain ⟨r2, hr2⟩ := (leadsTo_iff _ _).mp h6
            have hr3 : w :: n :: t = f :: (u ++ r2) := hr2
            injection hr3 with h7 _
            exact hfw h7.symm
        · rw [List.mem_singleton] at he3
          subst he3
          rcases hor with h5 | h5
          · exact TarEntry.noConfusion h5
          · obtain ⟨h6, _⟩ := (properLead_iff _ _).mp h5
            have h8 : leadsTo (f :: u) [f] = true := h6
            rw [show leadsTo (f :: u) [f] = leadsTo u [] from by
              show (if f = f then leadsTo u [] else false) = leadsTo u []
              rw [if_pos rfl]] at h8
            cases u with
            | nil => exact hu rfl
            | cons x t => exact Bool.noConfusion h8
  rw [hcov]
  rfl

/-- Full behaviour of extract_tar_gz on an archive whose root holds the
usual wrapper directory plus one stray top-level regular file: the stray is
skipped by the move loop (not a directory), stays inside the staging
subdirectory, makes its final os.rmdir raise ENOTEMPTY, and is never
installed into the extraction directory. -/
theorem extract_tar_gz_stray (base : FPath) (w f c : String)
    (payload : List TarEntry) (fs : FSys)
    (hbG : goodPath base) (hbNe : base ≠ [])
    (hW : WFfs fs)
    (hbanc : ∀ q, q ≠ [] → leadsTo q base = true → lookupFS fs q = some FNode.dir)
    (hbempty : ∀ q, properLead base q = true → lookupFS fs q = none)
    (hwG : goodComp w) (hfG : goodComp f) (hfw : f ≠ w) (hft : f ≠ "temp")
    (hsh : ∀ e ∈ payload,
      ∃ n t, e.path = w :: n :: t ∧ n ≠ "temp" ∧ n ≠ f ∧ goodPath e.path)
    (hnd : ((TarEntry.dirE [w] :: (payload ++ [TarEntry.fileE [f] c])).map
      TarEntry.path).Nodup)
    (hnfa : noFileAncestor
      (TarEntry.dirE [w] :: (payload ++ [TarEntry.fileE [f] c]))) :
    Res.isErr (extract_tar_gz
      ⟨TarEntry.dirE [w] :: (payload ++ [TarEntry.fileE [f] c]), none⟩ base fs)
      = true ∧
    lookupFS (Res.fsys (extract_tar_gz
      ⟨TarEntry.dirE [w] :: (payload ++ [TarEntry.fileE [f] c]), none⟩ base fs))
      ((base ++ ["temp"]) ++ [f]) = some (FNode.file c) ∧
    lookupFS (Res.fsys (extract_tar_gz
      ⟨TarEntry.dirE [w] :: (payload ++ [TarEntry.fileE [f] c]), none⟩ base fs))
      (base ++ [f]) = none := by
  have hwf : w ≠ f := fun h => hfw h.symm
  have hshW : ∀ e ∈ payload, ∃ n t, e.path = w :: n :: t := by
    intro e he
    obtain ⟨n, t, hp, _, _, _⟩ := hsh e he
    exact ⟨n, t, hp⟩
  have hge : ∀ e2 ∈ TarEntry.dirE [w] :: (payload ++ [TarEntry.fileE [f] c]),
      e2.path ≠ [] ∧ goodPath e2.path := by
    intro e2 he2
    rcases List.mem_cons.mp he2 with rfl | he3
    · exact ⟨by simp [TarEntry.path], goodPath_singleton w hwG⟩
    · rcases List.mem_append.mp he3 with he4 | he4
      · obtain ⟨n, t, hp, _, _, hg⟩ := hsh e2 he4
        refine ⟨?_, hg⟩
        rw [hp]
        simp
      · rw [List.mem_singleton] at he4
        subst he4
        exact ⟨by simp [TarEntry.path], goodPath_singleton f hfG⟩
  obtain ⟨fs1, fs2, hmk, hext, hW2, gA, gB, gD0, E3, gOut⟩ :=
    extract_setup base (TarEntry.dirE [w] :: (payload ++ [TarEntry.fileE [f] c])) fs
      hbG hbNe hW hbanc hbempty hge hnd hnfa
  have hTopW : stageLookup (TarEntry.dirE [w] :: (payload ++ [TarEntry.fileE [f] c]))
      [w] = some FNode.dir := by
    rw [stage10_drop_snoc w f c payload [w]
      (by intro hcon; injection hcon with h7 h8; exact hfw h7)
      (leadsTo_cons_ne w f [] [] hwf)]
    exact stageLookup_wrap_top w payload hshW
  have hDeepW : ∀ m u,
      stageLookup (TarEntry.dirE [w] :: (payload ++ [TarEntry.fileE [f] c]))
        (w :: m :: u) = stageLookup payload (w :: m :: u) := by
    intro m u
    have hne : ([f] : FPath) ≠ w :: m :: u := by
      intro hcon
      have h4 := congrArg List.length hcon
      simp at h4
    rw [stage10_drop_snoc w f c payload _ hne (leadsTo_cons_ne w f (m :: u) [] hwf)]
    exact stageLookup_cons_dirE_deep w payload m u
  have hTopOff : ∀ n, n ≠ w → n ≠ f → ∀ u,
      stageLookup (TarEntry.dirE [w] :: (payload ++ [TarEntry.fileE [f] c]))
        (n :: u) = none := by
    intro n hnw hnf u
    have hne : ([f] : FPath) ≠ n :: u := by
      intro hcon
      injection hcon with h7 h8
      exact hnf h7.symm
    rw [stage10_drop_snoc w f c payload _ hne (leadsTo_cons_ne n f u [] hnf)]
    exact stageLookup_wrap_off w n u payload hshW hnw
  have hTopF : stageLookup (TarEntry.dirE [w] :: (payload ++ [TarEntry.fileE [f] c]))
      [f] = some (FNode.file c) :=
    stage10_top_f w f c payload hshW
  have hIsTop : ∀ n,
      (stageLookup (TarEntry.dirE [w] :: (payload ++ [TarEntry.fileE [f] c]))
        [w, n]).isSome = true →
      ∃ e ∈ payload, ∃ t, e.path = w :: n :: t := by
    intro n h
    have hne : ([f] : FPath) ≠ [w, n] := by
      intro hcon
      have h4 := congrArg List.length hcon
      simp at h4
    rw [stage10_drop_snoc w f c payload _ hne (leadsTo_cons_ne w f [n] [] hwf)] at h
    exact stageLookup_isSome_top w n payload h
  have gD1 : lookupFS fs2 ((base ++ ["temp"]) ++ [w]) = some FNode.dir := by
    rw [E3 [w] (by simp)]
    exact hTopW
  have gD2 : ∀ m u, lookupFS fs2 ((base ++ ["temp"]) ++ [w] ++ m :: u)
      = if m ∈ ([] : List String) then none
        else stageLookup (TarEntry.dirE [w] :: (payload ++ [TarEntry.fileE [f] c]))
          (w :: m :: u) := by
    intro m u
    rw [if_neg (List.not_mem_nil m)]
    rw [List.append_assoc (base ++ ["temp"]), E3 ([w] ++ m :: u) (by simp),
      List.singleton_append]
  have gD3 : ∀ n u, n ≠ w → lookupFS fs2 ((base ++ ["temp"]) ++ n :: u)
      = stageLookup (TarEntry.dirE [w] :: (payload ++ [TarEntry.fileE [f] c]))
        (n :: u) :=
    fun n u _ => E3 (n :: u) (by simp)
  have gE1 : ∀ n u, n ≠ "temp" → lookupFS fs2 (base ++ n :: u)
      = if n ∈ ([] : List String)
        then stageLookup (TarEntry.dirE [w] :: (payload ++ [TarEntry.fileE [f] c]))
          (w :: n :: u) else none := by
    intro n u hn
    rw [if_neg (List.not_mem_nil n), gOut n u hn]
  have hLmem : ∀ n, n ∈ childNamesFS fs2 (base ++ ["temp"]) ↔ (n = w ∨ n = f) := by
    intro n
    rw [childNamesFS_mem_lookup, E3 [n] (by simp)]
    constructor
    · intro h
      by_cases hnw : n = w
      · exact Or.inl hnw
      · by_cases hnf : n = f
        · exact Or.inr hnf
        · rw [hTopOff n hnw hnf []] at h
          simp at h
    · intro h
      rcases h with rfl | rfl
      · rw [hTopW]
        rfl
      · rw [hTopF]
        rfl
  have hLpair := nodup_pair_of_mem_iff _ w f hwf (childNamesFS_nodup fs2 _ hW2) hLmem
  have hMchar : ∀ n, n ∈ childNamesFS fs2 ((base ++ ["temp"]) ++ [w])
      ↔ (stageLookup (TarEntry.dirE [w] :: (payload ++ [TarEntry.fileE [f] c]))
        [w, n]).isSome = true := by
    intro n
    rw [childNamesFS_mem_lookup, List.append_assoc, E3 ([w] ++ [n]) (by simp)]
    exact Iff.rfl
  have hMprops : ∀ n ∈ childNamesFS fs2 ((base ++ ["temp"]) ++ [w]),
      n ≠ "temp" ∧
      (stageLookup (TarEntry.dirE [w] :: (payload ++ [TarEntry.fileE [f] c]))
        [w, n]).isSome = true := by
    intro n hn
    have h8 := (hMchar n).mp hn
    refine ⟨?_, h8⟩
    obtain ⟨e, he, t, hp⟩ := hIsTop n h8
    obtain ⟨n2, t2, hp2, hn2, _, _⟩ := hsh e he
    rw [hp] at hp2
    injection hp2 with _ hp3
    injection hp3 with hn3 _
    rw [hn3]
    exact hn2
  have hfM : f ∉ childNamesFS fs2 ((base ++ ["temp"]) ++ [w]) := by
    intro hf
    obtain ⟨e, he, t, hp⟩ := hIsTop f ((hMchar f).mp hf)
    obtain ⟨n2, t2, hp2, _, hn2f, _⟩ := hsh e he
    rw [hp] at hp2
    injection hp2 with _ hp3
    injection hp3 with hn3 _
    exact hn2f hn3.symm
  obtain ⟨fs3, hinner, hW3, m1, m2, m3, m4, m5, m6, m7⟩ :=
    innerMove_loop fs base (base ++ ["temp"]) w
      (TarEntry.dirE [w] :: (payload ++ [TarEntry.fileE [f] c]))
      (fun n u => stageLookup
        (TarEntry.dirE [w] :: (payload ++ [TarEntry.fileE [f] c])) (n :: u))
      hbNe rfl (childNamesFS fs2 ((base ++ ["temp"]) ++ [w])) [] fs2 hW2
      (by simpa using childNamesFS_nodup fs2 _ hW2) (by simpa using hMprops)
      gA gB gD0 gD1 gD2 gD3 gE1
  simp only [List.nil_append] at m5 m7
  have hMall : ∀ m u, m ∉ childNamesFS fs2 ((base ++ ["temp"]) ++ [w]) →
      stageLookup (TarEntry.dirE [w] :: (payload ++ [TarEntry.fileE [f] c]))
        (w :: m :: u) = none := by
    intro m u hm
    have h0 : stageLookup (TarEntry.dirE [w] :: (payload ++ [TarEntry.fileE [f] c]))
        [w, m] = none := by
      cases hq : stageLookup (TarEntry.dirE [w] :: (payload ++ [TarEntry.fileE [f] c]))
          [w, m] with
      | none => rfl
      | some nd => exact absurd ((hMchar m).mpr (by rw [hq]; rfl)) hm
    cases u with
    | nil => exact h0
    | cons a t => exact stageLookup_none_deeper _ [w, m] h0 (a :: t) (by simp)
  have hsubNone : ∀ s, s ≠ [] →
      lookupFS fs3 (((base ++ ["temp"]) ++ [w]) ++ s) = none := by
    intro s hs
    cases s with
    | nil => exact absurd rfl hs
    | cons m u =>
      rw [m5 m u]
      by_cases hm : m ∈ childNamesFS fs2 ((base ++ ["temp"]) ++ [w])
      · rw [if_pos hm]
      · rw [if_neg hm]
        exact hMall m u hm
  have hrm1 : rmdirFS fs3 ((base ++ ["temp"]) ++ [w])
      = .ok (eraseFS fs3 ((base ++ ["temp"]) ++ [w])) := by
    unfold rmdirFS
    rw [m4, hasStrictDesc_eq_false_of_lookup fs3 _ hsubNone]
    rfl
  have hisdirW : isdirFS fs2 ((base ++ ["temp"]) ++ [w]) = true := by
    unfold isdirFS
    rw [gD1]
    rfl
  have hisdirF2 : isdirFS fs2 ((base ++ ["temp"]) ++ [f]) = false := by
    unfold isdirFS
    rw [E3 [f] (by simp), hTopF]
    rfl
  have hf4stray : lookupFS (eraseFS fs3 ((base ++ ["temp"]) ++ [w]))
      ((base ++ ["temp"]) ++ [f]) = some (FNode.file c) := by
    have hne : (base ++ ["temp"]) ++ [f] ≠ (base ++ ["temp"]) ++ [w] := by
      intro hcon
      have h8 := List.append_cancel_left hcon
      injection h8 with h9 _
      exact hfw h9
    rw [lookupFS_eraseFS, if_neg hne, m6 f [] hfw]
    exact hTopF
  have hisdirF4 : isdirFS (eraseFS fs3 ((base ++ ["temp"]) ++ [w]))
      ((base ++ ["temp"]) ++ [f]) = false := by
    unfold isdirFS
    rw [hf4stray]
    rfl
  have hf4base : lookupFS (eraseFS fs3 ((base ++ ["temp"]) ++ [w]))
      (base ++ [f]) = none := by
    have hne : base ++ [f] ≠ (base ++ ["temp"]) ++ [w] := by
      intro hcon
      have h8 := congrArg List.length hcon
      rw [List.length_append, List.length_append, List.length_append] at h8
      simp at h8
    rw [lookupFS_eraseFS, if_neg hne, m7 f [] hft, if_neg hfM]
  have hf4staging : lookupFS (eraseFS fs3 ((base ++ ["temp"]) ++ [w]))
      (base ++ ["temp"]) = some FNode.dir := by
    rw [lookupFS_eraseFS, if_neg (ne_append_cons _ w [])]
    exact m3
  have hSD : hasStrictDesc (eraseFS fs3 ((base ++ ["temp"]) ++ [w]))
      (base ++ ["temp"]) = true :=
    hasStrictDesc_eq_true_of _ _ _ _ (mem_of_lookupFS_eq_some _ _ _ hf4stray)
      (leadsTo_append _ _) (ne_append_cons _ f []).symm
  have hrm2 : rmdirFS (eraseFS fs3 ((base ++ ["temp"]) ++ [w])) (base ++ ["temp"])
      = .err eNOTEMPTY (eraseFS fs3 ((base ++ ["temp"]) ++ [w])) := by
    unfold rmdirFS
    rw [hf4staging, hSD]
    rfl
  have houterRun : outerMove (base ++ ["temp"]) base
      (childNamesFS fs2 (base ++ ["temp"])) fs2
      = .ok (eraseFS fs3 ((base ++ ["temp"]) ++ [w])) := by
    rcases hLpair with hL | hL
    · rw [hL]
      show (if isdirFS fs2 ((base ++ ["temp"]) ++ [w]) = true then
          Res.bind (innerMove ((base ++ ["temp"]) ++ [w]) base
              (childNamesFS fs2 ((base ++ ["temp"]) ++ [w])) fs2)
            (fun f1 => Res.bind (rmdirFS f1 ((base ++ ["temp"]) ++ [w]))
              (fun f2 => outerMove (base ++ ["temp"]) base [f] f2))
        else outerMove (base ++ ["temp"]) base [f] fs2)
        = .ok (eraseFS fs3 ((base ++ ["temp"]) ++ [w]))
      rw [hisdirW, if_pos rfl, hinner]
      simp only [Res.bind]
      rw [hrm1]
      simp only [Res.bind]
      show (if isdirFS (eraseFS fs3 ((base ++ ["temp"]) ++ [w]))
            ((base ++ ["temp"]) ++ [f]) = true then
          Res.bind (innerMove ((base ++ ["temp"]) ++ [f]) base
              (childNamesFS (eraseFS fs3 ((base ++ ["temp"]) ++ [w]))
                ((base ++ ["temp"]) ++ [f]))
              (eraseFS fs3 ((base ++ ["temp"]) ++ [w])))
            (fun f1 => Res.bind (rmdirFS f1 ((base ++ ["temp"]) ++ [f]))
              (fun f2 => outerMove (base ++ ["temp"]) base [] f2))
        else outerMove (base ++ ["temp"]) base []
          (eraseFS fs3 ((base ++ ["temp"]) ++ [w])))
        = .ok (eraseFS fs3 ((base ++ ["temp"]) ++ [w]))
      rw [hisdirF4]
      rfl
    · rw [hL]
      show (if isdirFS fs2 ((base ++ ["temp"]) ++ [f]) = true then
          Res.bind (innerMove ((base ++ ["temp"]) ++ [f]) base
              (childNamesFS fs2 ((base ++ ["temp"]) ++ [f])) fs2)
            (fun f1 => Res.bind (rmdirFS f1 ((base ++ ["temp"]) ++ [f]))
              (fun f2 => outerMove (base ++ ["temp"]) base [w] f2))
        else outerMove (base ++ ["temp"]) base [w] fs2)
        = .ok (eraseFS fs3 ((base ++ ["temp"]) ++ [w]))
      rw [hisdirF2]
      show (if isdirFS fs2 ((base ++ ["temp"]) ++ [w]) = true then
          Res.bind (innerMove ((base ++ ["temp"]) ++ [w]) base
              (childNamesFS fs2 ((base ++ ["temp"]) ++ [w])) fs2)
            (fun f1 => Res.bind (rmdirFS f1 ((base ++ ["temp"]) ++ [w]))
              (fun f2 => outerMove (base ++ ["temp"]) base [] f2))
        else outerMove (base ++ ["temp"]) base [] fs2)
        = .ok (eraseFS fs3 ((base ++ ["temp"]) ++ [w]))
      rw [hisdirW, if_pos rfl, hinner]
      simp only [Res.bind]
      rw [hrm1]
      simp only [Res.bind]
      rfl
  have hfinal : extract_tar_gz
      ⟨TarEntry.dirE [w] :: (payload ++ [TarEntry.fileE [f] c]), none⟩ base fs
      = .err eNOTEMPTY (eraseFS fs3 ((base ++ ["temp"]) ++ [w])) := by
    show Res.bind (makedirsFS fs (base ++ ["temp"])) (fun f1 =>
      Res.bind (extractList (base ++ ["temp"])
          (TarEntry.dirE [w] :: (payload ++ [TarEntry.fileE [f] c])) none f1)
        (fun f2 =>
      Res.bind (outerMove (base ++ ["temp"]) base
          (childNamesFS f2 (base ++ ["temp"])) f2)
        (fun f3 => rmdirFS f3 (base ++ ["temp"]))))
      = .err eNOTEMPTY (eraseFS fs3 ((base ++ ["temp"]) ++ [w]))
    rw [hmk]
    simp only [Res.bind]
    rw [hext]
    simp only [Res.bind]
    rw [houterRun]
    simp only [Res.bind]
    exact hrm2
  refine ⟨?_, ?_, ?_⟩
  · rw [hfinal]
    rfl
  · rw [hfinal]
    exact hf4stray
  · rw [hfinal]
    exact hf4base

/-! The claims. -/

/-- C1: the claim says a failed extraction leaves the pre-existing
installation directory untouched and never a mix of old and new content.
The code violates this: main extracts straight into the live installation
directory (line 115) before any swap, so a corrupt archive aborts the run
with a fresh frp/temp staging directory already created inside the live
installation, next to the old files — a mix, exactly what the claim (and
the spec, which is the clear intent here) rules out.  At the failing input
below, the run errors, the prior file frp/old is still present, and the
new frp/temp directory now also exists inside the installation path. -/
theorem claimC1_extraction_failure_corrupts_install :
    Res.isErr (mainModel inpCorrupt fsPrior) = true ∧
    lookupFS fsPrior ["frp", "temp"] = none ∧
    lookupFS (Res.fsys (mainModel inpCorrupt fsPrior)) ["frp", "temp"] = some FNode.dir ∧
    lookupFS (Res.fsys (mainModel inpCorrupt fsPrior)) ["frp", "old"]
      = some (FNode.file ("OLD")) ∧
    lookupFS (Res.fsys (mainModel inpCorrupt fsPrior)) [LOCAL_VERSION_FILE]
      = some (FNode.file ("v1.0.0")) :=
  ⟨by decide, by decide, by decide, by decide, by decide⟩

/-- C3 counterexample: the claim says equal parsed versions do not trigger
a reinstall.  With local version v2.0.0 and remote tag v2.0.0 the guard of
lines 102-106 (parse(local) greater than parse(latest)) is false, so the
run proceeds: at this input the whole update runs to success and replaces
the installation (the stale installed file disappears), although the
remote version is not strictly greater than the local one. -/
theorem claimC3_counterexample :
    update_proceeds (some ("v2.0.0")) ("v2.0.0") = true ∧
    verLt (parseVersion ("v2.0.0")) (parseVersion ("v2.0.0")) = false ∧
    Res.isErr (mainModel inpFlat fsEqualVer) = false ∧
    lookupFS fsEqualVer ["frp", "stale"] = some (FNode.file ("STALE")) ∧
    lookupFS (Res.fsys (mainModel inpFlat fsEqualVer)) ["frp", "stale"] = none :=
  ⟨by decide, by decide, by decide, by decide, by decide⟩

/-- C3 (amended): the update proceeds iff no local version is stored, or
the locally stored parsed version is not strictly greater than the remote
parsed version.  Equal parsed versions therefore do trigger a reinstall. -/
theorem claimC3_update_guard :
    ∀ (localv : Option String) (latest : String),
      update_proceeds localv latest = true ↔
        localv = none ∨ ∃ lv, localv = some lv ∧
          verLt (parseVersion latest) (parseVersion lv) = false := by
  intro localv latest
  cases localv with
  | none => simp [update_proceeds]
  | some lv => simp [update_proceeds]

/-- C4 counterexample: the claim says a second run against the unchanged
release is a no-op and leaves the state byte-for-byte identical.  With the
canonical wrapped archive (payload a, b/c) the first run succeeds; the
second run proceeds past the version comparison (equal versions), extracts
into the live installation directory again, and dies renaming the
extracted directory b over the existing non-empty frp/b — leaving a
frp/temp residue that was not there after the first run. -/
theorem claimC4_counterexample :
    mainModel inpCanon fsEmptyInstall = .ok fsAfterCanon ∧
    Res.isErr (mainModel inpCanon fsAfterCanon) = true ∧
    lookupFS (Res.fsys (mainModel inpCanon fsAfterCanon)) ["frp", "temp"]
      = some FNode.dir ∧
    lookupFS fsAfterCanon ["frp", "temp"] = none :=
  ⟨by decide, by decide, by decide, by decide⟩

/-- C4 (amended): the second run is not a no-op — it proceeds past the
version comparison and reinstalls.  For a flat payload (files only, the
shape of real frp archives) the second run succeeds and ends in the same
state as the first run, byte for byte; for a payload containing a
directory the second run instead fails partway (shown in the
counterexample).  Stated here: first run of the flat input ends in
fsAfterFlat, whose stored version equals the remote tag, the guard still
proceeds, and the second run ends in exactly fsAfterFlat again. -/
theorem claimC4_double_run :
    mainModel inpFlat fsEmptyInstall = .ok fsAfterFlat ∧
    read_local_version fsAfterFlat = Except.ok (some ("v2.0.0")) ∧
    update_proceeds (some ("v2.0.0")) ("v2.0.0") = true ∧
    mainModel inpFlat fsAfterFlat = .ok fsAfterFlat ∧
    mainModel inpCanon fsEmptyInstall = .ok fsAfterCanon ∧
    Res.isErr (mainModel inpCanon fsAfterCanon) = true :=
  ⟨by decide, rfl, by decide, by decide, by decide, by decide⟩

/-- C6: find_asset_url scans the asset list in order and returns the
download URL of the first asset whose name matches the archive-naming
pattern (the prefix frp_, a three-component numeric version, the literal
platform suffix _linux_amd64.tar.gz, anything after it), and returns none
rather than raising when no asset matches.  List.find? is the first match
in list order, so this single equation also gives the determinism clause:
of two matching assets, the earlier one wins. -/
theorem claimC6_find_asset_first_match :
    ∀ assets : List GAsset,
      find_asset_url assets
        = (List.find? (fun a => matchesArchiveName a.name) assets).map
            (fun a => a.browser_download_url) := by
  intro assets
  induction assets with
  | nil => rfl
  | cons a rest ih =>
    cases h : matchesArchiveName a.name with
    | true => simp [find_asset_url, List.find?_cons, h]
    | false => simp [find_asset_url, List.find?_cons, h, ih]

/-- C7 counterexample: the claim says every exit path removes all scratch
directories and the downloaded archive.  The code has no handler: when the
first extraction dies on a corrupt archive, the run ends with the download
directory and the downloaded archive file still present. -/
theorem claimC7_counterexample :
    Res.isErr (mainModel inpCorrupt fsPrior) = true ∧
    lookupFS (Res.fsys (mainModel inpCorrupt fsPrior)) ["temp"] = some FNode.dir ∧
    lookupFS (Res.fsys (mainModel inpCorrupt fsPrior))
        ["temp", "frp_2.0.0_linux_amd64.tar.gz"]
      = some (FNode.file ("ARCHIVE-BYTES")) :=
  ⟨by decide, by decide, by decide⟩

/-- C7 (amended): cleanup happens only on the success path.  A successful
run ends with no entry under the download directory temp and none under
the swap directory frp-temp; a run that fails partway leaves the download
directory and the archive file behind. -/
theorem claimC7_cleanup_success_only :
    List.all (Res.fsys (mainModel inpFlat fsEmptyInstall))
      (fun e => !(leadsTo ["temp"] e.1) && !(leadsTo ["frp-temp"] e.1)) = true ∧
    Res.isErr (mainModel inpCorrupt fsPrior) = true ∧
    lookupFS (Res.fsys (mainModel inpCorrupt fsPrior))
        ["temp", "frp_2.0.0_linux_amd64.tar.gz"]
      = some (FNode.file ("ARCHIVE-BYTES")) :=
  ⟨by decide, by decide, by decide⟩

/-- C8 counterexample: the claim says a run that finds no matching asset
mutates no local state, the installation directory included.  But line 26
runs os.makedirs(EXTRACT_DIR) at import time, before main: on a machine
with no prior installation, the no-asset run still creates the empty
installation directory. -/
theorem claimC8_counterexample :
    runScript inpNoMatch ([] : FSys) = .ok [((["frp"] : FPath), FNode.dir)] ∧
    lookupFS ([] : FSys) ["frp"] = none ∧
    find_asset_url relNoMatch.assets = none :=
  ⟨by decide, by decide, by decide⟩

/-- C8 (amended): when no asset matches, main itself returns with the
filesystem untouched — no download, no install, no version write; the only
mutation of the whole invocation is the module-level makedirs of the
installation directory at import, which creates it empty when absent. -/
theorem claimC8_no_asset_no_mutation (inp : MainInput) (fs : FSys)
    (h : find_asset_url inp.release.assets = none) :
    runScript inp fs = makedirsFS fs [EXTRACT_DIR] ∧
    ∀ fs1, mainModel inp fs1 = .ok fs1 := by
  have hmain : ∀ fs1, mainModel inp fs1 = .ok fs1 := by
    intro fs1
    unfold mainModel
    rw [h]
  refine ⟨?_, hmain⟩
  unfold runScript
  cases hm : makedirsFS fs [EXTRACT_DIR] with
  | ok fs1 =>
    simp only [Res.bind]
    exact hmain fs1
  | err m fs1 => rfl

/-- C8 witness: the amended theorem applied at the concrete no-match
release and a concrete prior state. -/
theorem claimC8_witness :
    find_asset_url relNoMatch.assets = none ∧
    runScript inpNoMatch fsPrior = makedirsFS fsPrior [EXTRACT_DIR] := by
  have h : find_asset_url inpNoMatch.release.assets = none := by decide
  exact ⟨h, (claimC8_no_asset_no_mutation inpNoMatch fsPrior h).1⟩

/-- C2 counterexample: the claim says an archive entry whose resolved path
escapes the staging area makes extraction fail, creating no file outside
the scratch area.  The code passes tar.extractall a filter returning every
member unchanged — the fully trusted behaviour — so the member named
../../evil is simply written at its resolved path, the working-directory
root, and extraction finishes with no error at all. -/
theorem claimC2_counterexample :
    extract_tar_gz archEvil ["frp-temp"] fsFreshTarget
      = Res.ok [((["evil"] : FPath), FNode.file ("pwn")),
                ((["frp-temp"] : FPath), FNode.dir)] ∧
    lookupFS fsFreshTarget ["evil"] = none ∧
    leadsTo ["frp-temp"] ["evil"] = false :=
  ⟨by decide, by decide, by decide⟩

/-- C2 (amended): extraction applies no path-escape check.  For every file
name n (a plain component other than the names of the two directories that
happen to exist here) and every content c, extracting the archive whose
sole member is named ../../n succeeds with no error and writes the file at
the OS-resolved path n — outside the staging area and outside the
extraction directory. -/
theorem claimC2_no_escape_check (n c : String) (hg : goodComp n)
    (hf : n ≠ "frp-temp") :
    extract_tar_gz (travArchive n c) ["frp-temp"] fsFreshTarget
      = Res.ok [(([n] : FPath), FNode.file c),
                ((["frp-temp"] : FPath), FNode.dir)] ∧
    leadsTo ["frp-temp", "temp"] [n] = false := by
  have hne1 : ¬ (["frp-temp", "temp"] : FPath) = [n] := by simp
  have hne2 : ¬ (["frp-temp"] : FPath) = [n] := by
    intro h
    have h2 : ("frp-temp" : String) = n := by simpa using h
    exact hf h2.symm
  have hfn : ¬ ("frp-temp" : String) = n := fun h => hf h.symm
  have hlead : leadsTo ["frp-temp", "temp"] [n] = false := by
    show (if ("frp-temp" : String) = n then leadsTo ["temp"] ([] : FPath) else false) = false
    by_cases hh : ("frp-temp" : String) = n
    · rw [if_pos hh]
      rfl
    · rw [if_neg hh]
  have hne0 : ¬ (n = "" ∨ n = ".") := by
    rintro (h | h)
    · exact hg.1 h
    · exact hg.2.1 h
  have happ : (["frp-temp", "temp"] : FPath) ++ ["..", "..", n]
      = ["frp-temp", "temp", "..", "..", n] := rfl
  have hnorm : normalizeP (["frp-temp", "temp", "..", "..", n]) = [n] := by
    show normSegs [] ["frp-temp", "temp", "..", "..", n] = [n]
    have hstep : normSegs [] ["frp-temp", "temp", "..", "..", n] = normSegs [] [n] := rfl
    rw [hstep]
    show (if n = "" ∨ n = "." then normSegs [] []
          else if n = ".." then normSegs (([] : FPath).dropLast) []
          else normSegs ([] ++ [n]) []) = [n]
    rw [if_neg hne0, if_neg hg.2.2]
    rfl
  have h1 : makedirsFS fsFreshTarget ["frp-temp", "temp"]
      = .ok [((["frp-temp", "temp"] : FPath), FNode.dir),
             ((["frp-temp"] : FPath), FNode.dir)] := by decide
  have hlook1 : lookupFS [((["frp-temp", "temp"] : FPath), FNode.dir),
      ((["frp-temp"] : FPath), FNode.dir)] [n] = none := by
    show (if (["frp-temp", "temp"] : FPath) = [n] then some FNode.dir
          else if (["frp-temp"] : FPath) = [n] then some FNode.dir
          else lookupFS [] [n]) = none
    rw [if_neg hne1, if_neg hne2]
    rfl
  have hd1 : decide ((["frp-temp", "temp"] : FPath) ≠ [n]) = true := decide_eq_true hne1
  have hd2 : decide ((["frp-temp"] : FPath) ≠ [n]) = true := decide_eq_true hne2
  have herase : eraseFS [((["frp-temp", "temp"] : FPath), FNode.dir),
      ((["frp-temp"] : FPath), FNode.dir)] [n]
      = [((["frp-temp", "temp"] : FPath), FNode.dir),
         ((["frp-temp"] : FPath), FNode.dir)] := by
    show List.filter (fun e => decide (e.1 ≠ [n]))
        [((["frp-temp", "temp"] : FPath), FNode.dir),
         ((["frp-temp"] : FPath), FNode.dir)]
      = [((["frp-temp", "temp"] : FPath), FNode.dir),
         ((["frp-temp"] : FPath), FNode.dir)]
    simp [List.filter_cons, hd1, hd2, hfn]
  have hpo : parentOkFS [((["frp-temp", "temp"] : FPath), FNode.dir),
      ((["frp-temp"] : FPath), FNode.dir)] [n] = true := rfl
  have hwrite : writeFileFS [((["frp-temp", "temp"] : FPath), FNode.dir),
      ((["frp-temp"] : FPath), FNode.dir)] [n] c
      = .ok ((([n] : FPath), FNode.file c)
          :: [((["frp-temp", "temp"] : FPath), FNode.dir),
              ((["frp-temp"] : FPath), FNode.dir)]) := by
    unfold writeFileFS
    simp only [hpo, if_true]
    rw [hlook1]
    show Res.ok (insertFS [((["frp-temp", "temp"] : FPath), FNode.dir),
        ((["frp-temp"] : FPath), FNode.dir)] [n] (FNode.file c)) = _
    unfold insertFS
    rw [herase]
  have hstep2 : extractList ["frp-temp", "temp"]
      [TarEntry.fileE ["..", "..", n] c] none
      [((["frp-temp", "temp"] : FPath), FNode.dir),
       ((["frp-temp"] : FPath), FNode.dir)]
      = .ok ((([n] : FPath), FNode.file c)
          :: [((["frp-temp", "temp"] : FPath), FNode.dir),
              ((["frp-temp"] : FPath), FNode.dir)]) := by
    show Res.bind (Res.bind (makedirsFS
        [((["frp-temp", "temp"] : FPath), FNode.dir),
         ((["frp-temp"] : FPath), FNode.dir)]
        ((normalizeP ((["frp-temp", "temp"] : FPath) ++ ["..", "..", n])).dropLast))
        (fun fsw => writeFileFS fsw
          (normalizeP ((["frp-temp", "temp"] : FPath) ++ ["..", "..", n])) c))
        (fun fsb => extractList ["frp-temp", "temp"] [] none fsb)
        = _
    rw [happ, hnorm]
    show Res.bind (writeFileFS
        [((["frp-temp", "temp"] : FPath), FNode.dir),
         ((["frp-temp"] : FPath), FNode.dir)] [n] c)
        (fun fsb => extractList ["frp-temp", "temp"] [] none fsb) = _
    rw [hwrite]
    rfl
  have hcn : childName (["frp-temp", "temp"] : FPath) [n] = none := by
    unfold childName
    have hsl : stripLead (["frp-temp", "temp"] : FPath) [n] = none := by
      show (if ("frp-temp" : String) = n then stripLead ["temp"] ([] : FPath)
            else none) = none
      by_cases hh : ("frp-temp" : String) = n
      · rw [if_pos hh]
        rfl
      · rw [if_neg hh]
    rw [hsl]
  have hchild : childNamesFS ((([n] : FPath), FNode.file c)
      :: [((["frp-temp", "temp"] : FPath), FNode.dir),
          ((["frp-temp"] : FPath), FNode.dir)]) ["frp-temp", "temp"] = [] := by
    show List.filterMap (fun e => childName ["frp-temp", "temp"] e.1)
        ((([n] : FPath), FNode.file c)
          :: [((["frp-temp", "temp"] : FPath), FNode.dir),
              ((["frp-temp"] : FPath), FNode.dir)]) = []
    simp only [List.filterMap_cons]
    rw [hcn]
    rfl
  have hlk : lookupFS ((([n] : FPath), FNode.file c)
      :: [((["frp-temp", "temp"] : FPath), FNode.dir),
          ((["frp-temp"] : FPath), FNode.dir)]) ["frp-temp", "temp"]
      = some FNode.dir := by
    show (if ([n] : FPath) = ["frp-temp", "temp"] then some (FNode.file c)
          else if (["frp-temp", "temp"] : FPath) = ["frp-temp", "temp"] then some FNode.dir
          else if (["frp-temp"] : FPath) = ["frp-temp", "temp"] then some FNode.dir
          else lookupFS [] ["frp-temp", "temp"]) = some FNode.dir
    rw [if_neg (fun hx => hne1 hx.symm)]
    rfl
  have hdesc : hasStrictDesc ((([n] : FPath), FNode.file c)
      :: [((["frp-temp", "temp"] : FPath), FNode.dir),
          ((["frp-temp"] : FPath), FNode.dir)]) ["frp-temp", "temp"] = false := by
    show ((leadsTo ["frp-temp", "temp"] [n]
          && decide (([n] : FPath) ≠ ["frp-temp", "temp"]))
        || List.any [((["frp-temp", "temp"] : FPath), FNode.dir),
             ((["frp-temp"] : FPath), FNode.dir)]
             (fun e => leadsTo ["frp-temp", "temp"] e.1
               && decide (e.1 ≠ ["frp-temp", "temp"]))) = false
    rw [hlead]
    rfl
  have hlast : rmdirFS ((([n] : FPath), FNode.file c)
      :: [((["frp-temp", "temp"] : FPath), FNode.dir),
          ((["frp-temp"] : FPath), FNode.dir)]) ["frp-temp", "temp"]
      = .ok [(([n] : FPath), FNode.file c), ((["frp-temp"] : FPath), FNode.dir)] := by
    unfold rmdirFS
    rw [hlk]
    simp only [hdesc, Bool.false_eq_true, if_false]
    have herase2 : eraseFS ((([n] : FPath), FNode.file c)
        :: [((["frp-temp", "temp"] : FPath), FNode.dir),
            ((["frp-temp"] : FPath), FNode.dir)]) ["frp-temp", "temp"]
        = [(([n] : FPath), FNode.file c), ((["frp-temp"] : FPath), FNode.dir)] := by
      have hd0 : decide (([n] : FPath) ≠ ["frp-temp", "temp"]) = true :=
        decide_eq_true (fun hx => hne1 hx.symm)
      show List.filter (fun e => decide (e.1 ≠ ["frp-temp", "temp"]))
          ((([n] : FPath), FNode.file c)
            :: [((["frp-temp", "temp"] : FPath), FNode.dir),
                ((["frp-temp"] : FPath), FNode.dir)])
          = [(([n] : FPath), FNode.file c), ((["frp-temp"] : FPath), FNode.dir)]
      simp [List.filter_cons, hd0]
    rw [herase2]
  refine ⟨?_, hlead⟩
  show Res.bind (makedirsFS fsFreshTarget ["frp-temp", "temp"]) (fun fsa =>
      Res.bind (extractList ["frp-temp", "temp"]
          [TarEntry.fileE ["..", "..", n] c] none fsa) (fun fsb =>
      Res.bind (outerMove ["frp-temp", "temp"] ["frp-temp"]
          (childNamesFS fsb ["frp-temp", "temp"]) fsb) (fun fsc =>
      rmdirFS fsc ["frp-temp", "temp"])))
      = Res.ok [(([n] : FPath), FNode.file c), ((["frp-temp"] : FPath), FNode.dir)]
  rw [h1]
  simp only [Res.bind]
  rw [hstep2]
  simp only [Res.bind]
  rw [hchild]
  show Res.bind (Res.ok ((([n] : FPath), FNode.file c)
      :: [((["frp-temp", "temp"] : FPath), FNode.dir),
          ((["frp-temp"] : FPath), FNode.dir)]))
      (fun fsc => rmdirFS fsc ["frp-temp", "temp"]) = _
  simp only [Res.bind]
  rw [hlast]

/-- C2 witness: the amended theorem instantiated at the member name evil
with content pwn. -/
theorem claimC2_witness :
    extract_tar_gz (travArchive ("evil") ("pwn")) ["frp-temp"] fsFreshTarget
      = Res.ok [((["evil"] : FPath), FNode.file ("pwn")),
                ((["frp-temp"] : FPath), FNode.dir)] ∧
    leadsTo ["frp-temp", "temp"] ["evil"] = false :=
  claimC2_no_escape_check ("evil") ("pwn")
    ⟨by decide, by decide, by decide⟩ (by decide)

/-- C9 counterexample: the claim says a failed run leaves the persisted
version file unchanged.  Because extraction places members at their
resolved paths with no escape check, an archive member named
../../local_version.txt overwrites the version file during extraction;
when the stream then turns out corrupt the run fails with the version file
already clobbered. -/
theorem claimC9_counterexample :
    Res.isErr (mainModel inpClobber fsPrior) = true ∧
    lookupFS fsPrior [LOCAL_VERSION_FILE] = some (FNode.file ("v1.0.0")) ∧
    lookupFS (Res.fsys (mainModel inpClobber fsPrior)) [LOCAL_VERSION_FILE]
      = some (FNode.file ("junk")) :=
  ⟨by decide, by decide, by decide⟩

/-- C9 (amended): provided no archive member path carries a traversal or
empty component (so extraction stays inside the extraction directories),
the version file is written only after the install has fully succeeded:
every failing run leaves the stored version exactly as it was, and a
successful run either changed nothing at all (no matching asset, or the
version guard stopped it) or ends with the version file holding exactly
the new release tag, written once by the single full-file overwrite of
write_local_version. -/
theorem claimC9_version_lifecycle (inp : MainInput) (fs : FSys)
    (hgood : ∀ e ∈ inp.archive.entries, goodPath e.path) :
    (∀ m fs2, mainModel inp fs = .err m fs2 →
        lookupFS fs2 [LOCAL_VERSION_FILE] = lookupFS fs [LOCAL_VERSION_FILE]) ∧
    (∀ fs2, mainModel inp fs = .ok fs2 →
        fs2 = fs ∨ lookupFS fs2 [LOCAL_VERSION_FILE]
          = some (FNode.file inp.release.tag_name)) :=
  mainModel_version_lifecycle inp fs hgood

/-- C9 witness: the amended theorem applied at the flat-archive input on a
fresh machine: the run succeeds and the version file holds the new tag. -/
theorem claimC9_witness :
    mainModel inpFlat fsEmptyInstall = .ok fsAfterFlat ∧
    lookupFS fsAfterFlat [LOCAL_VERSION_FILE]
      = some (FNode.file inpFlat.release.tag_name) := by
  have hrun : mainModel inpFlat fsEmptyInstall = .ok fsAfterFlat := by decide
  have h := (claimC9_version_lifecycle inpFlat fsEmptyInstall (by decide)).2
    fsAfterFlat hrun
  refine ⟨hrun, ?_⟩
  rcases h with h1 | h2
  · exact absurd h1 (by decide)
  · exact h2

/-- C5 counterexample: the unwrap convention breaks when the wrapper
directory holds an item named "temp", the name of the internal staging
subdirectory: moving pkg/temp onto extract_to/temp — the staging directory
itself, a non-empty directory — makes os.rename raise ENOTEMPTY, the
extraction fails, and the payload file pkg/temp/x is never installed at
extract_to/temp/x. -/
theorem claimC5_counterexample :
    Res.isErr (extract_tar_gz archTempClash ["frp-temp"] fsFreshTarget) = true ∧
    lookupFS (Res.fsys (extract_tar_gz archTempClash ["frp-temp"] fsFreshTarget))
      ["frp-temp", "temp", "x"] = none :=
  ⟨by decide, by decide⟩

/-- C5 (amended): for an archive whose sole top-level entry is a single
wrapper directory w holding the payload, with every payload member under a
second-level name other than "temp" (the staging subdirectory's own name,
which collides with the rename destinations — see the counterexample),
installation unwraps the wrapper: extraction succeeds, and afterwards the
extraction directory holds at each relative path r exactly what the
archive held at w/r — the payload files a and b/c sit directly at the
root, not nested under w — while everything outside the extraction
directory is untouched. -/
theorem claimC5_unwrap_payload (base : FPath) (w : String)
    (payload : List TarEntry) (fs : FSys)
    (hbG : goodPath base) (hbNe : base ≠ [])
    (hW : WFfs fs)
    (hbanc : ∀ q, q ≠ [] → leadsTo q base = true → lookupFS fs q = some FNode.dir)
    (hbempty : ∀ q, properLead base q = true → lookupFS fs q = none)
    (hwG : goodComp w)
    (hsh : ∀ e ∈ payload, ∃ n t, e.path = w :: n :: t ∧ n ≠ "temp" ∧ goodPath e.path)
    (hnd : ((TarEntry.dirE [w] :: payload).map TarEntry.path).Nodup)
    (hnfa : noFileAncestor (TarEntry.dirE [w] :: payload)) :
    ∃ fs5, extract_tar_gz ⟨TarEntry.dirE [w] :: payload, none⟩ base fs = .ok fs5 ∧
      (∀ r, r ≠ [] → lookupFS fs5 (base ++ r) = stageLookup payload (w :: r)) ∧
      (∀ q, leadsTo base q = false → leadsTo q base = false →
        lookupFS fs5 q = lookupFS fs q) ∧
      (∀ q, q ≠ [] → leadsTo q base = true → lookupFS fs5 q = some FNode.dir) :=
  extract_tar_gz_wrapped base w payload fs hbG hbNe hW hbanc hbempty hwG hsh hnd hnfa

/-- C5 witness: the amended theorem applied to the spec's canonical archive
pkg containing a and b/c, extracted into a fresh frp-temp directory. -/
theorem claimC5_witness :
    ∃ fs5, extract_tar_gz ⟨TarEntry.dirE ["pkg"] ::
        [TarEntry.fileE ["pkg", "a"] "A", TarEntry.dirE ["pkg", "b"],
          TarEntry.fileE ["pkg", "b", "c"] "C"], none⟩
      ["frp-temp"] fsFreshTarget = .ok fs5 ∧
      (∀ r, r ≠ [] → lookupFS fs5 (["frp-temp"] ++ r)
        = stageLookup [TarEntry.fileE ["pkg", "a"] "A", TarEntry.dirE ["pkg", "b"],
            TarEntry.fileE ["pkg", "b", "c"] "C"] ("pkg" :: r)) ∧
      (∀ q, leadsTo ["frp-temp"] q = false → leadsTo q ["frp-temp"] = false →
        lookupFS fs5 q = lookupFS fsFreshTarget q) ∧
      (∀ q, q ≠ [] → leadsTo q ["frp-temp"] = true →
        lookupFS fs5 q = some FNode.dir) :=
  claimC5_unwrap_payload ["frp-temp"] "pkg"
    [TarEntry.fileE ["pkg", "a"] "A", TarEntry.dirE ["pkg", "b"],
      TarEntry.fileE ["pkg", "b", "c"] "C"] fsFreshTarget
    (by decide) (by decide) (by decide)
    (by
      intro q hq hl
      rcases leadsTo_singleton q "frp-temp" hl with rfl | rfl
      · exact absurd rfl hq
      · decide)
    (by
      intro q hq
      obtain ⟨hl, hne⟩ := (properLead_iff _ _).mp hq
      obtain ⟨r, rfl⟩ := (leadsTo_iff _ _).mp hl
      show (if (["frp-temp"] : FPath) = ["frp-temp"] ++ r then some FNode.dir
        else none) = none
      rw [if_neg hne])
    (by decide)
    (by
      intro e he
      simp at he
      rcases he with rfl | rfl | rfl
      · exact ⟨"a", [], rfl, by decide, by decide⟩
      · exact ⟨"b", [], rfl, by decide, by decide⟩
      · exact ⟨"b", ["c"], rfl, by decide, by decide⟩)
    (by decide) (by decide)

/-- C10: an archive whose root holds, besides the usual single wrapper
directory, a stray top-level regular file makes extraction fail: the outer
move loop only moves the contents of top-level directories (the stray is
skipped by the os.path.isdir test), the stray file stays inside the
internal staging subdirectory extract_to/temp, the final os.rmdir of that
now non-empty staging subdirectory raises ENOTEMPTY, and the stray file is
never installed into the extraction directory itself. -/
theorem claimC10_stray_top_file (base : FPath) (w f c : String)
    (payload : List TarEntry) (fs : FSys)
    (hbG : goodPath base) (hbNe : base ≠ [])
    (hW : WFfs fs)
    (hbanc : ∀ q, q ≠ [] → leadsTo q base = true → lookupFS fs q = some FNode.dir)
    (hbempty : ∀ q, properLead base q = true → lookupFS fs q = none)
    (hwG : goodComp w) (hfG : goodComp f) (hfw : f ≠ w) (hft : f ≠ "temp")
    (hsh : ∀ e ∈ payload,
      ∃ n t, e.path = w :: n :: t ∧ n ≠ "temp" ∧ n ≠ f ∧ goodPath e.path)
    (hnd : ((TarEntry.dirE [w] :: (payload ++ [TarEntry.fileE [f] c])).map
      TarEntry.path).Nodup)
    (hnfa : noFileAncestor
      (TarEntry.dirE [w] :: (payload ++ [TarEntry.fileE [f] c]))) :
    Res.isErr (extract_tar_gz
      ⟨TarEntry.dirE [w] :: (payload ++ [TarEntry.fileE [f] c]), none⟩ base fs)
      = true ∧
    lookupFS (Res.fsys (extract_tar_gz
      ⟨TarEntry.dirE [w] :: (payload ++ [TarEntry.fileE [f] c]), none⟩ base fs))
      ((base ++ ["temp"]) ++ [f]) = some (FNode.file c) ∧
    lookupFS (Res.fsys (extract_tar_gz
      ⟨TarEntry.dirE [w] :: (payload ++ [TarEntry.fileE [f] c]), none⟩ base fs))
      (base ++ [f]) = none :=
  extract_tar_gz_stray base w f c payload fs hbG hbNe hW hbanc hbempty
    hwG hfG hfw hft hsh hnd hnfa

/-- C10 witness: the theorem applied to an archive holding the wrapper pkg
(with payload file pkg/a) and a stray top-level file README. -/
theorem claimC10_witness :
    Res.isErr (extract_tar_gz
      ⟨TarEntry.dirE ["pkg"] :: ([TarEntry.fileE ["pkg", "a"] "A"]
        ++ [TarEntry.fileE ["README"] "R"]), none⟩ ["frp-temp"] fsFreshTarget)
      = true ∧
    lookupFS (Res.fsys (extract_tar_gz
      ⟨TarEntry.dirE ["pkg"] :: ([TarEntry.fileE ["pkg", "a"] "A"]
        ++ [TarEntry.fileE ["README"] "R"]), none⟩ ["frp-temp"] fsFreshTarget))
      ((["frp-temp"] ++ ["temp"]) ++ ["README"]) = some (FNode.file "R") ∧
    lookupFS (Res.fsys (extract_tar_gz
      ⟨TarEntry.dirE ["pkg"] :: ([TarEntry.fileE ["pkg", "a"] "A"]
        ++ [TarEntry.fileE ["README"] "R"]), none⟩ ["frp-temp"] fsFreshTarget))
      (["frp-temp"] ++ ["README"]) = none :=
  claimC10_stray_top_file ["frp-temp"] "pkg" "README" "R"
    [TarEntry.fileE ["pkg", "a"] "A"] fsFreshTarget
    (by decide) (by decide) (by decide)
    (by
      intro q hq hl
      rcases leadsTo_singleton q "frp-temp" hl with rfl | rfl
      · exact absurd rfl hq
      · decide)
    (by
      intro q hq
      obtain ⟨hl, hne⟩ := (properLead_iff _ _).mp hq
      obtain ⟨r, rfl⟩ := (leadsTo_iff _ _).mp hl
      show (if (["frp-temp"] : FPath) = ["frp-temp"] ++ r then some FNode.dir
        else none) = none
      rw [if_neg hne])
    (by decide) (by decide) (by decide) (by decide)
    (by
      intro e he
      simp at he
      subst he
      exact ⟨"a", [], rfl, by decide, by decide, by decide⟩)
    (by decide) (by decide)

end Frp
